import Mathlib

/-!
# A verification model of the `rta` reachability engine

This file is a shallow embedding, in Lean 4, of the modified Rapid Type
Analysis engine of `internal/rta/rta.go` (a fork of
`golang.org/x/tools/go/callgraph/rta`).  Go pointers are modelled by
`Option`, Go maps by association lists, `types.Type` by the inductive
`GoType`, and the SSA program by a `Program` record whose `methodSet`
field is an oracle function (the engine borrows method sets from the SSA
program and never constructs them, so the method-set cache is a program
input, not engine state).  The mutually recursive runtime-type
materialization (`addRuntimeType`/`addRuntimeTypeStructure`) walks a
possibly cyclic type graph in Go, terminating via the `RuntimeTypes` seen
set; here types are finite trees and the recursion carries an explicit
fuel bound, with theorems quantified over all sufficiently large fuels.
-/

namespace Rta

/-! ## Association lists (Go maps / typeutil.Map) -/

/-- Lookup in an association list (`map[K]V` access / `typeutil.Map.At`). -/
def alookup {α β : Type} [DecidableEq α] : List (α × β) → α → Option β
  | [], _ => none
  | (k', v) :: t, k => if k = k' then some v else alookup t k

/-- Update/insert in an association list (`m[k] = v` / `typeutil.Map.Set`). -/
def aset {α β : Type} [DecidableEq α] : List (α × β) → α → β → List (α × β)
  | [], k, v => [(k, v)]
  | (k', v') :: t, k, v =>
    if k = k' then (k, v) :: t else (k', v') :: aset t k v

theorem alookup_aset_self {α β : Type} [DecidableEq α]
    (l : List (α × β)) (k : α) (v : β) : alookup (aset l k v) k = some v := by
  induction l with
  | nil => simp [aset, alookup]
  | cons hd t ih =>
    by_cases h : k = hd.1
    · simp [aset, h, alookup]
    · simp [aset, alookup, h, ih]

theorem alookup_aset_ne {α β : Type} [DecidableEq α]
    (l : List (α × β)) (k k' : α) (v : β) (h : k' ≠ k) :
    alookup (aset l k v) k' = alookup l k' := by
  induction l with
  | nil => simp [aset, alookup, h]
  | cons hd t ih =>
    by_cases hk : k = hd.1
    · subst hk
      simp [aset, alookup, h]
    · by_cases hk' : k' = hd.1
      · simp [aset, hk, alookup, hk']
      · simp [aset, hk, alookup, hk', ih]

/-- `alookup` after `aset`: the general case. -/
theorem alookup_aset {α β : Type} [DecidableEq α]
    (l : List (α × β)) (k k' : α) (v : β) :
    alookup (aset l k v) k' = if k' = k then some v else alookup l k' := by
  by_cases h : k' = k
  · subst h; simp [alookup_aset_self]
  · simp [h, alookup_aset_ne l k k' v h]

/-! ## Identifiers and the CRC32 fingerprint

`go/types` identifies a method by `types.Id(pkg, name)`: the bare name if
it is exported, otherwise the package path (or `_` for a nil package)
joined by a dot.  Exportedness is decided by the first character being
upper-case. -/

/-- Model of `token.IsExported` (first character upper-case). -/
def isExportedName (s : String) : Bool :=
  match s.data with
  | [] => false
  | c :: _ => c.isUpper

/-- Model of `types.Id(pkg, name)`. -/
def methodId (pkg : Option String) (name : String) : String :=
  if isExportedName name then name
  else (match pkg with | none => "_" | some p => p) ++ "." ++ name

/-- Bytes of a string.  Method identifiers are ASCII, where UTF-8 bytes
coincide with code points. -/
def strBytes (s : String) : List Nat := s.data.map Char.toNat

/-- One bit-step of the reflected CRC-32 (IEEE polynomial 0xEDB88320). -/
def crc32Bit (c : Nat) : Nat :=
  if c % 2 = 1 then (c / 2) ^^^ 0xEDB88320 else c / 2

/-- Consume one byte of input (8 bit-steps), as `hash/crc32` does. -/
def crc32Byte (c b : Nat) : Nat :=
  (List.range 8).foldl (fun acc _ => crc32Bit acc) (c ^^^ (b % 256))

/-- Model of `crc32.ChecksumIEEE`. -/
def crc32 (bytes : List Nat) : Nat :=
  (bytes.foldl crc32Byte 0xFFFFFFFF) ^^^ 0xFFFFFFFF

/-- A method as the engine observes one through a method set: defining
package path (`none` models a nil package, e.g. `error.Error`), name,
parameter and result counts of its signature, the `ssa.Function`
implementing it if any (`prog.MethodValue`), and its `types.Object`
identity (used for `ReachableObjects`).  Signatures are abstracted to
their arities, which is exactly what `Fingerprint` reads; method-set
lookups match by `types.Id`. -/
structure Method where
  pkg : Option String
  name : String
  nparams : Nat
  nresults : Nat
  fn : Option String
  obj : String
deriving DecidableEq, Repr

/-- The CRC input for one method.  The source builds it with
`fmt.Appendf(space[:], "%s/%d/%d", method.Id(), params, results)` where
`space` is a zeroed 64-byte array, so the formatted text is appended
after 64 zero bytes. -/
def fpBytes (m : Method) : List Nat :=
  List.replicate 64 0 ++
    strBytes (methodId m.pkg m.name ++ "/" ++ toString m.nparams ++ "/" ++
      toString m.nresults)

/-- Model of `Fingerprint`: a 64-bit mask with one bit per method,
bit index `crc32(id/params/results) mod 64`. -/
def Fingerprint (mset : List Method) : Nat :=
  mset.foldl (fun mask m => mask ||| (1 <<< (crc32 (fpBytes m) % 64))) 0

/-- Bitwise complement on 64-bit words (Go `^x` on `uint64`). -/
def compl64 (x : Nat) : Nat := x ^^^ (2 ^ 64 - 1)

/-- Model of `types.MethodSet.Lookup(pkg, name)`: find the method whose
`types.Id` equals `types.Id(pkg, name)`. -/
def msetLookup (mset : List Method) (pkg : Option String) (name : String) :
    Option Method :=
  mset.find? (fun m => methodId m.pkg m.name = methodId pkg name)

/-- Mset-level model of `types.Implements(C, I)` for interface method
list `msI`: every interface method is found in `C`'s method set by its
`types.Id`, with an identical signature (abstracted to arities). -/
def msetImplements (msC msI : List Method) : Bool :=
  msI.all (fun im =>
    match msetLookup msC im.pkg im.name with
    | some m => m.nparams = im.nparams ∧ m.nresults = im.nresults
    | none => false)

/-! ## Types (`go/types`) -/

/-- Model of `types.Type`.  `sig` carries its parameter and result tuples
(in `go/types` both are `*types.Tuple`); `named` carries its name, its
underlying type and the signature type of each of its declared methods
(`t.Method(i).Type()`); `iface` carries its method list.  Type identity
(`types.Identical`, used by `typeutil.Map` keys) is structural for
unnamed types and nominal for named types; in a well-formed program each
named type name has a single definition, so structural equality of these
trees models `types.Identical`. -/
inductive GoType where
  | basic (name : String)
  | pointer (elem : GoType)
  | slice (elem : GoType)
  | array (elem : GoType)
  | chanT (elem : GoType)
  | mapT (key elem : GoType)
  | structT (fields : List GoType)
  | tuple (comps : List GoType)
  | sig (params results : GoType)
  | named (name : String) (underlying : GoType) (methodSigs : List GoType)
  | iface (methods : List Method)
  | alias (target : GoType)
  | typeparam (name : String)

mutual

/-- Boolean structural equality on `GoType` (decidable equality is not
derivable for nested inductives, so it is spelled out). -/
def GoType.beq : GoType → GoType → Bool
  | .basic a, .basic b => a == b
  | .pointer a, .pointer b => GoType.beq a b
  | .slice a, .slice b => GoType.beq a b
  | .array a, .array b => GoType.beq a b
  | .chanT a, .chanT b => GoType.beq a b
  | .mapT k v, .mapT k' v' => GoType.beq k k' && GoType.beq v v'
  | .structT fs, .structT gs => GoType.beqList fs gs
  | .tuple fs, .tuple gs => GoType.beqList fs gs
  | .sig a b, .sig a' b' => GoType.beq a a' && GoType.beq b b'
  | .named n u ms, .named n' u' ms' =>
    n == n' && GoType.beq u u' && GoType.beqList ms ms'
  | .iface m, .iface m' => m == m'
  | .alias t, .alias t' => GoType.beq t t'
  | .typeparam n, .typeparam n' => n == n'
  | _, _ => false

def GoType.beqList : List GoType → List GoType → Bool
  | [], [] => true
  | a :: as, b :: bs => GoType.beq a b && GoType.beqList as bs
  | _, _ => false

end

set_option maxHeartbeats 1000000 in
theorem GoType.eq_of_beq : ∀ a b : GoType, GoType.beq a b = true → a = b := by
  intro a
  induction a using GoType.rec
    (motive_2 := fun as => ∀ bs, GoType.beqList as bs = true → as = bs)
  all_goals intros
  all_goals rename_i b h
  all_goals
    cases b <;> simp_all [GoType.beq, GoType.beqList] <;>
      (try obtain ⟨⟨h0, h1⟩, h2⟩ := h) <;> (try obtain ⟨h1, h2⟩ := h) <;>
      (try refine ⟨?_, ?_⟩) <;> solve_by_elim

set_option maxHeartbeats 1000000 in
theorem GoType.beq_refl : ∀ a : GoType, GoType.beq a a = true := by
  intro a
  induction a using GoType.rec
    (motive_2 := fun as => GoType.beqList as as = true) <;>
  simp_all [GoType.beq, GoType.beqList]

instance : DecidableEq GoType := fun a b =>
  if h : GoType.beq a b = true then isTrue (GoType.eq_of_beq a b h)
  else isFalse (fun he => h (he ▸ GoType.beq_refl a))

/-- Model of `types.Unalias`: resolve a chain of alias nodes. -/
def unalias : GoType → GoType
  | .alias t => unalias t
  | t => t

/-- Model of `types.Type.Underlying()`. -/
def underlyingOf : GoType → GoType
  | .named _ u _ => u
  | .alias t => underlyingOf t
  | t => t

/-- `_, ok := T.Underlying().(*types.Interface)`. -/
def isIfaceUnder (T : GoType) : Bool :=
  match underlyingOf T with
  | .iface _ => true
  | _ => false

/-- The method list of an interface type node.  SSA guarantees the
argument is an interface wherever the engine performs this coercion. -/
def ifaceMethods : GoType → List Method
  | .iface ms => ms
  | _ => []

/-- Model of `types.Implements(T, iface)`: every interface method is in
`T`'s method set (found by `types.Id`) with an identical signature. -/
def typesImplements (p : GoType → List Method) (T I : GoType) : Bool :=
  match underlyingOf I with
  | .iface ms => msetImplements (p T) ms
  | _ => false

/-! ## SSA values, instructions, functions, program -/

/-- Model of `ssa.Value` as the engine inspects one: a function constant,
a builtin, a `MakeInterface` value, a `MakeClosure` value, or anything
else (register, const, global, ...). -/
inductive SSAValue where
  | fn (id : String)
  | builtin (name : String)
  | makeIface (x : SSAValue)
  | makeClosure (f : SSAValue)
  | otherValue (id : String)
deriving DecidableEq, Repr

/-- Model of `ssa.CallCommon`.  `sigId` is the identity of
`Signature()`, the key of the two signature-indexed tables.  For invoke
mode, `methodPkg`/`methodName` describe `Method` and `ifaceT` is
`Value.Type().Underlying()` (an interface). -/
structure CallCommon where
  isInvoke : Bool
  value : Option SSAValue
  args : List SSAValue
  sigId : String
  methodPkg : Option String
  methodName : String
  ifaceT : GoType
deriving DecidableEq

/-- Model of `ssa.CallCommon.StaticCallee()`: the callee of a trivially
static call — a `*ssa.Function` value, or the `Fn` of a `MakeClosure`.
In invoke mode `Value` is the interface operand, never a function. -/
def staticCallee (c : CallCommon) : Option String :=
  if c.isInvoke then none
  else
    match c.value with
    | some (.fn g) => some g
    | some (.makeClosure (.fn g)) => some g
    | _ => none

/-- The instruction variants `visitFunc` dispatches on, each carrying the
operand values its `Operands` slice exposes (for calls, the engine drops
the call-position operand and walks the arguments). -/
inductive Instr where
  | call (c : CallCommon)
  | makeInterface (target xType : GoType) (x : SSAValue)
  | typeAssert (xType asserted : GoType) (x : SSAValue)
  | changeInterface (target : GoType) (x : SSAValue)
  | otherInstr (operands : List SSAValue)
deriving DecidableEq

/-- `types.Object` data of a function: defining package path (`none`
models a nil `Pkg()`) and name. -/
structure ObjInfo where
  pkg : Option String
  name : String
deriving DecidableEq, Repr

/-- Per-function data the engine reads from an `ssa.Function`: its
`String()` form (the `knownSafeFunctions` key), its `Object()` (`none`
models nil), its `Origin()` (`none` models nil), its basic blocks, the
identity of its `Signature`, and the path of its package (`none` models a
nil `f.Pkg` or `f.Pkg.Pkg`). -/
structure FuncData where
  str : String
  obj : Option ObjInfo
  origin : Option String
  blocks : List (List Instr)
  sigId : String
  pkgPath : Option String
deriving DecidableEq

/-- An `ssa.Package`: its `types.Package` path (`none` models a nil
`pkg.Pkg`) and the `Object().Type()` of each `*ssa.Type` member. -/
structure PackageData where
  path : Option String
  typeMembers : List GoType
deriving DecidableEq

/-- The SSA program.  `methodSet` is `prog.MethodSets.MethodSet`: the
engine borrows method sets from the program and never builds its own, so
the cache is an oracle input.  `reflectValueCall` is the function
`(*reflect.Value).Call` when the `reflect` package is imported (the
lookup Analyze performs on entry). -/
structure Program where
  funcs : List (String × FuncData)
  packages : List PackageData
  methodSet : GoType → List Method
  reflectValueCall : Option String

/-- The identities of the program's functions. -/
def Program.ids (p : Program) : List String := p.funcs.map Prod.fst

def Program.getFunc (p : Program) (f : String) : Option FuncData :=
  alookup p.funcs f

/-- `f.Signature` as a table key. -/
def Program.sigOf (p : Program) (f : String) : String :=
  match p.getFunc f with
  | some fd => fd.sigId
  | none => ""

/-- `f.Blocks`. -/
def Program.blocksOf (p : Program) (f : String) : List (List Instr) :=
  match p.getFunc f with
  | some fd => fd.blocks
  | none => []

/-- The `knownSafeFunctions` table: reflection-consuming library
functions mapped to the method names they actually invoke. -/
def knownSafeFunctions : List (String × List String) :=
  [("encoding/json.Marshal", ["MarshalJSON", "MarshalText"]),
   ("encoding/json.MarshalIndent", ["MarshalJSON", "MarshalText"]),
   ("encoding/json.Unmarshal", ["UnmarshalJSON", "UnmarshalText"]),
   ("(*encoding/json.Encoder).Encode", ["MarshalJSON", "MarshalText"]),
   ("(*encoding/json.Decoder).Decode", ["UnmarshalJSON", "UnmarshalText"]),
   ("fmt.Printf", ["String", "GoString", "Error", "Format"]),
   ("fmt.Sprintf", ["String", "GoString", "Error", "Format"]),
   ("fmt.Fprintf", ["String", "GoString", "Error", "Format"]),
   ("fmt.Print", ["String", "GoString", "Error"]),
   ("fmt.Sprint", ["String", "GoString", "Error"]),
   ("fmt.Fprint", ["String", "GoString", "Error"]),
   ("fmt.Println", ["String", "GoString", "Error"]),
   ("fmt.Sprintln", ["String", "GoString", "Error"]),
   ("fmt.Fprintln", ["String", "GoString", "Error"]),
   ("fmt.Errorf", ["String", "GoString", "Error", "Format"]),
   ("encoding/xml.Marshal", ["MarshalXML", "MarshalXMLAttr"]),
   ("encoding/xml.MarshalIndent", ["MarshalXML", "MarshalXMLAttr"]),
   ("encoding/xml.Unmarshal", ["UnmarshalXML", "UnmarshalXMLAttr"]),
   ("(*encoding/xml.Encoder).Encode", ["MarshalXML", "MarshalXMLAttr"]),
   ("(*encoding/xml.Decoder).Decode", ["UnmarshalXML", "UnmarshalXMLAttr"]),
   ("gopkg.in/yaml.v3.Marshal", ["MarshalYAML"]),
   ("gopkg.in/yaml.v3.Unmarshal", ["UnmarshalYAML"]),
   ("gopkg.in/yaml.v2.Marshal", ["MarshalYAML"]),
   ("gopkg.in/yaml.v2.Unmarshal", ["UnmarshalYAML"]),
   ("(*encoding/gob.Encoder).Encode", ["GobEncode"]),
   ("(*encoding/gob.Decoder).Decode", ["GobDecode"]),
   ("encoding/binary.Write", ["MarshalBinary"]),
   ("encoding/binary.Read", ["UnmarshalBinary"]),
   ("(*database/sql.DB).Query", ["Scan", "Value"]),
   ("(*database/sql.DB).QueryRow", ["Scan", "Value"]),
   ("(*database/sql.DB).Exec", ["Value"]),
   ("(*database/sql.Stmt).Query", ["Scan", "Value"]),
   ("(*database/sql.Stmt).QueryRow", ["Scan", "Value"]),
   ("(*database/sql.Stmt).Exec", ["Value"])]

/-- Model of `hasModulePath`: scan up to the first `/` (stdlib) or `.`
(module path). -/
def hasModulePathAux : List Char → Bool
  | [] => false
  | c :: t => if c = '/' then false else if c = '.' then true else hasModulePathAux t

def hasModulePath (path : String) : Bool :=
  if path = "" then false else hasModulePathAux path.data

/-! ## Engine state -/

/-- Model of `concreteTypeInfo`: the unaliased type, its fingerprint and
the lazily grown list of implemented interfaces.  The method set is
recoverable as `p.methodSet C`, which the fingerprint was computed
from. -/
structure CInfo where
  C : GoType
  fprint : Nat
  impl : List GoType
deriving DecidableEq

/-- Model of `interfaceTypeInfo`. -/
structure IInfo where
  I : GoType
  methods : List Method
  fprint : Nat
  implementations : List GoType
  computed : Bool
deriving DecidableEq

/-- The working state of the algorithm, combining `Result` (the first
three fields) with the `rta` struct.  `concreteTypes`/`interfaceTypes`
are modelled with an arena (`cinfos`/`iinfos`) plus key-to-index maps
(`cmap`/`imap`), because Go shares one mutable info record between an
aliased key and its unaliased key.  `enqueued` and `scanned` are ghost
histories instrumenting every worklist append and every `visitFunc`
entry; they influence nothing. -/
structure RTAState where
  reachable : List (String × Bool)
  reachableObjects : List String
  runtimeTypes : List (GoType × Bool)
  worklist : List String
  enqueued : List String
  scanned : List String
  currentFunction : Option String
  addrTakenFuncsBySig : List (String × List String)
  dynCallSites : List (String × List CallCommon)
  invokeSites : List (GoType × List CallCommon)
  cinfos : List CInfo
  cmap : List (GoType × Nat)
  iinfos : List IInfo
  imap : List (GoType × Nat)
  interfaceToTypes : Option (List (GoType × List GoType))
  typeToInterfaces : Option (List (GoType × List GoType))
  userTypesIndexBuilt : Bool
  userTypes : List GoType

/-- The initial (empty) state built at the top of `Analyze`. -/
def initialState : RTAState :=
  { reachable := [], reachableObjects := [], runtimeTypes := [],
    worklist := [], enqueued := [], scanned := [],
    currentFunction := none,
    addrTakenFuncsBySig := [], dynCallSites := [], invokeSites := [],
    cinfos := [], cmap := [], iinfos := [], imap := [],
    interfaceToTypes := none, typeToInterfaces := none,
    userTypesIndexBuilt := false, userTypes := [] }

def cinfoAt (s : RTAState) (i : Nat) : CInfo :=
  s.cinfos.getD i ⟨.basic "", 0, []⟩

def iinfoAt (s : RTAState) (i : Nat) : IInfo :=
  s.iinfos.getD i ⟨.basic "", [], 0, [], false⟩

def setCinfo (s : RTAState) (i : Nat) (v : CInfo) : RTAState :=
  { s with cinfos := s.cinfos.set i v }

def setIinfo (s : RTAState) (i : Nat) (v : IInfo) : RTAState :=
  { s with iinfos := s.iinfos.set i v }

/-- Model of `implements(cinfo, iinfo)`: fingerprint fast-path
(`iinfo.fprint & ^cinfo.fprint == 0` on `uint64`), then the
authoritative `types.Implements`. -/
def implementsB (p : GoType → List Method) (cinfo : CInfo) (iinfo : IInfo) : Bool :=
  (iinfo.fprint &&& compl64 cinfo.fprint == 0) && typesImplements p cinfo.C iinfo.I

/-- Model of `getConcreteTypeInfo`: unalias, look up the cache, create
and record under both the unaliased and the original key on a miss.
Returns the arena index of the info. -/
def getConcreteTypeInfo (p : Program) (s : RTAState) (C0 : GoType) :
    RTAState × Nat :=
  let C := unalias C0
  match alookup s.cmap C with
  | some i => (s, i)
  | none =>
    let cinfo : CInfo := ⟨C, Fingerprint (p.methodSet C), []⟩
    let idx := s.cinfos.length
    let s := { s with cinfos := s.cinfos ++ [cinfo], cmap := aset s.cmap C idx }
    if C0 ≠ C then ({ s with cmap := aset s.cmap C0 idx }, idx) else (s, idx)

/-- Model of `getInterfaceTypeInfo`. -/
def getInterfaceTypeInfo (p : Program) (s : RTAState) (I : GoType) :
    RTAState × Nat :=
  match alookup s.imap I with
  | some i => (s, i)
  | none =>
    let ms := p.methodSet I
    let iinfo : IInfo := ⟨I, ms, Fingerprint ms, [], false⟩
    let idx := s.iinfos.length
    ({ s with iinfos := s.iinfos ++ [iinfo], imap := aset s.imap I idx }, idx)

/-! ## Reachability primitives -/

/-- Model of `markGenericTemplateReachable`: if `f` has an origin
template distinct from itself, insert the template into `Reachable`
(with `AddrTaken=false`) without touching the worklist. -/
def markGenericTemplateReachable (p : Program) (s : RTAState) (f : String) :
    RTAState :=
  match p.getFunc f with
  | none => s
  | some fd =>
    match fd.origin with
    | none => s
    | some template =>
      if template = f then s
      else
        match alookup s.reachable template with
        | some _ => s
        | none => { s with reachable := aset s.reachable template false }

/-- Model of `addReachable` on a non-nil function: OR the address-taken
flag into the entry; on first insertion (`len(reachable) > n`) enqueue
`f` and mark its generic template. -/
def addReachableF (p : Program) (s : RTAState) (f : String) (addrTaken : Bool) :
    RTAState :=
  let isNew := (alookup s.reachable f).isNone
  let v := (alookup s.reachable f).getD false
  let v := if addrTaken then true else v
  let s := { s with reachable := aset s.reachable f v }
  if isNew then
    let s := { s with worklist := s.worklist ++ [f], enqueued := s.enqueued ++ [f] }
    markGenericTemplateReachable p s f
  else s

/-- Model of `addReachable` including the nil guard. -/
def addReachable (p : Program) (s : RTAState) (f : Option String)
    (addrTaken : Bool) : RTAState :=
  match f with
  | none => s
  | some fid => addReachableF p s fid addrTaken

/-- Model of `addReachableObject` (the `types.Object` is never nil when
obtained from a non-nil selection). -/
def addReachableObject (s : RTAState) (obj : String) : RTAState :=
  { s with reachableObjects :=
      if obj ∈ s.reachableObjects then s.reachableObjects
      else s.reachableObjects ++ [obj] }

/-- Model of `addEdge`: the engine builds no call graph, so this is
`addReachable` on the callee (caller and site are ignored). -/
def addEdge (p : Program) (s : RTAState) (callee : Option String)
    (addrTaken : Bool) : RTAState :=
  addReachable p s callee addrTaken

/-- Mark a resolved selection: `MethodValue` if an SSA function exists,
otherwise track the `types.Object`.  This is the common
`if fn := r.prog.MethodValue(sel); fn != nil { ... } else if sel.Obj() != nil { ... }`
pattern. -/
def markSelection (p : Program) (s : RTAState) (m : Method) : RTAState :=
  match m.fn with
  | some f => addReachableF p s f true
  | none => addReachableObject s m.obj

/-! ## Table A: address-taken functions × dynamic call sites -/

/-- Model of `visitAddrTakenFunc`. -/
def visitAddrTakenFunc (p : Program) (s : RTAState) (f : String) : RTAState :=
  let S := p.sigOf f
  let funcs := (alookup s.addrTakenFuncsBySig S).getD []
  if f ∈ funcs then s
  else
    let s := { s with addrTakenFuncsBySig := aset s.addrTakenFuncsBySig S (funcs ++ [f]) }
    let sites := (alookup s.dynCallSites S).getD []
    let s := sites.foldl (fun st _site => addEdge p st (some f) true) s
    -- If (*reflect.Value).Call is in the program, it is a virtual dynamic
    -- caller of every address-taken function regardless of signature.
    if p.reflectValueCall.isSome then addEdge p s (some f) true else s

/-- Model of `visitDynCall`. -/
def visitDynCall (p : Program) (s : RTAState) (site : CallCommon) : RTAState :=
  let S := site.sigId
  let sites := (alookup s.dynCallSites S).getD []
  let s := { s with dynCallSites := aset s.dynCallSites S (sites ++ [site]) }
  let funcs := (alookup s.addrTakenFuncsBySig S).getD []
  funcs.foldl (fun st g => addEdge p st (some g) true) s

/-! ## Table B: runtime types × invoke sites -/

/-- `_, isPtr := C.(*types.Pointer)`. -/
def isPointerType : GoType → Bool
  | .pointer _ => true
  | _ => false

/-- Model of `addInvokeEdge`: unalias `C`, look the interface method up
in `C`'s method set by its defining package; if absent and `C` is not a
pointer, retry on `*C`; a final miss silently skips the pair, otherwise
the concrete method (`prog.LookupMethod`) is marked address-taken. -/
def addInvokeEdge (p : Program) (s : RTAState) (site : CallCommon)
    (C0 : GoType) : RTAState :=
  let C := unalias C0
  match msetLookup (p.methodSet C) site.methodPkg site.methodName with
  | some sel => addEdge p s sel.fn true
  | none =>
    if isPointerType C then s
    else
      match msetLookup (p.methodSet (.pointer C)) site.methodPkg site.methodName with
      | some sel => addEdge p s sel.fn true
      | none => s

/-- Model of `interfaces(C)`: cached list of interfaces `C` implements,
computed on first use against the known interface infos. -/
def interfaces (p : Program) (s : RTAState) (C : GoType) :
    RTAState × List GoType :=
  let (s1, ci) := getConcreteTypeInfo p s C
  if (cinfoAt s1 ci).impl.isEmpty then
    let s2 := s1.imap.foldl (fun st pr =>
      let iinfo := iinfoAt st pr.2
      let ifaceN := unalias pr.1
      let cf := cinfoAt st ci
      if implementsB p.methodSet cf iinfo then
        setCinfo st ci { cf with impl := cf.impl ++ [ifaceN] }
      else st) s1
    (s2, (cinfoAt s2 ci).impl)
  else (s1, (cinfoAt s1 ci).impl)

/-- Cache the freshly computed implementation list in the global index
(`if r.interfaceToTypes != nil`). -/
def memoImplsIndex (s : RTAState) (I : GoType) (ii : Nat) : RTAState :=
  match s.interfaceToTypes with
  | some m =>
    { s with interfaceToTypes := some (aset m I (iinfoAt s ii).implementations) }
  | none => s

/-- The fallback scan of `implementations(I)`: iterate the known
concrete infos, appending each implementer to both the concrete info's
interface list and the interface info's implementation list. -/
def implFallbackScan (p : Program) (s : RTAState) (I : GoType) (ii : Nat) :
    RTAState :=
  s.cmap.foldl (fun st pr =>
    let cinfo := cinfoAt st pr.2
    if implementsB p.methodSet cinfo (iinfoAt st ii) then
      let st := setCinfo st pr.2 { cinfo with impl := cinfo.impl ++ [I] }
      setIinfo st ii
        { iinfoAt st ii with
            implementations := (iinfoAt st ii).implementations ++ [cinfo.C] }
    else st) s

/-- Model of `implementations(I)`: unalias, use the pre-computed index
when available, otherwise scan the known concrete infos; memoize into
the info and the index. -/
def implementations (p : Program) (s : RTAState) (I0 : GoType) :
    RTAState × List GoType :=
  let I := unalias I0
  let (s1, ii) := getInterfaceTypeInfo p s I
  if (iinfoAt s1 ii).computed then (s1, (iinfoAt s1 ii).implementations)
  else
    let cached : Option (List GoType) :=
      match s1.interfaceToTypes with
      | some m => alookup m I
      | none => none
    match cached with
    | some impls =>
      let s2 := setIinfo s1 ii
        { iinfoAt s1 ii with implementations := impls, computed := true }
      (s2, impls)
    | none =>
      let s2 := implFallbackScan p s1 I ii
      let s3 := setIinfo s2 ii { iinfoAt s2 ii with computed := true }
      let s4 := memoImplsIndex s3 I ii
      (s4, (iinfoAt s4 ii).implementations)

/-- Model of `visitInvoke`: record the invoke site under its interface,
then cross-product with every known implementation. -/
def visitInvoke (p : Program) (s : RTAState) (site : CallCommon) : RTAState :=
  let I := site.ifaceT
  let sites := (alookup s.invokeSites I).getD []
  let s := { s with invokeSites := aset s.invokeSites I (sites ++ [site]) }
  let (s1, impls) := implementations p s I
  impls.foldl (fun st C => addInvokeEdge p st site C) s1

/-! ## The user-type implementation index -/

/-- Model of `isStdlibFunction`. -/
def isStdlibFunction (p : Program) (f : Option String) : Bool :=
  match f with
  | none => false
  | some fid =>
    match p.getFunc fid with
    | none => false
    | some fd =>
      match fd.pkgPath with
      | none => false
      | some path => !hasModulePath path

/-- Pre-compute the concrete info of every user type and of a pointer
to it (`buildUserTypesIndex`). -/
def precacheConcreteInfos (p : Program) (s : RTAState) (uts : List GoType) :
    RTAState :=
  uts.foldl (fun st T =>
    (getConcreteTypeInfo p (getConcreteTypeInfo p st T).1 (.pointer T)).1) s

/-- Initialize the two index maps if still nil (`buildUserTypesIndex`). -/
def initIndexMaps (s : RTAState) : RTAState :=
  match s.interfaceToTypes with
  | none => { s with interfaceToTypes := some [], typeToInterfaces := some [] }
  | some _ => s

/-- The per-type inner loop of `buildUserTypesIndex`: fingerprint-check
one user type against every known interface info (value and pointer
receivers) and record the implementation pairs in both directions of
the index. -/
def indexUserType (p : Program) (cache : List (GoType × Nat)) (st : RTAState)
    (T : GoType) : RTAState :=
  let g1 := getConcreteTypeInfo p st T
  let g2 := getConcreteTypeInfo p g1.1 (.pointer T)
  cache.foldl (fun st3 pr =>
    let iinfo := iinfoAt st3 pr.2
    let vOk := iinfo.fprint &&& compl64 (cinfoAt st3 g1.2).fprint == 0
    let pOk := iinfo.fprint &&& compl64 (cinfoAt st3 g2.2).fprint == 0
    if !vOk && !pOk then st3
    else if typesImplements p.methodSet T pr.1 ||
        typesImplements p.methodSet (.pointer T) pr.1 then
      let m1 := st3.interfaceToTypes.getD []
      let st4 := { st3 with
        interfaceToTypes := some (aset m1 pr.1 ((alookup m1 pr.1).getD [] ++ [T])) }
      let m2 := st4.typeToInterfaces.getD []
      { st4 with
        typeToInterfaces := some (aset m2 T ((alookup m2 T).getD [] ++ [pr.1])) }
    else st3) g2.1

/-- Model of `buildUserTypesIndex`: one-shot index of all user (non
stdlib) named types plus the current runtime types, with
value/pointer concrete infos pre-cached and the N×M implements relation
pre-computed into `interfaceToTypes`/`typeToInterfaces`. -/
def buildUserTypesIndex (p : Program) (s : RTAState) : RTAState :=
  if s.userTypesIndexBuilt then s
  else
    let fromRT := s.runtimeTypes.foldl (fun acc pr =>
      if isIfaceUnder pr.1 || acc.contains pr.1 then acc else acc ++ [pr.1])
      ([] : List GoType)
    let uts := p.packages.foldl (fun acc pkg =>
      match pkg.path with
      | none => acc
      | some path =>
        if !hasModulePath path then acc
        else
          pkg.typeMembers.foldl (fun acc2 T =>
            if isIfaceUnder T || acc2.contains T then acc2 else acc2 ++ [T]) acc)
      fromRT
    let s := precacheConcreteInfos p s uts
    let s := initIndexMaps s
    let cache : List (GoType × Nat) := s.imap.map (fun pr => (unalias pr.1, pr.2))
    let s := uts.foldl (indexUserType p cache) s
    { s with userTypesIndexBuilt := true, userTypes := uts }

/-- Model of `findAllImplementationsInProgram`. -/
def findAllImplementationsInProgram (p : Program) (s : RTAState)
    (iface : GoType) : RTAState × List GoType :=
  let ifc := unalias iface
  let s := buildUserTypesIndex p s
  (s, (alookup (s.interfaceToTypes.getD []) ifc).getD [])

/-- Model of `addTypeToIndex`: incremental index update for a newly
discovered runtime type. -/
def addTypeToIndex (p : Program) (s : RTAState) (T : GoType) : RTAState :=
  match s.interfaceToTypes with
  | none => s
  | some _ =>
    if isIfaceUnder T then s
    else
      let (s1, ci) := getConcreteTypeInfo p s T
      s1.imap.foldl (fun st pr =>
        let iface := unalias pr.1
        let iinfo := iinfoAt st pr.2
        if (iinfo.fprint &&& compl64 (cinfoAt st ci).fprint) != 0 then st
        else if typesImplements p.methodSet T iface ||
            typesImplements p.methodSet (.pointer T) iface then
          let m1 := st.interfaceToTypes.getD []
          let st4 := { st with
            interfaceToTypes := some (aset m1 iface ((alookup m1 iface).getD [] ++ [T])) }
          let m2 := st4.typeToInterfaces.getD []
          { st4 with
            typeToInterfaces := some (aset m2 T ((alookup m2 T).getD [] ++ [iface])) }
        else st) s1

/-- Model of `markInterfaceMethodsReachable`: for each interface method,
resolve it in both the value and the pointer method set of `T` and mark
whatever is found. -/
def markInterfaceMethodsReachable (p : Program) (s : RTAState) (T : GoType)
    (iface : GoType) : RTAState :=
  let valueMset := p.methodSet T
  let ptrMset := p.methodSet (.pointer T)
  (ifaceMethods iface).foldl (fun st method =>
    [valueMset, ptrMset].foldl (fun st2 mset =>
      match msetLookup mset method.pkg method.name with
      | some sel => markSelection p st2 sel
      | none => st2) st) s

/-! ## Reflection-pattern context -/

/-- Model of `isInKnownSafeContext`: some instruction of the current
function is a static call to an allow-listed function (keyed by the
callee's `String()` form). -/
def isInKnownSafeContext (p : Program) (s : RTAState) : Bool :=
  match s.currentFunction with
  | none => false
  | some fid =>
    (p.blocksOf fid).any (fun block => block.any (fun instr =>
      match instr with
      | .call c =>
        match staticCallee c with
        | some g =>
          match p.getFunc g with
          | some gd => (alookup knownSafeFunctions gd.str).isSome
          | none => false
        | none => false
      | _ => false))

/-- Model of `shouldMarkMethodForReflection`: the method name is in the
allow-list entry of some safe function called by the current function,
or is one of the common reflection method names. -/
def shouldMarkMethodForReflection (p : Program) (s : RTAState) (method : Method) :
    Bool :=
  let fromCalls :=
    match s.currentFunction with
    | none => false
    | some fid =>
      (p.blocksOf fid).any (fun block => block.any (fun instr =>
        match instr with
        | .call c =>
          match staticCallee c with
          | some g =>
            match p.getFunc g with
            | some gd =>
              match alookup knownSafeFunctions gd.str with
              | some methods => methods.contains method.name
              | none => false
            | none => false
          | none => false
        | _ => false))
  if fromCalls then true
  else
    ["MarshalJSON", "UnmarshalJSON", "MarshalText", "UnmarshalText",
     "String", "GoString", "Error", "Format"].contains method.name

/-- The allow-list entry of the current function itself (the source
reads `knownSafeFunctions[r.currentFunction.String()]` inside
`addRuntimeType`). -/
def currentFuncSafeList (p : Program) (s : RTAState) : Option (List String) :=
  match s.currentFunction with
  | none => none
  | some fid =>
    match p.getFunc fid with
    | some fd => alookup knownSafeFunctions fd.str
    | none => none

/-- The "add callgraph edges for existing dynamic calls" block shared by
`addRuntimeType`, `addRuntimeTypeSelective` and
`addRuntimeTypeForInterface`: for every interface the concrete type
implements, cross-product with the registered invoke sites. -/
def artInvokeEdges (p : Program) (s : RTAState) (T : GoType) : RTAState :=
  if isIfaceUnder T then s
  else
    let pr := interfaces p s T
    pr.2.foldl (fun st I =>
      ((alookup st.invokeSites I).getD []).foldl
        (fun st2 site => addInvokeEdge p st2 site T) st) pr.1

/-- The known-safe-context selective marking block of `addRuntimeType`:
look up the allow-list entry of the current function's own name and mark
those method names (with a nil package). -/
def artSafeContextMark (p : Program) (s : RTAState) (mset : List Method) :
    RTAState :=
  match currentFuncSafeList p s with
  | some methodNames =>
    methodNames.foldl (fun st mn =>
      match msetLookup mset none mn with
      | some sel => markSelection p st sel
      | none => st) s
  | none => s

/-- The exported-method force-marking block of `addRuntimeType`. -/
def artExportedMark (p : Program) (s : RTAState) (mset : List Method) :
    RTAState :=
  mset.foldl (fun st m =>
    if isExportedName m.name then
      if st.currentFunction.isSome && isInKnownSafeContext p st &&
          ((currentFuncSafeList p st).getD []).contains m.name then st
      else markSelection p st m
    else st) s

/-- Force-mark each method required by `iface` that resolves in `T`'s
value method set (looked up by the method's defining package): the
marking loop of `addRuntimeTypeForInterface`, also used by
`markImplementorsMethodsReachable`. -/
def markIfaceMsetMethods (p : Program) (s : RTAState) (T : GoType)
    (iface : GoType) : RTAState :=
  (ifaceMethods iface).foldl (fun st method =>
    match msetLookup (p.methodSet T) method.pkg method.name with
    | some sel => markSelection p st sel
    | none => st) s

/-! ## Runtime-type materialization -/

mutual

/-- Model of `addRuntimeType`: record `T` (upgrading a previously
structural entry on re-encounter), update the index, recurse through the
structure with `skip=true`, cross-product with registered invoke sites,
apply the known-safe-context selective marking (which flips `skip`),
force-mark all exported methods when `skip` is still false, and finally
walk the type structure again with the effective skip flag.  The fuel
argument bounds the recursion depth (Go terminates through the
`RuntimeTypes` seen set on a cyclic type graph). -/
def addRuntimeType (p : Program) : Nat → RTAState → GoType → Bool → RTAState
  | 0, s, _, _ => s
  | fuel + 1, s0, T, skip0 =>
    match alookup s0.runtimeTypes T with
    | some prev =>
      if skip0 && !prev then
        { s0 with runtimeTypes := aset s0.runtimeTypes T skip0 }
      else s0
    | none =>
      let s1 := { s0 with runtimeTypes := aset s0.runtimeTypes T skip0 }
      let s2 := addTypeToIndex p s1 T
      let s3 := addRuntimeTypeStructure p fuel s2 T
      artMarkAndWalk p fuel s3 T skip0
termination_by fuel s T skip => (fuel, 0)

/-- The reflection-marking and final structure-walk sections of
`addRuntimeType` on a fresh runtime type: the invoke-site
cross-product, the known-safe-context selective marking (which flips
the skip flag), the exported-method force-marking, and the final walk
of the type structure with the effective skip flag. -/
def artMarkAndWalk (p : Program) (fuel : Nat) (s3 : RTAState) (T : GoType)
    (skip0 : Bool) : RTAState :=
  let mset := p.methodSet T
  let s4 := if skip0 then s3 else artInvokeEdges p s3 T
  let sk5 :=
    if skip0 then (skip0, s4)
    else if s4.currentFunction.isSome && isInKnownSafeContext p s4 then
      (true, artSafeContextMark p s4 mset)
    else (skip0, s4)
  let skip1 := sk5.1
  let s5 := sk5.2
  let s6 := if skip1 then s5 else artExportedMark p s5 mset
  match T with
  | .alias t => addRuntimeType p fuel s6 (unalias t) skip1
  | .basic _ => s6
  | .iface _ => s6
  | .pointer e => addRuntimeType p fuel s6 e skip1
  | .slice e => addRuntimeType p fuel s6 e skip1
  | .chanT e => addRuntimeType p fuel s6 e skip1
  | .mapT k v => addRuntimeType p fuel (addRuntimeType p fuel s6 k skip1) v skip1
  | .sig ps rs =>
    addRuntimeType p fuel (addRuntimeType p fuel s6 ps skip1) rs skip1
  | .named _ u msigs =>
    let sa := addRuntimeType p fuel s6 (.pointer T) skip1
    let sb := addRuntimeType p fuel sa u true
    msigs.foldl (fun st sg => addRuntimeType p fuel st sg skip1) sb
  | .array e => addRuntimeType p fuel s6 e skip1
  | .structT fields =>
    fields.foldl (fun st f => addRuntimeType p fuel st f skip1) s6
  | .tuple comps =>
    comps.foldl (fun st c => addRuntimeType p fuel st c skip1) s6
  | .typeparam _ => s6
termination_by (fuel, 1)

/-- Model of `addRuntimeTypeStructure`: add the structurally-reachable
types with `skip=true` (no cases for basic, interface, signature or type
parameters, and no method signatures: the switch in the source lists
only these kinds). -/
def addRuntimeTypeStructure (p : Program) (fuel : Nat) (s : RTAState)
    (T : GoType) : RTAState :=
  match T with
  | .alias t => addRuntimeType p fuel s (unalias t) true
  | .pointer e => addRuntimeType p fuel s e true
  | .slice e => addRuntimeType p fuel s e true
  | .chanT e => addRuntimeType p fuel s e true
  | .mapT k v => addRuntimeType p fuel (addRuntimeType p fuel s k true) v true
  | .named _ u _ =>
    addRuntimeType p fuel (addRuntimeType p fuel s (.pointer T) true) u true
  | .array e => addRuntimeType p fuel s e true
  | .structT fields =>
    fields.foldl (fun st f => addRuntimeType p fuel st f true) s
  | .tuple comps =>
    comps.foldl (fun st c => addRuntimeType p fuel st c true) s
  | _ => s
termination_by (fuel, 1)

end

/-- Model of `addRuntimeTypeSelective`: record `T` (first encounter
only) and mark only the exported methods selected by
`shouldMarkMethodForReflection`, then cross-product with invoke sites.
No structural recursion. -/
def addRuntimeTypeSelective (p : Program) (s : RTAState) (T0 : GoType)
    (skip : Bool) : RTAState :=
  let T := unalias T0
  if (alookup s.runtimeTypes T).isSome then s
  else
    let s := { s with runtimeTypes := aset s.runtimeTypes T skip }
    let mset := p.methodSet T
    if isIfaceUnder T then s
    else
      let s := mset.foldl (fun st sel =>
        if isExportedName sel.name && shouldMarkMethodForReflection p st sel then
          markSelection p st sel
        else st) s
      artInvokeEdges p s T

/-- Model of `addRuntimeTypeForInterface`: record `T` if new, always
force-mark exactly the methods required by `iface` (resolved by each
interface method's defining package), cross-product with invoke sites
and walk the structure only when `T` is new. -/
def addRuntimeTypeForInterface (p : Program) (fuel : Nat) (s : RTAState)
    (T0 : GoType) (iface : GoType) (skip : Bool) : RTAState :=
  let T := unalias T0
  let alreadyIn := (alookup s.runtimeTypes T).isSome
  let s :=
    if !alreadyIn then { s with runtimeTypes := aset s.runtimeTypes T skip }
    else s
  let mset := p.methodSet T
  let s :=
    if isIfaceUnder T then s
    else
      let s := markIfaceMsetMethods p s T iface
      if !alreadyIn then artInvokeEdges p s T
      else s
  if !alreadyIn then addRuntimeTypeStructure p fuel s T else s

/-- Model of `markImplementorsMethodsReachable`: walk every named type
of every package; for each non-interface type implementing the target
interface (by value or pointer), either force-mark the interface's
methods (when the type is already a runtime type) or add it as a
runtime type normally. -/
def markImplementorsMethodsReachable (p : Program) (fuel : Nat) (s : RTAState)
    (targetIface : GoType) : RTAState :=
  p.packages.foldl (fun st pkg =>
    match pkg.path with
    | none => st
    | some _ =>
      pkg.typeMembers.foldl (fun st2 T =>
        if isIfaceUnder T then st2
        else if typesImplements p.methodSet T targetIface ||
            typesImplements p.methodSet (.pointer T) targetIface then
          if (alookup st2.runtimeTypes T).isSome then
            markIfaceMsetMethods p st2 T targetIface
          else addRuntimeType p fuel st2 T false
        else st2) st) s

/-! ## Instruction handlers -/

/-- The `*Interface`-to-`any` detection of `handleMakeInterface`: a
pointer whose element is (or aliases) an interface yields that
interface. -/
def hmiSpecial (xType : GoType) : Option GoType :=
  match xType with
  | .pointer elemType =>
    (match elemType with
     | .named _ u _ =>
       (match u with
        | .iface _ => some u
        | _ => none)
     | _ =>
       (match underlyingOf elemType with
        | .iface ms => some (.iface ms)
        | _ => none))
  | _ => none

/-- Model of `handleMakeInterface` (context-aware make-interface).
`target` is `instr.Type()`, `xType` is `instr.X.Type()`. -/
def handleMakeInterface (p : Program) (fuel : Nat) (s : RTAState)
    (target xType : GoType) : RTAState :=
  match underlyingOf target with
  | .iface [] =>
    -- Empty interface.  Special case: converting *Interface to any.
    match hmiSpecial xType with
    | some targetIface => markImplementorsMethodsReachable p fuel s targetIface
    | none =>
      if isInKnownSafeContext p s then addRuntimeTypeSelective p s xType false
      else addRuntimeType p fuel s xType false
  | .iface ms => addRuntimeTypeForInterface p fuel s xType (.iface ms) false
  | _ => s

/-- The interface-assertion arm of `handleTypeAssert`: build the index,
then either use it (for stdlib callers) or do a full scan, marking the
asserted interface methods on every implementation. -/
def htaIfaceAssert (p : Program) (asserted : GoType) (s : RTAState) :
    RTAState :=
  match underlyingOf asserted with
  | .iface ims =>
    if ims.isEmpty then s
    else
      let ifc := unalias (GoType.iface ims)
      let s := buildUserTypesIndex p s
      if isStdlibFunction p s.currentFunction then
        ((alookup (s.interfaceToTypes.getD []) ifc).getD []).foldl
          (fun st T =>
            if (alookup st.runtimeTypes T).isSome then
              markInterfaceMethodsReachable p st T ifc
            else st) s
      else
        let pr := findAllImplementationsInProgram p s ifc
        pr.2.foldl (fun st T => markInterfaceMethodsReachable p st T ifc) pr.1
  | _ => s

/-- Model of `handleTypeAssert`.  `xType` is `instr.X.Type()`,
`asserted` is `instr.AssertedType`. -/
def handleTypeAssert (p : Program) (s : RTAState) (xType asserted : GoType) :
    RTAState :=
  match underlyingOf xType with
  | .iface sms =>
    if sms.length > 0 then
      match underlyingOf asserted with
      | .iface _ => htaIfaceAssert p asserted s
      | _ => markInterfaceMethodsReachable p s asserted (.iface sms)
    else htaIfaceAssert p asserted s
  | _ => htaIfaceAssert p asserted s

/-- Model of `handleChangeInterface`. -/
def handleChangeInterface (p : Program) (s : RTAState) (target : GoType) :
    RTAState :=
  match underlyingOf target with
  | .iface ms =>
    if ms.isEmpty then s
    else
      let pr := findAllImplementationsInProgram p s (.iface ms)
      pr.2.foldl (fun st T => markInterfaceMethodsReachable p st T (.iface ms)) pr.1
  | _ => s

/-- Model of `checkSetFinalizer`: a static call to
`runtime.SetFinalizer` with at least two arguments marks the finalizer
(the second argument, unwrapping one MakeInterface and a MakeClosure)
reachable and address-taken. -/
def checkSetFinalizer (p : Program) (s : RTAState) (call : CallCommon) :
    RTAState :=
  if call.isInvoke then s
  else
    match call.value with
    | some (.fn fid) =>
      (match (p.getFunc fid).bind (fun fd => fd.obj) with
       | none => s
       | some ob =>
         if ob.pkg ≠ some "runtime" ∨ ob.name ≠ "SetFinalizer" ∨
             call.args.length < 2 then s
         else
           match call.args.get? 1 with
           | none => s
           | some finalizerArg0 =>
             let finalizerArg :=
               match finalizerArg0 with
               | .makeIface x => x
               | a => a
             match finalizerArg with
             | .fn f => addReachableF p s f true
             | .makeClosure (.fn g) => addReachableF p s g true
             | _ => s)
    | _ => s

/-! ## The worklist driver -/

/-- The address-taken operand walk at the end of the instruction switch
(for calls, the call-position operand is dropped and the arguments are
walked). -/
def walkOperands (p : Program) (s : RTAState) (ops : List SSAValue) :
    RTAState :=
  ops.foldl (fun st op =>
    match op with
    | .fn g => visitAddrTakenFunc p st g
    | _ => st) s

/-- Model of one iteration of the instruction dispatch in `visitFunc`
proper: the switch on the instruction kind, followed by the
address-taken operand walk. -/
def scanInstr (p : Program) (fuel : Nat) (s : RTAState) (instr : Instr) :
    RTAState :=
  match instr with
  | .call c =>
    let s1 :=
      if c.isInvoke then visitInvoke p s c
      else
        match staticCallee c with
        | some g => checkSetFinalizer p (addEdge p s (some g) false) c
        | none =>
          match c.value with
          | some (.builtin _) => s
          | _ => visitDynCall p s c
    walkOperands p s1 c.args
  | .makeInterface target xType x => walkOperands p (handleMakeInterface p fuel s target xType) [x]
  | .typeAssert xType asserted x => walkOperands p (handleTypeAssert p s xType asserted) [x]
  | .changeInterface target x => walkOperands p (handleChangeInterface p s target) [x]
  | .otherInstr ops => walkOperands p s ops

/-- Model of `visitFunc`: set the current function, scan every
instruction of every block, and clear the current function (the
deferred reset).  The ghost `scanned` history records the visit. -/
def visitFunc (p : Program) (fuel : Nat) (s : RTAState) (f : String) : RTAState :=
  let s := { s with currentFunction := some f, scanned := s.scanned ++ [f] }
  let s := (p.blocksOf f).foldl (fun st block =>
    block.foldl (fun st2 instr => scanInstr p fuel st2 instr) st) s
  { s with currentFunction := none }

/-- One drain of the worklist: swap it out (the shadow buffer) and visit
every function in it; newly reachable functions append to the fresh
worklist. -/
def drainWorklist (p : Program) (fuel : Nat) (s : RTAState) : RTAState :=
  let shadow := s.worklist
  shadow.foldl (fun st f => visitFunc p fuel st f) { s with worklist := [] }

/-- The fixed-point loop of `Analyze`, with an explicit bound on the
number of drains (`none` on exhaustion; the analysis proves the bound
chosen by `Analyze` is never exhausted on a well-formed program). -/
def analyzeLoop (p : Program) (fuel : Nat) : Nat → RTAState → Option RTAState
  | 0, s => if s.worklist.isEmpty then some s else none
  | n + 1, s =>
    if s.worklist.isEmpty then some s
    else analyzeLoop p fuel n (drainWorklist p fuel s)

/-- Go panics the engine can raise, and the internal fuel guard. -/
inductive EngineFailure where
  | nilRootDeref
  | outOfFuel
deriving DecidableEq, Repr

/-- Model of `Analyze`: nil on an empty root list; otherwise the first
root's `Prog` field is read (a nil first root faults), every root is
marked reachable, and the worklist is drained to a fixed point. -/
def Analyze (p : Program) (roots : List (Option String)) (fuel : Nat) :
    Except EngineFailure (Option RTAState) :=
  match roots with
  | [] => .ok none
  | none :: _ => .error .nilRootDeref
  | some _ :: _ =>
    let s := initialState
    let s := roots.foldl (fun st root => addReachable p st root false) s
    match analyzeLoop p fuel (p.funcs.length + 1) s with
    | some s1 => .ok (some s1)
    | none => .error .outOfFuel

/-! ## Fingerprint soundness -/

theorem fingerprint_go_lt (ms : List Method) (acc : Nat) (h : acc < 2 ^ 64) :
    ms.foldl (fun mask m => mask ||| (1 <<< (crc32 (fpBytes m) % 64))) acc < 2 ^ 64 := by
  induction ms generalizing acc with
  | nil => simpa using h
  | cons m t ih =>
    apply ih
    apply Nat.or_lt_two_pow h
    rw [Nat.shiftLeft_eq, one_mul]
    exact Nat.pow_lt_pow_right (by norm_num) (Nat.mod_lt _ (by norm_num))

theorem fingerprint_lt (ms : List Method) : Fingerprint ms < 2 ^ 64 :=
  fingerprint_go_lt ms 0 (by norm_num)

theorem testBit_fingerprint_go (ms : List Method) (acc : Nat) (i : Nat) :
    (ms.foldl (fun mask m => mask ||| (1 <<< (crc32 (fpBytes m) % 64))) acc).testBit i =
    (acc.testBit i || ms.any (fun m => crc32 (fpBytes m) % 64 = i)) := by
  induction ms generalizing acc with
  | nil => simp
  | cons m t ih =>
    rw [List.foldl_cons, ih, List.any_cons]
    rw [Nat.testBit_or, Nat.shiftLeft_eq, one_mul, Nat.testBit_two_pow]
    simp [Bool.or_assoc]

/-- Bit `i` of a fingerprint is set exactly when some method hashes to
it. -/
theorem testBit_Fingerprint (ms : List Method) (i : Nat) :
    (Fingerprint ms).testBit i = ms.any (fun m => crc32 (fpBytes m) % 64 = i) := by
  simpa [Fingerprint] using testBit_fingerprint_go ms 0 i

/-- The CRC input depends only on the method's `types.Id` and its
parameter/result counts. -/
theorem fpBytes_congr (m m' : Method)
    (hid : methodId m'.pkg m'.name = methodId m.pkg m.name)
    (hp : m'.nparams = m.nparams) (hr : m'.nresults = m.nresults) :
    fpBytes m' = fpBytes m := by
  simp [fpBytes, hid, hp, hr]

/-- **C3.** For every concrete method set and interface method set such
that the concrete type truly implements the interface (every interface
method resolves in the concrete method set by `types.Id` with an
identical signature), the fingerprint subset test passes:
`fp(I) & ^fp(C) == 0`.  The fingerprint filter never rejects a real
implementer. -/
theorem C3_fingerprint_never_rejects_implementer (msC msI : List Method)
    (h : msetImplements msC msI = true) :
    Fingerprint msI &&& compl64 (Fingerprint msC) = 0 := by
  apply Nat.eq_of_testBit_eq
  intro i
  rw [Nat.zero_testBit, Nat.testBit_and]
  by_cases hi : i < 64
  · rw [compl64, Nat.testBit_xor, Nat.testBit_two_pow_sub_one]
    rw [decide_eq_true hi]
    cases hI : (Fingerprint msI).testBit i with
    | false => simp
    | true =>
      rw [testBit_Fingerprint] at hI
      obtain ⟨m, hm, hbit⟩ := List.any_eq_true.mp hI
      have hbit' : crc32 (fpBytes m) % 64 = i := of_decide_eq_true hbit
      have hall := List.all_eq_true.mp (by simpa [msetImplements] using h) m hm
      cases hfind : msetLookup msC m.pkg m.name with
      | none => rw [hfind] at hall; simp at hall
      | some m' =>
        rw [hfind] at hall
        have hmem : m' ∈ msC := List.mem_of_find?_eq_some hfind
        have hpred := List.find?_some hfind
        have hid : methodId m'.pkg m'.name = methodId m.pkg m.name :=
          of_decide_eq_true hpred
        have hcnt : m'.nparams = m.nparams ∧ m'.nresults = m.nresults := by
          simpa using hall
        have hC : (Fingerprint msC).testBit i = true := by
          rw [testBit_Fingerprint]
          refine List.any_eq_true.mpr ⟨m', hmem, ?_⟩
          rw [fpBytes_congr m m' hid hcnt.1 hcnt.2]
          exact decide_eq_true hbit'
        simp [hC]
  · have hIz : (Fingerprint msI).testBit i = false :=
      Nat.testBit_lt_two_pow (lt_of_lt_of_le (fingerprint_lt msI)
        (Nat.pow_le_pow_right (by norm_num) (le_of_not_lt hi)))
    simp [hIz]

/-- Witness for C3: a concrete implementing pair on which the subset
test evaluates to zero. -/
theorem C3_witness :
    msetImplements [⟨some "p", "M", 1, 1, some "f", "o1"⟩]
        [⟨none, "M", 1, 1, none, "o2"⟩] = true ∧
    Fingerprint [⟨none, "M", 1, 1, none, "o2"⟩] &&&
      compl64 (Fingerprint [⟨some "p", "M", 1, 1, some "f", "o1"⟩]) = 0 :=
  ⟨by decide,
   C3_fingerprint_never_rejects_implementer _ _ (by decide)⟩

/-! ## Local facts about the reachability primitives -/

/-- Reduction of `markGenericTemplateReachable` for an instantiation
with a distinct template. -/
theorem mgtr_reduce (p : Program) (s : RTAState) (f : String) (fd : FuncData)
    (tmpl : String) (hg : p.getFunc f = some fd) (ho : fd.origin = some tmpl)
    (ht : tmpl ≠ f) :
    markGenericTemplateReachable p s f =
      (match alookup s.reachable tmpl with
       | some _ => s
       | none => { s with reachable := aset s.reachable tmpl false }) := by
  simp [markGenericTemplateReachable, hg, ho, ht]

/-- `markGenericTemplateReachable` either leaves the state unchanged or
inserts one fresh template (the function's origin, distinct from `f`)
with `AddrTaken=false`, touching no other field. -/
theorem mgtr_eq_or (p : Program) (s : RTAState) (f : String) :
    markGenericTemplateReachable p s f = s ∨
    ∃ tmpl fd, p.getFunc f = some fd ∧ fd.origin = some tmpl ∧ tmpl ≠ f ∧
      alookup s.reachable tmpl = none ∧
      markGenericTemplateReachable p s f =
        { s with reachable := aset s.reachable tmpl false } := by
  cases hg : p.getFunc f with
  | none => exact Or.inl (by simp [markGenericTemplateReachable, hg])
  | some fd =>
    cases ho : fd.origin with
    | none => exact Or.inl (by simp [markGenericTemplateReachable, hg, ho])
    | some tmpl =>
      by_cases ht : tmpl = f
      · exact Or.inl (by simp [markGenericTemplateReachable, hg, ho, ht])
      · cases hr : alookup s.reachable tmpl with
        | some w =>
          exact Or.inl (by rw [mgtr_reduce p s f fd tmpl hg ho ht, hr])
        | none =>
          exact Or.inr ⟨tmpl, fd, rfl, ho, ht, hr,
            by rw [mgtr_reduce p s f fd tmpl hg ho ht, hr]⟩

/-- On a not-yet-reachable function, `addReachableF` is: insert, append
to the worklist, mark the generic template. -/
theorem addReachableF_new (p : Program) (s : RTAState) (f : String) (b : Bool)
    (hnew : alookup s.reachable f = none) :
    addReachableF p s f b =
      markGenericTemplateReachable p
        { s with reachable := aset s.reachable f b,
                 worklist := s.worklist ++ [f],
                 enqueued := s.enqueued ++ [f] } f := by
  unfold addReachableF
  simp only [hnew, Option.isNone_none, Option.getD_none, if_true]
  cases b <;> simp

/-- On an already-reachable function, `addReachableF` only ORs the
flag: no enqueue, no other change. -/
theorem addReachableF_seen (p : Program) (s : RTAState) (f : String) (b w : Bool)
    (hseen : alookup s.reachable f = some w) :
    addReachableF p s f b =
      { s with reachable := aset s.reachable f (b || w) } := by
  unfold addReachableF
  cases b <;> simp [hseen]

/-- `addReachableF` records its argument with the OR of the old flag
(defaulting to false) and the requested one. -/
theorem addReachableF_self (p : Program) (s : RTAState) (f : String) (b : Bool) :
    alookup (addReachableF p s f b).reachable f =
      some (b || (alookup s.reachable f).getD false) := by
  cases hl : alookup s.reachable f with
  | some w => rw [addReachableF_seen p s f b w hl]; simp [alookup_aset_self]
  | none =>
    rw [addReachableF_new p s f b hl]
    rcases mgtr_eq_or p
        { s with reachable := aset s.reachable f b,
                 worklist := s.worklist ++ [f],
                 enqueued := s.enqueued ++ [f] } f with h | ⟨tmpl, fd, _, _, ht, _, h⟩
    · rw [h]; simp [alookup_aset_self]
    · rw [h]
      simp only []
      rw [alookup_aset_ne _ _ _ _ (Ne.symm ht)]
      simp [alookup_aset_self]

/-- **C6.** When a function `f` first enters `reachable_functions` and
is an instantiated generic (its origin template exists and is distinct
from `f`), the origin template is also inserted into
`reachable_functions` — with `AddrTaken=false` if not previously
present, and unchanged otherwise — and only `f` itself, never the
template, is appended to the worklist (and to the enqueue history) by
this insertion. -/
theorem C6_generic_template_inserted (p : Program) (s : RTAState)
    (f tmpl : String) (b : Bool)
    (hnew : alookup s.reachable f = none)
    (horig : (p.getFunc f).bind (fun fd => fd.origin) = some tmpl)
    (hne : tmpl ≠ f) :
    (∃ v, alookup (addReachableF p s f b).reachable tmpl = some v ∧
        (alookup s.reachable tmpl = none → v = false) ∧
        (∀ w, alookup s.reachable tmpl = some w → v = w)) ∧
    (addReachableF p s f b).worklist = s.worklist ++ [f] ∧
    (addReachableF p s f b).enqueued = s.enqueued ++ [f] := by
  cases hg : p.getFunc f with
  | none => rw [hg] at horig; simp at horig
  | some fd =>
    rw [hg] at horig
    simp only [Option.bind] at horig
    rw [addReachableF_new p s f b hnew,
      mgtr_reduce p _ f fd tmpl hg horig hne]
    have hlt : alookup (aset s.reachable f b) tmpl = alookup s.reachable tmpl :=
      alookup_aset_ne _ _ _ _ hne
    cases hr : alookup s.reachable tmpl with
    | some w =>
      rw [hlt, hr]
      refine ⟨⟨w, ?_, fun hc => Option.noConfusion hc,
        fun w' hw' => Option.some.inj hw'⟩, rfl, rfl⟩
      exact hlt.trans hr
    | none =>
      rw [hlt, hr]
      refine ⟨⟨false, ?_, fun _ => rfl,
        fun w' hw' => Option.noConfusion hw'⟩, rfl, rfl⟩
      exact alookup_aset_self _ _ _

/-- Witness program for C6: an instantiated generic and its template. -/
def progC6 : Program :=
  { funcs := [
      ("addInt", { str := "m.Add[int]", obj := none, origin := some "add",
                   blocks := [], sigId := "g", pkgPath := some "example.com/m" }),
      ("add", { str := "m.Add[T]", obj := none, origin := none,
                blocks := [], sigId := "g", pkgPath := some "example.com/m" })],
    packages := [], methodSet := fun _ => [], reflectValueCall := none }

/-- Witness for C6 at a concrete instantiation. -/
theorem C6_witness :
    (∃ v, alookup (addReachableF progC6 initialState "addInt" false).reachable
        "add" = some v ∧
      (alookup initialState.reachable "add" = none → v = false) ∧
      (∀ w, alookup initialState.reachable "add" = some w → v = w)) ∧
    (addReachableF progC6 initialState "addInt" false).worklist =
      initialState.worklist ++ ["addInt"] ∧
    (addReachableF progC6 initialState "addInt" false).enqueued =
      initialState.enqueued ++ ["addInt"] :=
  C6_generic_template_inserted progC6 initialState "addInt" "add" false rfl
    (by decide) (by decide)

/-- **C8.** For an interface invoke site and a candidate concrete type
`C`, when the interface method is not found in `C`'s method set (looked
up by the method's defining package) nor — when `C` is not already a
pointer — in the method set of `*C`, the engine skips the (site, C)
pair silently: the state is returned unchanged, with no error and no
diagnostic. -/
theorem C8_resolver_miss_silently_skipped (p : Program) (s : RTAState)
    (site : CallCommon) (C0 : GoType)
    (hval : msetLookup (p.methodSet (unalias C0)) site.methodPkg
      site.methodName = none)
    (hptr : msetLookup (p.methodSet (.pointer (unalias C0))) site.methodPkg
      site.methodName = none) :
    addInvokeEdge p s site C0 = s := by
  simp only [addInvokeEdge, hval]
  by_cases hp : isPointerType (unalias C0) <;> simp [hp, hptr]

/-- Witness for C8: an empty method set on both the value and the
pointer form leaves the state untouched. -/
def progC8 : Program :=
  { funcs := [], packages := [], methodSet := fun _ => [], reflectValueCall := none }

def siteC8 : CallCommon :=
  { isInvoke := true, value := none, args := [], sigId := "s",
    methodPkg := none, methodName := "Write", ifaceT := .iface [] }

theorem C8_witness :
    msetLookup (progC8.methodSet (unalias (.basic "int"))) siteC8.methodPkg
      siteC8.methodName = none ∧
    msetLookup (progC8.methodSet (.pointer (unalias (.basic "int"))))
      siteC8.methodPkg siteC8.methodName = none ∧
    addInvokeEdge progC8 initialState siteC8 (.basic "int") = initialState :=
  ⟨rfl, rfl,
   C8_resolver_miss_silently_skipped progC8 initialState siteC8 (.basic "int")
     rfl rfl⟩

/-- **C7.** A scanned static call whose callee is `runtime.SetFinalizer`
with at least two arguments has its second argument extracted —
unwrapping a MakeInterface wrapper and a MakeClosure construction — and
the resulting function is marked reachable with `AddrTaken=true`; a call
with fewer than two arguments or a different callee leaves the state
unchanged. -/
theorem C7_setfinalizer_extraction (p : Program) (s : RTAState)
    (call : CallCommon) (fid : String) (ob : ObjInfo)
    (hinv : call.isInvoke = false)
    (hv : call.value = some (.fn fid))
    (hobj : (p.getFunc fid).bind (fun fd => fd.obj) = some ob) :
    ((ob = ⟨some "runtime", "SetFinalizer"⟩) →
      ∀ a0 a1 rest h, call.args = a0 :: a1 :: rest →
        (a1 = .fn h ∨ a1 = .makeIface (.fn h) ∨ a1 = .makeClosure (.fn h) ∨
          a1 = .makeIface (.makeClosure (.fn h))) →
        alookup (checkSetFinalizer p s call).reachable h = some true) ∧
    ((ob.pkg ≠ some "runtime" ∨ ob.name ≠ "SetFinalizer" ∨
        call.args.length < 2) →
      checkSetFinalizer p s call = s) := by
  constructor
  · rintro rfl a0 a1 rest h hargs hex
    simp only [checkSetFinalizer, hinv, hv, hobj, hargs]
    rcases hex with rfl | rfl | rfl | rfl <;>
      simp [addReachableF_self, (show ¬(rest.length + 1 + 1 < 2) by omega)]
  · intro hdiff
    simp only [checkSetFinalizer, hinv, hv, hobj]
    simp [hdiff]

/-- Witness program and call for C7. -/
def progC7 : Program :=
  { funcs := [
      ("runtime.SetFinalizer",
        { str := "runtime.SetFinalizer",
          obj := some ⟨some "runtime", "SetFinalizer"⟩, origin := none,
          blocks := [], sigId := "sf", pkgPath := some "runtime" }),
      ("cleanup",
        { str := "m.cleanup", obj := none, origin := none,
          blocks := [], sigId := "cl", pkgPath := some "example.com/m" })],
    packages := [], methodSet := fun _ => [], reflectValueCall := none }

def callC7 : CallCommon :=
  { isInvoke := false, value := some (.fn "runtime.SetFinalizer"),
    args := [.otherValue "r", .makeIface (.fn "cleanup")], sigId := "sf",
    methodPkg := none, methodName := "", ifaceT := .iface [] }

def callC7short : CallCommon :=
  { isInvoke := false, value := some (.fn "runtime.SetFinalizer"),
    args := [.otherValue "r"], sigId := "sf",
    methodPkg := none, methodName := "", ifaceT := .iface [] }

/-- Witness for C7: the finalizer is extracted through the
MakeInterface wrapper; a one-argument call changes nothing. -/
theorem C7_witness :
    alookup (checkSetFinalizer progC7 initialState callC7).reachable
      "cleanup" = some true ∧
    checkSetFinalizer progC7 initialState callC7short = initialState :=
  ⟨(C7_setfinalizer_extraction progC7 initialState callC7
      "runtime.SetFinalizer" ⟨some "runtime", "SetFinalizer"⟩ rfl rfl
      (by decide)).1 rfl (.otherValue "r") (.makeIface (.fn "cleanup")) []
      "cleanup" rfl (Or.inr (Or.inl rfl)),
   (C7_setfinalizer_extraction progC7 initialState callC7short
      "runtime.SetFinalizer" ⟨some "runtime", "SetFinalizer"⟩ rfl rfl
      (by decide)).2 (Or.inr (Or.inr (by decide)))⟩

/-! ## Program well-formedness and the step relation

Everything the engine can mark reachable originates in the program: a
callee or operand of an instruction, a function's generic origin, a
method value from the program's method-set cache, or the
`(*reflect.Value).Call` entry point. -/

/-- The function constants occurring inside an `ssa.Value`. -/
def valueFuncRefs : SSAValue → List String
  | .fn g => [g]
  | .makeIface x => valueFuncRefs x
  | .makeClosure f => valueFuncRefs f
  | _ => []

/-- The function constants an instruction exposes to the engine. -/
def instrFuncRefs : Instr → List String
  | .call c => (c.value.elim [] valueFuncRefs) ++ c.args.bind valueFuncRefs
  | .makeInterface _ _ x => valueFuncRefs x
  | .typeAssert _ _ x => valueFuncRefs x
  | .changeInterface _ x => valueFuncRefs x
  | .otherInstr ops => ops.bind valueFuncRefs

/-- Well-formedness of an SSA program as the engine consumes it. -/
structure WF (p : Program) : Prop where
  origin_ids : ∀ f fd, p.getFunc f = some fd → ∀ t, fd.origin = some t → t ∈ p.ids
  mset_ids : ∀ T m, m ∈ p.methodSet T → ∀ g, m.fn = some g → g ∈ p.ids
  instr_ids : ∀ f fd, p.getFunc f = some fd → ∀ block ∈ fd.blocks,
    ∀ instr ∈ block, ∀ g ∈ instrFuncRefs instr, g ∈ p.ids
  rvc_ids : ∀ g, p.reflectValueCall = some g → g ∈ p.ids

/-- Membership in the address-taken table. -/
def atfMem (s : RTAState) (g : String) : Prop :=
  ∃ sig l, alookup s.addrTakenFuncsBySig sig = some l ∧ g ∈ l

/-- The loop invariant: the enqueue history has no duplicates, enqueued
functions are reachable, reachable functions and address-taken table
entries are functions of the program. -/
structure Good (p : Program) (s : RTAState) : Prop where
  nodup : s.enqueued.Nodup
  enq_reach : ∀ f ∈ s.enqueued, (alookup s.reachable f).isSome = true
  reach_ids : ∀ f, (alookup s.reachable f).isSome = true → f ∈ p.ids
  atf_ids : ∀ g, atfMem s g → g ∈ p.ids

/-- The effect of one engine operation on the tracked state: the
worklist and the enqueue history grow by the same fresh, duplicate-free
batch; the scan history grows by `σ`; reachability, address-taken
flags, reachable objects and runtime types are monotone; and (under
well-formedness) every newly reachable function and every new
address-taken table entry is a program function. -/
structure Steps (p : Program) (σ : List String) (s s' : RTAState) : Prop where
  wl : ∃ δ, s'.worklist = s.worklist ++ δ ∧ s'.enqueued = s.enqueued ++ δ ∧
    δ.Nodup ∧ (∀ f ∈ δ, alookup s.reachable f = none) ∧
    (∀ f ∈ δ, (alookup s'.reachable f).isSome = true)
  scan : s'.scanned = s.scanned ++ σ
  reach : ∀ f, (alookup s.reachable f).isSome = true →
    (alookup s'.reachable f).isSome = true
  flag : ∀ f, alookup s.reachable f = some true →
    alookup s'.reachable f = some true
  objs : ∀ o, o ∈ s.reachableObjects → o ∈ s'.reachableObjects
  rt : ∀ T b, alookup s.runtimeTypes T = some b →
    ∃ b', alookup s'.runtimeTypes T = some b' ∧ (b = true → b' = true)
  prov : WF p → ∀ f, (alookup s'.reachable f).isSome = true →
    (alookup s.reachable f).isSome = true ∨ f ∈ p.ids ∨ atfMem s f
  atfprov : WF p → ∀ g, atfMem s' g → atfMem s g ∨ g ∈ p.ids

theorem Steps.rfl (p : Program) (s : RTAState) : Steps p [] s s where
  wl := ⟨[], by simp, by simp, List.nodup_nil, by simp, by simp⟩
  scan := by simp
  reach := fun _ h => h
  flag := fun _ h => h
  objs := fun _ h => h
  rt := fun _ b h => ⟨b, h, fun hb => hb⟩
  prov := fun _ _ h => Or.inl h
  atfprov := fun _ _ h => Or.inl h

theorem Steps.trans {p : Program} {σ1 σ2 : List String} {s s' s'' : RTAState}
    (h1 : Steps p σ1 s s') (h2 : Steps p σ2 s' s'') :
    Steps p (σ1 ++ σ2) s s'' where
  wl := by
    obtain ⟨d1, hw1, he1, hn1, hf1, hin1⟩ := h1.wl
    obtain ⟨d2, hw2, he2, hn2, hf2, hin2⟩ := h2.wl
    refine ⟨d1 ++ d2, by rw [hw2, hw1, List.append_assoc],
      by rw [he2, he1, List.append_assoc], ?_, ?_, ?_⟩
    · refine hn1.append hn2 (fun f hf1' hf2' => ?_)
      have := hin1 f hf1'
      rw [hf2 f hf2'] at this
      cases this
    · intro f hf
      rcases List.mem_append.mp hf with hm | hm
      · exact hf1 f hm
      · cases hc : alookup s.reachable f with
        | none => rfl
        | some v =>
          have : (alookup s'.reachable f).isSome = true :=
            h1.reach f (by rw [hc]; rfl)
          rw [hf2 f hm] at this
          cases this
    · intro f hf
      rcases List.mem_append.mp hf with hm | hm
      · exact h2.reach f (hin1 f hm)
      · exact hin2 f hm
  scan := by rw [h2.scan, h1.scan, List.append_assoc]
  reach := fun f hf => h2.reach f (h1.reach f hf)
  flag := fun f hf => h2.flag f (h1.flag f hf)
  objs := fun o ho => h2.objs o (h1.objs o ho)
  rt := fun T b hb =>
    let ⟨b', hb', hi⟩ := h1.rt T b hb
    let ⟨b'', hb'', hi'⟩ := h2.rt T b' hb'
    ⟨b'', hb'', fun ht => hi' (hi ht)⟩
  prov := fun hw f hf => by
    rcases h2.prov hw f hf with hd | hid | hatf
    · exact h1.prov hw f hd
    · exact Or.inr (Or.inl hid)
    · rcases h1.atfprov hw f hatf with hm | hid
      · exact Or.inr (Or.inr hm)
      · exact Or.inr (Or.inl hid)
  atfprov := fun hw g hg => by
    rcases h2.atfprov hw g hg with hm | hid
    · exact h1.atfprov hw g hm
    · exact Or.inr hid

/-- Fold a batch of silent (`σ = []`) steps. -/
theorem Steps.foldl {α : Type} {p : Program} (g : RTAState → α → RTAState)
    (l : List α) (s : RTAState)
    (h : ∀ st x, x ∈ l → Steps p [] st (g st x)) :
    Steps p [] s (l.foldl g s) := by
  induction l generalizing s with
  | nil => exact Steps.rfl p s
  | cons x t ih =>
    rw [List.foldl_cons]
    have := Steps.trans (h s x (List.mem_cons_self x t))
      (ih (g s x) (fun st y hy => h st y (List.mem_cons_of_mem x hy)))
    simpa using this

/-- A step that leaves every tracked field unchanged. -/
theorem Steps.untouched {p : Program} {s s' : RTAState}
    (h1 : s'.worklist = s.worklist) (h2 : s'.enqueued = s.enqueued)
    (h3 : s'.scanned = s.scanned) (h4 : s'.reachable = s.reachable)
    (h5 : s'.reachableObjects = s.reachableObjects)
    (h6 : s'.runtimeTypes = s.runtimeTypes)
    (h7 : s'.addrTakenFuncsBySig = s.addrTakenFuncsBySig) :
    Steps p [] s s' where
  wl := ⟨[], by simp [h1], by simp [h2], List.nodup_nil, by simp, by simp⟩
  scan := by simp [h3]
  reach := fun f hf => by rw [h4]; exact hf
  flag := fun f hf => by rw [h4]; exact hf
  objs := fun o ho => by rw [h5]; exact ho
  rt := fun T b hb => ⟨b, by rw [h6]; exact hb, fun hb' => hb'⟩
  prov := fun _ f hf => Or.inl (by rw [h4] at hf; exact hf)
  atfprov := fun _ g hg => Or.inl (by
    obtain ⟨sig, l, hl, hm⟩ := hg
    rw [h7] at hl
    exact ⟨sig, l, hl, hm⟩)

/-- A pure insertion into `Reachable` is a silent step, provided a
fresh key is a program function (or address-taken) and a true flag is
never lowered. -/
theorem steps_insert_reachable {p : Program} {s : RTAState} (k : String)
    (v : Bool)
    (hkids : WF p → alookup s.reachable k = none → k ∈ p.ids ∨ atfMem s k)
    (hv2 : alookup s.reachable k = some true → v = true) :
    Steps p [] s { s with reachable := aset s.reachable k v } where
  wl := ⟨[], by simp, by simp, List.nodup_nil, by simp, by simp⟩
  scan := by simp
  reach := fun g hg => by
    simp only [alookup_aset]
    by_cases hgk : g = k
    · simp [hgk]
    · simp only [hgk, if_false]; exact hg
  flag := fun g hg => by
    simp only [alookup_aset]
    by_cases hgk : g = k
    · subst hgk; rw [hv2 hg]; simp
    · simp only [hgk, if_false]; exact hg
  objs := fun o ho => ho
  rt := fun T b hb => ⟨b, hb, fun h => h⟩
  prov := fun hw g hg => by
    simp only [alookup_aset] at hg
    by_cases hgk : g = k
    · subst hgk
      cases hl : alookup s.reachable g with
      | some w => exact Or.inl (by simp [hl])
      | none =>
        rcases hkids hw hl with h | h
        · exact Or.inr (Or.inl h)
        · exact Or.inr (Or.inr h)
    · rw [if_neg hgk] at hg
      exact Or.inl hg
  atfprov := fun _ g hg => Or.inl hg

/-- The insert-and-enqueue step taken by `addReachable` on a fresh
function. -/
theorem steps_enqueue {p : Program} {s : RTAState} (f : String) (b : Bool)
    (hl : alookup s.reachable f = none)
    (hids : WF p → f ∈ p.ids ∨ atfMem s f) :
    Steps p [] s
      { s with reachable := aset s.reachable f b,
               worklist := s.worklist ++ [f],
               enqueued := s.enqueued ++ [f] } where
  wl := ⟨[f], by simp, by simp, List.nodup_singleton f,
    by simpa using hl,
    fun g hgm => by
      rw [List.mem_singleton] at hgm
      subst hgm
      simp [alookup_aset_self]⟩
  scan := by simp
  reach := fun g hg => by
    simp only [alookup_aset]
    by_cases hgk : g = f
    · simp [hgk]
    · simp only [hgk, if_false]; exact hg
  flag := fun g hg => by
    simp only [alookup_aset]
    by_cases hgk : g = f
    · subst hgk; rw [hl] at hg; cases hg
    · simp only [hgk, if_false]; exact hg
  objs := fun o ho => ho
  rt := fun T b hb => ⟨b, hb, fun h => h⟩
  prov := fun hw g hg => by
    simp only [alookup_aset] at hg
    by_cases hgk : g = f
    · subst hgk
      rcases hids hw with h | h
      · exact Or.inr (Or.inl h)
      · exact Or.inr (Or.inr h)
    · rw [if_neg hgk] at hg
      exact Or.inl hg
  atfprov := fun _ g hg => Or.inl hg

/-- `addReachableF` is a silent step. -/
theorem steps_addReachableF (p : Program) (s : RTAState) (f : String) (b : Bool)
    (hids : WF p → f ∈ p.ids ∨ atfMem s f) :
    Steps p [] s (addReachableF p s f b) := by
  cases hl : alookup s.reachable f with
  | some w =>
    rw [addReachableF_seen p s f b w hl]
    refine steps_insert_reachable f (b || w)
      (fun _ hno => by rw [hl] at hno; cases hno)
      (fun ht => by rw [hl] at ht; rw [Option.some.inj ht]; simp)
  | none =>
    rw [addReachableF_new p s f b hl]
    rcases mgtr_eq_or p
        { s with reachable := aset s.reachable f b,
                 worklist := s.worklist ++ [f],
                 enqueued := s.enqueued ++ [f] } f with
      heq | ⟨tmpl, fd, hg, ho, ht, hfr, heq⟩
    · rw [heq]
      exact steps_enqueue f b hl hids
    · rw [heq]
      have h1 := @steps_enqueue p s f b hl hids
      have h2 := @steps_insert_reachable p
        { s with reachable := aset s.reachable f b,
                 worklist := s.worklist ++ [f],
                 enqueued := s.enqueued ++ [f] } tmpl false
        (fun hw _ => Or.inl (hw.origin_ids f fd hg tmpl ho))
        (fun hsome => by rw [hfr] at hsome; cases hsome)
      simpa using h1.trans h2

/-- `addReachable` (with the nil guard) is a silent step. -/
theorem steps_addReachable (p : Program) (s : RTAState) (f : Option String)
    (b : Bool) (hids : WF p → ∀ g, f = some g → g ∈ p.ids ∨ atfMem s g) :
    Steps p [] s (addReachable p s f b) := by
  cases f with
  | none => exact Steps.rfl p s
  | some g =>
    exact steps_addReachableF p s g b (fun hw => hids hw g rfl)

/-- `addEdge` is a silent step. -/
theorem steps_addEdge (p : Program) (s : RTAState) (callee : Option String)
    (b : Bool) (hids : WF p → ∀ g, callee = some g → g ∈ p.ids ∨ atfMem s g) :
    Steps p [] s (addEdge p s callee b) :=
  steps_addReachable p s callee b hids

/-- `addReachableObject` is a silent step. -/
theorem steps_addReachableObject (p : Program) (s : RTAState) (obj : String) :
    Steps p [] s (addReachableObject s obj) := by
  unfold addReachableObject
  refine { wl := ⟨[], by simp, by simp, List.nodup_nil, by simp, by simp⟩,
           scan := by simp, reach := fun _ h => h, flag := fun _ h => h,
           objs := fun o ho => ?_, rt := fun T b hb => ⟨b, hb, fun h => h⟩,
           prov := fun _ _ h => Or.inl h, atfprov := fun _ _ h => Or.inl h }
  by_cases hm : obj ∈ s.reachableObjects <;> simp [hm, ho]

/-- `markSelection` is a silent step when the selection's method value
is a program function. -/
theorem steps_markSelection (p : Program) (s : RTAState) (m : Method)
    (hids : WF p → ∀ g, m.fn = some g → g ∈ p.ids) :
    Steps p [] s (markSelection p s m) := by
  unfold markSelection
  cases hf : m.fn with
  | some g => exact steps_addReachableF p s g true (fun hw => Or.inl (hids hw g hf))
  | none => exact steps_addReachableObject p s m.obj

/-- `addReachableF` never touches the address-taken table. -/
theorem addReachableF_atf (p : Program) (s : RTAState) (f : String) (b : Bool) :
    (addReachableF p s f b).addrTakenFuncsBySig = s.addrTakenFuncsBySig := by
  cases hl : alookup s.reachable f with
  | some w => rw [addReachableF_seen p s f b w hl]
  | none =>
    rw [addReachableF_new p s f b hl]
    rcases mgtr_eq_or p
        { s with reachable := aset s.reachable f b,
                 worklist := s.worklist ++ [f],
                 enqueued := s.enqueued ++ [f] } f with
      heq | ⟨tmpl, fd, _, _, _, _, heq⟩ <;> rw [heq]

/-- Recording a new address-taken function in the signature table. -/
theorem steps_set_atf (p : Program) (s : RTAState) (sig f : String)
    (hf : WF p → f ∈ p.ids) :
    Steps p [] s
      { s with addrTakenFuncsBySig := aset s.addrTakenFuncsBySig sig
                 (((alookup s.addrTakenFuncsBySig sig).getD []) ++ [f]) } where
  wl := ⟨[], by simp, by simp, List.nodup_nil, by simp, by simp⟩
  scan := by simp
  reach := fun _ h => h
  flag := fun _ h => h
  objs := fun _ h => h
  rt := fun T b hb => ⟨b, hb, fun h => h⟩
  prov := fun _ _ h => Or.inl h
  atfprov := fun hw g hg => by
    obtain ⟨sig', l, hl, hm⟩ := hg
    simp only [alookup_aset] at hl
    by_cases hss : sig' = sig
    · rw [if_pos hss] at hl
      cases hl
      rcases List.mem_append.mp hm with hm' | hm'
      · cases hold : alookup s.addrTakenFuncsBySig sig with
        | some l0 => exact Or.inl ⟨sig, l0, hold, by rwa [hold] at hm'⟩
        | none => rw [hold] at hm'; cases hm'
      · rw [List.mem_singleton] at hm'
        subst hm'
        exact Or.inr (hf hw)
    · rw [if_neg hss] at hl
      exact Or.inl ⟨sig', l, hl, hm⟩

/-- Marking every known address-taken function of a signature (the
dynamic-call cross-product) is a silent step that keeps the table. -/
theorem steps_fold_addEdge_atf (p : Program) (l : List String) (s : RTAState)
    (hmem : ∀ g ∈ l, atfMem s g) :
    Steps p [] s (l.foldl (fun st g => addEdge p st (some g) true) s) ∧
    (l.foldl (fun st g => addEdge p st (some g) true) s).addrTakenFuncsBySig =
      s.addrTakenFuncsBySig := by
  induction l generalizing s with
  | nil => exact ⟨Steps.rfl p s, rfl⟩
  | cons g t ih =>
    rw [List.foldl_cons]
    have h1 : Steps p [] s (addEdge p s (some g) true) :=
      steps_addEdge p s (some g) true
        (fun _ g' hg' => by cases hg'; exact Or.inr (hmem g (by simp)))
    have hatf : (addEdge p s (some g) true).addrTakenFuncsBySig =
        s.addrTakenFuncsBySig := addReachableF_atf p s g true
    have ih' := ih (addEdge p s (some g) true) (fun g' hg' => by
      obtain ⟨sig, l0, hl0, hm0⟩ := hmem g' (List.mem_cons_of_mem g hg')
      exact ⟨sig, l0, by rw [hatf]; exact hl0, hm0⟩)
    exact ⟨by simpa using h1.trans ih'.1, by rw [ih'.2, hatf]⟩

/-- `visitAddrTakenFunc` is a silent step when its argument is a
program function. -/
theorem steps_visitAddrTakenFunc (p : Program) (s : RTAState) (f : String)
    (hf : WF p → f ∈ p.ids) :
    Steps p [] s (visitAddrTakenFunc p s f) := by
  unfold visitAddrTakenFunc
  by_cases hmem : f ∈ (alookup s.addrTakenFuncsBySig (p.sigOf f)).getD []
  · simp only [hmem, if_true]
    exact Steps.rfl p s
  · simp only [hmem, if_false]
    have h1 := steps_set_atf p s (p.sigOf f) f hf
    set s1 := { s with addrTakenFuncsBySig := aset s.addrTakenFuncsBySig (p.sigOf f)
                          (((alookup s.addrTakenFuncsBySig (p.sigOf f)).getD []) ++ [f]) } with hs1
    have h2 : Steps p [] s1
        (((alookup s1.dynCallSites (p.sigOf f)).getD []).foldl
          (fun st _site => addEdge p st (some f) true) s1) :=
      Steps.foldl _ _ s1 (fun st site _ =>
        steps_addEdge p st (some f) true
          (fun hw g hg => by cases hg; exact Or.inl (hf hw)))
    set s2 := ((alookup s1.dynCallSites (p.sigOf f)).getD []).foldl
      (fun st _site => addEdge p st (some f) true) s1 with hs2
    have h3 : Steps p [] s2
        (if p.reflectValueCall.isSome then addEdge p s2 (some f) true else s2) := by
      split
      · exact steps_addEdge p s2 (some f) true
          (fun hw g hg => by cases hg; exact Or.inl (hf hw))
      · exact Steps.rfl p s2
    simpa using (h1.trans h2).trans h3

/-- `visitDynCall` is a silent step. -/
theorem steps_visitDynCall (p : Program) (s : RTAState) (site : CallCommon) :
    Steps p [] s (visitDynCall p s site) := by
  unfold visitDynCall
  set s1 := { s with dynCallSites := aset s.dynCallSites site.sigId
                        (((alookup s.dynCallSites site.sigId).getD []) ++ [site]) } with hs1
  have h1 : Steps p [] s s1 :=
    Steps.untouched rfl rfl rfl rfl rfl rfl rfl
  have h2 := steps_fold_addEdge_atf p
    ((alookup s1.addrTakenFuncsBySig site.sigId).getD []) s1
    (fun g hg => by
      cases hold : alookup s1.addrTakenFuncsBySig site.sigId with
      | some l0 => exact ⟨site.sigId, l0, hold, by rwa [hold] at hg⟩
      | none => rw [hold] at hg; cases hg)
  simpa using h1.trans h2.1

/-- `addInvokeEdge` is a silent step: a concrete method comes from the
program's method-set cache. -/
theorem steps_addInvokeEdge (p : Program) (s : RTAState) (site : CallCommon)
    (C0 : GoType) : Steps p [] s (addInvokeEdge p s site C0) := by
  simp only [addInvokeEdge]
  cases h1 : msetLookup (p.methodSet (unalias C0)) site.methodPkg
      site.methodName with
  | some sel =>
    exact steps_addEdge p s sel.fn true (fun hw g hg =>
      Or.inl (hw.mset_ids _ sel (List.mem_of_find?_eq_some h1) g hg))
  | none =>
    by_cases hp : isPointerType (unalias C0)
    · simp only [hp, if_true]
      exact Steps.rfl p s
    · simp only [hp, if_false]
      cases h2 : msetLookup (p.methodSet (.pointer (unalias C0))) site.methodPkg
          site.methodName with
      | some sel =>
        exact steps_addEdge p s sel.fn true (fun hw g hg =>
          Or.inl (hw.mset_ids _ sel (List.mem_of_find?_eq_some h2) g hg))
      | none => exact Steps.rfl p s

/-- `getConcreteTypeInfo` only touches the caches. -/
theorem steps_getConcreteTypeInfo (p : Program) (s : RTAState) (C : GoType) :
    Steps p [] s (getConcreteTypeInfo p s C).1 := by
  unfold getConcreteTypeInfo
  cases h : alookup s.cmap (unalias C) with
  | some i => simp only [h]; exact Steps.rfl p s
  | none =>
    simp only [h]
    split <;> exact Steps.untouched rfl rfl rfl rfl rfl rfl rfl

/-- `getInterfaceTypeInfo` only touches the caches. -/
theorem steps_getInterfaceTypeInfo (p : Program) (s : RTAState) (I : GoType) :
    Steps p [] s (getInterfaceTypeInfo p s I).1 := by
  unfold getInterfaceTypeInfo
  cases h : alookup s.imap I with
  | some i => simp only [h]; exact Steps.rfl p s
  | none =>
    simp only [h]
    exact Steps.untouched rfl rfl rfl rfl rfl rfl rfl

/-- `interfaces` only touches the caches. -/
theorem steps_interfaces (p : Program) (s : RTAState) (C : GoType) :
    Steps p [] s (interfaces p s C).1 := by
  unfold interfaces
  rcases hgc : getConcreteTypeInfo p s C with ⟨s1, ci⟩
  have h0 : Steps p [] s s1 := by
    have := steps_getConcreteTypeInfo p s C
    rwa [hgc] at this
  simp only []
  split
  · refine ?_
    have h2 : Steps p [] s1 (s1.imap.foldl (fun st pr =>
        if implementsB p.methodSet (cinfoAt st ci) (iinfoAt st pr.2) then
          setCinfo st ci { cinfoAt st ci with
            impl := (cinfoAt st ci).impl ++ [unalias pr.1] }
        else st) s1) :=
      Steps.foldl _ _ s1 (fun st pr _ => by
        split
        · exact Steps.untouched rfl rfl rfl rfl rfl rfl rfl
        · exact Steps.rfl p st)
    simpa using h0.trans h2
  · exact h0

/-- `setCinfo`/`setIinfo`/`memoImplsIndex`/`initIndexMaps` touch only
the caches and the index. -/
theorem steps_setIinfo (p : Program) (s : RTAState) (i : Nat) (v : IInfo) :
    Steps p [] s (setIinfo s i v) :=
  Steps.untouched rfl rfl rfl rfl rfl rfl rfl

theorem steps_memoImplsIndex (p : Program) (s : RTAState) (I : GoType)
    (ii : Nat) : Steps p [] s (memoImplsIndex s I ii) := by
  unfold memoImplsIndex
  split
  · exact Steps.untouched rfl rfl rfl rfl rfl rfl rfl
  · exact Steps.rfl p s

theorem steps_initIndexMaps (p : Program) (s : RTAState) :
    Steps p [] s (initIndexMaps s) := by
  unfold initIndexMaps
  split
  · exact Steps.untouched rfl rfl rfl rfl rfl rfl rfl
  · exact Steps.rfl p s

/-- `implFallbackScan` only touches the caches. -/
theorem steps_implFallbackScan (p : Program) (s : RTAState) (I : GoType)
    (ii : Nat) : Steps p [] s (implFallbackScan p s I ii) := by
  unfold implFallbackScan
  refine Steps.foldl _ _ s (fun st pr _ => ?_)
  dsimp only
  split
  · exact Steps.untouched rfl rfl rfl rfl rfl rfl rfl
  · exact Steps.rfl p st

/-- `implementations` only touches the caches. -/
theorem steps_implementations (p : Program) (s : RTAState) (I0 : GoType) :
    Steps p [] s (implementations p s I0).1 := by
  unfold implementations
  have h0 := steps_getInterfaceTypeInfo p s (unalias I0)
  simp only []
  split
  · exact h0
  · split
    · exact h0.trans (Steps.untouched rfl rfl rfl rfl rfl rfl rfl)
    · exact h0.trans ((steps_implFallbackScan p _ _ _).trans
        ((steps_setIinfo p _ _ _).trans (steps_memoImplsIndex p _ _ _)))

/-- `visitInvoke` is a silent step. -/
theorem steps_visitInvoke (p : Program) (s : RTAState) (site : CallCommon) :
    Steps p [] s (visitInvoke p s site) := by
  unfold visitInvoke
  simp only []
  refine ((@Steps.untouched p s
      { s with invokeSites := aset s.invokeSites site.ifaceT
                 (((alookup s.invokeSites site.ifaceT).getD []) ++ [site]) }
      rfl rfl rfl rfl rfl rfl rfl).trans
    ((steps_implementations p _ site.ifaceT).trans
      (Steps.foldl _ _ _ (fun st C _ => steps_addInvokeEdge p st site C))))

/-- `precacheConcreteInfos` only touches the caches. -/
theorem steps_precacheConcreteInfos (p : Program) (s : RTAState)
    (uts : List GoType) : Steps p [] s (precacheConcreteInfos p s uts) := by
  unfold precacheConcreteInfos
  exact Steps.foldl _ _ s (fun st T _ =>
    (steps_getConcreteTypeInfo p st T).trans
      (steps_getConcreteTypeInfo p (getConcreteTypeInfo p st T).1 (.pointer T)))

/-- `indexUserType` only touches the caches and the index. -/
theorem steps_indexUserType (p : Program) (cache : List (GoType × Nat))
    (st : RTAState) (T : GoType) :
    Steps p [] st (indexUserType p cache st T) := by
  unfold indexUserType
  refine ((steps_getConcreteTypeInfo p st T).trans
    (steps_getConcreteTypeInfo p _ (.pointer T))).trans
      (Steps.foldl _ _ _ (fun st3 pr _ => ?_))
  dsimp only
  split
  · exact Steps.rfl p st3
  · split
    · exact Steps.untouched rfl rfl rfl rfl rfl rfl rfl
    · exact Steps.rfl p st3

/-- `buildUserTypesIndex` only touches the caches and the index. -/
theorem steps_buildUserTypesIndex (p : Program) (s : RTAState) :
    Steps p [] s (buildUserTypesIndex p s) := by
  unfold buildUserTypesIndex
  split
  · exact Steps.rfl p s
  · simp only []
    exact (steps_precacheConcreteInfos p s _).trans
      ((steps_initIndexMaps p _).trans
        ((Steps.foldl _ _ _ (fun st T _ => steps_indexUserType p _ st T)).trans
          (Steps.untouched rfl rfl rfl rfl rfl rfl rfl)))

/-- `findAllImplementationsInProgram` only touches the caches. -/
theorem steps_findAllImplementationsInProgram (p : Program) (s : RTAState)
    (iface : GoType) :
    Steps p [] s (findAllImplementationsInProgram p s iface).1 := by
  unfold findAllImplementationsInProgram
  exact steps_buildUserTypesIndex p s

/-- `addTypeToIndex` only touches the caches and the index. -/
theorem steps_addTypeToIndex (p : Program) (s : RTAState) (T : GoType) :
    Steps p [] s (addTypeToIndex p s T) := by
  unfold addTypeToIndex
  split
  · exact Steps.rfl p s
  · split
    · exact Steps.rfl p s
    · simp only []
      refine (steps_getConcreteTypeInfo p s T).trans
        (Steps.foldl _ _ _ (fun st pr _ => ?_))
      dsimp only
      split
      · exact Steps.rfl p st
      · split
        · exact Steps.untouched rfl rfl rfl rfl rfl rfl rfl
        · exact Steps.rfl p st

/-- `markInterfaceMethodsReachable` is a silent step: every marked
method comes from the value or pointer method set of `T`. -/
theorem steps_markInterfaceMethodsReachable (p : Program) (s : RTAState)
    (T : GoType) (iface : GoType) :
    Steps p [] s (markInterfaceMethodsReachable p s T iface) := by
  unfold markInterfaceMethodsReachable
  refine Steps.foldl _ _ s (fun st method _ => ?_)
  refine Steps.foldl _ _ st (fun st2 mset hmset => ?_)
  cases hfind : msetLookup mset method.pkg method.name with
  | some sel =>
    refine steps_markSelection p st2 sel (fun hw g hg => ?_)
    have hsel := List.mem_of_find?_eq_some hfind
    rcases List.mem_cons.mp hmset with hmq | hmq
    · exact hw.mset_ids T sel (hmq ▸ hsel) g hg
    · rw [List.mem_singleton] at hmq
      exact hw.mset_ids (.pointer T) sel (hmq ▸ hsel) g hg
  | none => exact Steps.rfl p st2

/-- `markIfaceMsetMethods` is a silent step. -/
theorem steps_markIfaceMsetMethods (p : Program) (s : RTAState) (T : GoType)
    (iface : GoType) : Steps p [] s (markIfaceMsetMethods p s T iface) := by
  unfold markIfaceMsetMethods
  refine Steps.foldl _ _ s (fun st method _ => ?_)
  cases hfind : msetLookup (p.methodSet T) method.pkg method.name with
  | some sel =>
    exact steps_markSelection p st sel (fun hw g hg =>
      hw.mset_ids T sel (List.mem_of_find?_eq_some hfind) g hg)
  | none => exact Steps.rfl p st

/-- `artInvokeEdges` is a silent step. -/
theorem steps_artInvokeEdges (p : Program) (s : RTAState) (T : GoType) :
    Steps p [] s (artInvokeEdges p s T) := by
  unfold artInvokeEdges
  split
  · exact Steps.rfl p s
  · rcases hin : interfaces p s T with ⟨s1, ifs⟩
    have a1 : Steps p [] s s1 := by
      have := steps_interfaces p s T
      rwa [hin] at this
    simp only [hin]
    refine a1.trans (Steps.foldl _ _ s1 (fun st I _ => ?_))
    exact Steps.foldl _ _ st (fun st2 site _ => steps_addInvokeEdge p st2 site T)

/-- `artSafeContextMark` is a silent step when the method set is the
program's. -/
theorem steps_artSafeContextMark (p : Program) (s : RTAState)
    (mset : List Method)
    (hm : WF p → ∀ m ∈ mset, ∀ g, m.fn = some g → g ∈ p.ids) :
    Steps p [] s (artSafeContextMark p s mset) := by
  unfold artSafeContextMark
  split
  · refine Steps.foldl _ _ s (fun st mn _ => ?_)
    cases hfind : msetLookup mset none mn with
    | some sel =>
      exact steps_markSelection p st sel (fun hw g hg =>
        hm hw sel (List.mem_of_find?_eq_some hfind) g hg)
    | none => exact Steps.rfl p st
  · exact Steps.rfl p s

/-- `artExportedMark` is a silent step when the method set is the
program's. -/
theorem steps_artExportedMark (p : Program) (s : RTAState)
    (mset : List Method)
    (hm : WF p → ∀ m ∈ mset, ∀ g, m.fn = some g → g ∈ p.ids) :
    Steps p [] s (artExportedMark p s mset) := by
  unfold artExportedMark
  refine Steps.foldl _ _ s (fun st m hmem => ?_)
  split
  · split
    · exact Steps.rfl p st
    · exact steps_markSelection p st m (fun hw g hg => hm hw m hmem g hg)
  · exact Steps.rfl p st

/-- Inserting (or upgrading) a runtime-type entry is a silent step,
provided a recorded `skip=true` is never lowered. -/
theorem steps_set_rt (p : Program) (s : RTAState) (T : GoType) (b : Bool)
    (hT : ∀ b0, alookup s.runtimeTypes T = some b0 → b0 = true → b = true) :
    Steps p [] s { s with runtimeTypes := aset s.runtimeTypes T b } where
  wl := ⟨[], by simp, by simp, List.nodup_nil, by simp, by simp⟩
  scan := by simp
  reach := fun _ h => h
  flag := fun _ h => h
  objs := fun _ h => h
  rt := fun T' b0 hb0 => by
    simp only [alookup_aset]
    by_cases hTT : T' = T
    · subst hTT
      exact ⟨b, by simp, hT b0 hb0⟩
    · refine ⟨b0, ?_, fun h => h⟩
      rw [if_neg hTT]
      exact hb0
  prov := fun _ _ h => Or.inl h
  atfprov := fun _ _ h => Or.inl h

/-- The structure walk is a silent step, given that `addRuntimeType` at
the same fuel is. -/
theorem steps_addRuntimeTypeStructure_of (p : Program) (n : Nat)
    (hA : ∀ s T skip, Steps p [] s (addRuntimeType p n s T skip)) :
    ∀ s T, Steps p [] s (addRuntimeTypeStructure p n s T) := by
  intro s T
  unfold addRuntimeTypeStructure
  cases T
  case «alias» t => exact hA s (unalias t) true
  case pointer e => exact hA s e true
  case slice e => exact hA s e true
  case chanT e => exact hA s e true
  case mapT k v => exact (hA s k true).trans (hA _ v true)
  case named nm u msigs =>
    exact (hA s (.pointer (.named nm u msigs)) true).trans (hA _ u true)
  case array e => exact hA s e true
  case structT fields =>
    exact Steps.foldl _ _ s (fun st f _ => hA st f true)
  case tuple comps =>
    exact Steps.foldl _ _ s (fun st c _ => hA st c true)
  case basic nm => exact Steps.rfl p s
  case sig ps rs => exact Steps.rfl p s
  case iface ms => exact Steps.rfl p s
  case typeparam nm => exact Steps.rfl p s

/-- The marking-and-walk tail is a silent step, given that
`addRuntimeType` at the same fuel is. -/
theorem steps_artMarkAndWalk_of (p : Program) (n : Nat)
    (hA : ∀ s T skip, Steps p [] s (addRuntimeType p n s T skip)) :
    ∀ s T skip0, Steps p [] s (artMarkAndWalk p n s T skip0) := by
  intro s3 T skip0
  unfold artMarkAndWalk
  simp only []
  have hmset : WF p → ∀ m ∈ p.methodSet T, ∀ g, m.fn = some g → g ∈ p.ids :=
    fun hw m hm g hg => hw.mset_ids T m hm g hg
  have h4 : Steps p [] s3 (if skip0 then s3 else artInvokeEdges p s3 T) := by
    split
    · exact Steps.rfl p s3
    · exact steps_artInvokeEdges p s3 T
  set s4 := if skip0 then s3 else artInvokeEdges p s3 T with hs4
  have h5 : Steps p [] s4
      (if skip0 then ((skip0, s4) : Bool × RTAState)
       else if s4.currentFunction.isSome && isInKnownSafeContext p s4 then
         (true, artSafeContextMark p s4 (p.methodSet T))
       else (skip0, s4)).2 := by
    split
    · exact Steps.rfl p s4
    · split
      · exact steps_artSafeContextMark p s4 (p.methodSet T) hmset
      · exact Steps.rfl p s4
  set sk5 := if skip0 then ((skip0, s4) : Bool × RTAState)
    else if s4.currentFunction.isSome && isInKnownSafeContext p s4 then
      (true, artSafeContextMark p s4 (p.methodSet T))
    else (skip0, s4) with hsk5
  have h6 : Steps p [] sk5.2
      (if sk5.1 then sk5.2 else artExportedMark p sk5.2 (p.methodSet T)) := by
    split
    · exact Steps.rfl p sk5.2
    · exact steps_artExportedMark p sk5.2 (p.methodSet T) hmset
  set s6 := if sk5.1 then sk5.2 else artExportedMark p sk5.2 (p.methodSet T)
    with hs6
  have pre : Steps p [] s3 s6 := (h4.trans h5).trans h6
  cases T
  case basic nm => exact pre
  case iface ms => exact pre
  case typeparam nm => exact pre
  case «alias» t => exact pre.trans (hA s6 (unalias t) sk5.1)
  case pointer e => exact pre.trans (hA s6 e sk5.1)
  case slice e => exact pre.trans (hA s6 e sk5.1)
  case chanT e => exact pre.trans (hA s6 e sk5.1)
  case array e => exact pre.trans (hA s6 e sk5.1)
  case mapT k v => exact pre.trans ((hA s6 k sk5.1).trans (hA _ v sk5.1))
  case sig ps rs => exact pre.trans ((hA s6 ps sk5.1).trans (hA _ rs sk5.1))
  case structT fields =>
    exact pre.trans (Steps.foldl _ _ s6 (fun st f _ => hA st f sk5.1))
  case tuple comps =>
    exact pre.trans (Steps.foldl _ _ s6 (fun st c _ => hA st c sk5.1))
  case named nm u msigs =>
    exact pre.trans (((hA s6 (.pointer (.named nm u msigs)) sk5.1).trans
      (hA _ u true)).trans
        (Steps.foldl _ _ _ (fun st sg _ => hA st sg sk5.1)))

/-- `addRuntimeType` is a silent step, for every fuel. -/
theorem steps_addRuntimeType (p : Program) :
    ∀ fuel s T skip, Steps p [] s (addRuntimeType p fuel s T skip) := by
  intro fuel
  induction fuel with
  | zero =>
    intro s T skip
    simp only [addRuntimeType]
    exact Steps.rfl p s
  | succ n ih =>
    intro s T skip
    rw [addRuntimeType]
    cases hprev : alookup s.runtimeTypes T with
    | some prev =>
      simp only [hprev]
      split
      · next hcond =>
        refine steps_set_rt p s T skip (fun b0 hb0 hb0t => ?_)
        rw [hprev] at hb0
        cases hb0
        rw [hb0t] at hcond
        simp at hcond
      · exact Steps.rfl p s
    | none =>
      simp only [hprev]
      exact (steps_set_rt p s T skip
          (fun b0 hb0 => by rw [hprev] at hb0; cases hb0)).trans
        ((steps_addTypeToIndex p _ T).trans
          ((steps_addRuntimeTypeStructure_of p n ih _ T).trans
            (steps_artMarkAndWalk_of p n ih _ T skip)))

/-- `addRuntimeTypeSelective` is a silent step. -/
theorem steps_addRuntimeTypeSelective (p : Program) (s : RTAState)
    (T0 : GoType) (skip : Bool) :
    Steps p [] s (addRuntimeTypeSelective p s T0 skip) := by
  unfold addRuntimeTypeSelective
  simp only []
  split
  · exact Steps.rfl p s
  · next h =>
    have hnone : alookup s.runtimeTypes (unalias T0) = none :=
      Option.not_isSome_iff_eq_none.mp h
    have h1 : Steps p [] s
        { s with runtimeTypes := aset s.runtimeTypes (unalias T0) skip } :=
      steps_set_rt p s (unalias T0) skip
        (fun b0 hb0 => by rw [hnone] at hb0; cases hb0)
    split
    · exact h1
    · refine (h1.trans (Steps.foldl _ _ _ (fun st sel hmem => ?_))).trans
        (steps_artInvokeEdges p _ (unalias T0))
      split
      · exact steps_markSelection p st sel
          (fun hw g hg => hw.mset_ids (unalias T0) sel hmem g hg)
      · exact Steps.rfl p st

/-- `addRuntimeTypeForInterface` is a silent step. -/
theorem steps_addRuntimeTypeForInterface (p : Program) (fuel : Nat)
    (s : RTAState) (T0 iface : GoType) (skip : Bool) :
    Steps p [] s (addRuntimeTypeForInterface p fuel s T0 iface skip) := by
  unfold addRuntimeTypeForInterface
  simp only []
  by_cases hin : (alookup s.runtimeTypes (unalias T0)).isSome = true
  · simp only [hin, Bool.not_true, Bool.false_eq_true, if_false, ite_self]
    split
    · exact Steps.rfl p s
    · exact steps_markIfaceMsetMethods p s (unalias T0) iface
  · have hnone : alookup s.runtimeTypes (unalias T0) = none :=
      Option.not_isSome_iff_eq_none.mp (by simpa using hin)
    simp only [Bool.not_eq_true] at hin
    simp only [hin, Bool.not_false, if_true]
    have h1 : Steps p [] s
        { s with runtimeTypes := aset s.runtimeTypes (unalias T0) skip } :=
      steps_set_rt p s (unalias T0) skip
        (fun b0 hb0 => by rw [hnone] at hb0; cases hb0)
    have hstruct := steps_addRuntimeTypeStructure_of p fuel
      (fun s T sk => steps_addRuntimeType p fuel s T sk)
    split
    · exact h1.trans (hstruct _ (unalias T0))
    · exact (h1.trans ((steps_markIfaceMsetMethods p _ (unalias T0) iface).trans
        (steps_artInvokeEdges p _ (unalias T0)))).trans (hstruct _ (unalias T0))

/-- `markImplementorsMethodsReachable` is a silent step. -/
theorem steps_markImplementorsMethodsReachable (p : Program) (fuel : Nat)
    (s : RTAState) (targetIface : GoType) :
    Steps p [] s (markImplementorsMethodsReachable p fuel s targetIface) := by
  unfold markImplementorsMethodsReachable
  refine Steps.foldl _ _ s (fun st pkg _ => ?_)
  split
  · exact Steps.rfl p st
  · refine Steps.foldl _ _ st (fun st2 T _ => ?_)
    split
    · exact Steps.rfl p st2
    · split
      · split
        · exact steps_markIfaceMsetMethods p st2 T targetIface
        · exact steps_addRuntimeType p fuel st2 T false
      · exact Steps.rfl p st2

/-- `handleMakeInterface` is a silent step. -/
theorem steps_handleMakeInterface (p : Program) (fuel : Nat) (s : RTAState)
    (target xType : GoType) :
    Steps p [] s (handleMakeInterface p fuel s target xType) := by
  unfold handleMakeInterface
  split
  · cases hsp : hmiSpecial xType with
    | some targetIface =>
      simp only [hsp]
      exact steps_markImplementorsMethodsReachable p fuel s targetIface
    | none =>
      simp only [hsp]
      split
      · exact steps_addRuntimeTypeSelective p s xType false
      · exact steps_addRuntimeType p fuel s xType false
  · exact steps_addRuntimeTypeForInterface p fuel s xType _ false
  · exact Steps.rfl p s

/-- The interface-assertion arm of `handleTypeAssert` is a silent step. -/
theorem steps_htaIfaceAssert (p : Program) (asserted : GoType) (s : RTAState) :
    Steps p [] s (htaIfaceAssert p asserted s) := by
  unfold htaIfaceAssert
  split
  · split
    · exact Steps.rfl p s
    · simp only []
      split
      · refine (steps_buildUserTypesIndex p s).trans
          (Steps.foldl _ _ _ (fun st T _ => ?_))
        split
        · exact steps_markInterfaceMethodsReachable p st T _
        · exact Steps.rfl p st
      · exact ((steps_buildUserTypesIndex p s).trans
          (steps_findAllImplementationsInProgram p (buildUserTypesIndex p s) _)).trans
          (Steps.foldl _ _ _ (fun st T _ =>
            steps_markInterfaceMethodsReachable p st T _))
  · exact Steps.rfl p s

/-- `handleTypeAssert` is a silent step. -/
theorem steps_handleTypeAssert (p : Program) (s : RTAState)
    (xType asserted : GoType) :
    Steps p [] s (handleTypeAssert p s xType asserted) := by
  unfold handleTypeAssert
  split
  · split
    · split
      · exact steps_htaIfaceAssert p asserted s
      · exact steps_markInterfaceMethodsReachable p s asserted _
    · exact steps_htaIfaceAssert p asserted s
  · exact steps_htaIfaceAssert p asserted s

/-- `handleChangeInterface` is a silent step. -/
theorem steps_handleChangeInterface (p : Program) (s : RTAState)
    (target : GoType) : Steps p [] s (handleChangeInterface p s target) := by
  unfold handleChangeInterface
  split
  · split
    · exact Steps.rfl p s
    · exact (steps_findAllImplementationsInProgram p s _).trans
        (Steps.foldl _ _ _ (fun st T _ =>
          steps_markInterfaceMethodsReachable p st T _))
  · exact Steps.rfl p s

/-- `checkSetFinalizer` is a silent step, for a call whose argument
function constants are functions of the program. -/
theorem steps_checkSetFinalizer (p : Program) (s : RTAState)
    (call : CallCommon)
    (hc : WF p → ∀ g ∈ call.args.bind valueFuncRefs, g ∈ p.ids) :
    Steps p [] s (checkSetFinalizer p s call) := by
  unfold checkSetFinalizer
  split
  · exact Steps.rfl p s
  · split
    · split
      · exact Steps.rfl p s
      · split
        · exact Steps.rfl p s
        · split
          · exact Steps.rfl p s
          · next arg hget =>
            have hargmem : arg ∈ call.args := List.get?_mem hget
            have hmem : ∀ g ∈ valueFuncRefs arg, g ∈ call.args.bind valueFuncRefs :=
              fun g hg => List.mem_bind.mpr ⟨arg, hargmem, hg⟩
            cases arg with
            | fn f =>
              exact steps_addReachableF p s f true
                (fun hw => Or.inl (hc hw f (hmem f (by simp [valueFuncRefs]))))
            | builtin b => exact Steps.rfl p s
            | makeIface x =>
              cases x with
              | fn f =>
                exact steps_addReachableF p s f true
                  (fun hw => Or.inl (hc hw f (hmem f (by simp [valueFuncRefs]))))
              | builtin b => exact Steps.rfl p s
              | makeIface y => exact Steps.rfl p s
              | makeClosure y =>
                cases y with
                | fn g =>
                  exact steps_addReachableF p s g true
                    (fun hw => Or.inl (hc hw g (hmem g (by simp [valueFuncRefs]))))
                | builtin b => exact Steps.rfl p s
                | makeIface z => exact Steps.rfl p s
                | makeClosure z => exact Steps.rfl p s
                | otherValue n => exact Steps.rfl p s
              | otherValue n => exact Steps.rfl p s
            | makeClosure y =>
              cases y with
              | fn g =>
                exact steps_addReachableF p s g true
                  (fun hw => Or.inl (hc hw g (hmem g (by simp [valueFuncRefs]))))
              | builtin b => exact Steps.rfl p s
              | makeIface z => exact Steps.rfl p s
              | makeClosure z => exact Steps.rfl p s
              | otherValue n => exact Steps.rfl p s
            | otherValue n => exact Steps.rfl p s
    · exact Steps.rfl p s

/-- The operand walk is a silent step, for operands whose function
constants are functions of the program. -/
theorem steps_walkOperands (p : Program) (s : RTAState) (ops : List SSAValue)
    (h : WF p → ∀ g ∈ ops.bind valueFuncRefs, g ∈ p.ids) :
    Steps p [] s (walkOperands p s ops) := by
  unfold walkOperands
  refine Steps.foldl _ _ s (fun st op hop => ?_)
  cases op with
  | fn g =>
    exact steps_visitAddrTakenFunc p st g
      (fun hw => h hw g (List.mem_bind.mpr ⟨.fn g, hop, by simp [valueFuncRefs]⟩))
  | builtin b => exact Steps.rfl p st
  | makeIface x => exact Steps.rfl p st
  | makeClosure y => exact Steps.rfl p st
  | otherValue n => exact Steps.rfl p st

/-- A static callee is a function constant of the call value. -/
theorem staticCallee_ref {c : CallCommon} {g : String}
    (h : staticCallee c = some g) : g ∈ c.value.elim [] valueFuncRefs := by
  unfold staticCallee at h
  by_cases hinv : c.isInvoke
  · rw [if_pos hinv] at h
    cases h
  · rw [if_neg hinv] at h
    cases hv : c.value with
    | none => rw [hv] at h; cases h
    | some v =>
      rw [hv] at h
      cases v with
      | fn g0 =>
        cases h
        simp [hv, valueFuncRefs, Option.elim]
      | builtin b => cases h
      | makeIface x => cases h
      | makeClosure y =>
        cases y with
        | fn g0 =>
          cases h
          simp [hv, valueFuncRefs, Option.elim]
        | builtin b => cases h
        | makeIface z => cases h
        | makeClosure z => cases h
        | otherValue n => cases h
      | otherValue n => cases h

/-- `scanInstr` is a silent step, for an instruction whose function
constants are functions of the program. -/
theorem steps_scanInstr (p : Program) (fuel : Nat) (s : RTAState)
    (instr : Instr) (hi : WF p → ∀ g ∈ instrFuncRefs instr, g ∈ p.ids) :
    Steps p [] s (scanInstr p fuel s instr) := by
  cases instr with
  | call c =>
    have hargs : WF p → ∀ g ∈ c.args.bind valueFuncRefs, g ∈ p.ids :=
      fun hw g hg => hi hw g (by
        simp only [instrFuncRefs, List.mem_append]
        exact Or.inr hg)
    simp only [scanInstr]
    by_cases hinv : c.isInvoke
    · simp only [hinv, if_true]
      exact (steps_visitInvoke p s c).trans (steps_walkOperands p _ c.args hargs)
    · simp only [hinv, Bool.false_eq_true, if_false]
      cases hsc : staticCallee c with
      | some g =>
        simp only [hsc]
        have hg : WF p → g ∈ p.ids ∨ atfMem s g := fun hw =>
          Or.inl (hi hw g (by
            simp only [instrFuncRefs, List.mem_append]
            exact Or.inl (staticCallee_ref hsc)))
        exact ((steps_addEdge p s (some g) false
            (fun hw g' hg' => by cases hg'; exact hg hw)).trans
          (steps_checkSetFinalizer p _ c hargs)).trans
          (steps_walkOperands p _ c.args hargs)
      | none =>
        simp only [hsc]
        cases hv : c.value with
        | none =>
          simp only [hv]
          exact (steps_visitDynCall p s c).trans
            (steps_walkOperands p _ c.args hargs)
        | some v =>
          cases v with
          | builtin b =>
            simp only [hv]
            exact steps_walkOperands p s c.args hargs
          | fn f =>
            simp only [hv]
            exact (steps_visitDynCall p s c).trans
              (steps_walkOperands p _ c.args hargs)
          | makeIface x =>
            simp only [hv]
            exact (steps_visitDynCall p s c).trans
              (steps_walkOperands p _ c.args hargs)
          | makeClosure y =>
            simp only [hv]
            exact (steps_visitDynCall p s c).trans
              (steps_walkOperands p _ c.args hargs)
          | otherValue n =>
            simp only [hv]
            exact (steps_visitDynCall p s c).trans
              (steps_walkOperands p _ c.args hargs)
  | makeInterface target xType x =>
    simp only [scanInstr]
    exact (steps_handleMakeInterface p fuel s target xType).trans
      (steps_walkOperands p _ [x] (fun hw g hg => hi hw g (by
        simpa [instrFuncRefs] using hg)))
  | typeAssert xType asserted x =>
    simp only [scanInstr]
    exact (steps_handleTypeAssert p s xType asserted).trans
      (steps_walkOperands p _ [x] (fun hw g hg => hi hw g (by
        simpa [instrFuncRefs] using hg)))
  | changeInterface target x =>
    simp only [scanInstr]
    exact (steps_handleChangeInterface p s target).trans
      (steps_walkOperands p _ [x] (fun hw g hg => hi hw g (by
        simpa [instrFuncRefs] using hg)))
  | otherInstr ops =>
    simp only [scanInstr]
    exact steps_walkOperands p s ops (fun hw g hg => hi hw g (by
      simpa [instrFuncRefs] using hg))

/-- `visitFunc` is a visiting step: it appends exactly `f` to the scan
history. -/
theorem steps_visitFunc (p : Program) (fuel : Nat) (s : RTAState)
    (f : String) : Steps p [f] s (visitFunc p fuel s f) := by
  unfold visitFunc
  simp only []
  have h1 : Steps p [f] s
      { s with currentFunction := some f, scanned := s.scanned ++ [f] } :=
    { wl := ⟨[], by simp, by simp, List.nodup_nil, by simp, by simp⟩
      scan := by simp
      reach := fun _ h => h
      flag := fun _ h => h
      objs := fun _ h => h
      rt := fun _ b h => ⟨b, h, fun hb => hb⟩
      prov := fun _ _ h => Or.inl h
      atfprov := fun _ _ h => Or.inl h }
  have h2 : ∀ st, Steps p [] st ((p.blocksOf f).foldl (fun st block =>
      block.foldl (fun st2 instr => scanInstr p fuel st2 instr) st) st) := by
    intro st
    refine Steps.foldl _ _ st (fun st1 block hblock => ?_)
    refine Steps.foldl _ _ st1 (fun st2 instr hinstr => ?_)
    refine steps_scanInstr p fuel st2 instr (fun hw g hg => ?_)
    cases hf : p.getFunc f with
    | none => simp [Program.blocksOf, hf] at hblock
    | some fd =>
      have hb : block ∈ fd.blocks := by
        simpa [Program.blocksOf, hf] using hblock
      exact hw.instr_ids f fd hf block hb instr hinstr g hg
  have h3 := h2 { s with currentFunction := some f, scanned := s.scanned ++ [f] }
  have h4 : Steps p []
      ((p.blocksOf f).foldl (fun st block =>
        block.foldl (fun st2 instr => scanInstr p fuel st2 instr) st)
        { s with currentFunction := some f, scanned := s.scanned ++ [f] })
      { ((p.blocksOf f).foldl (fun st block =>
        block.foldl (fun st2 instr => scanInstr p fuel st2 instr) st)
        { s with currentFunction := some f, scanned := s.scanned ++ [f] })
        with currentFunction := none } :=
    Steps.untouched rfl rfl rfl rfl rfl rfl rfl
  simpa using (h1.trans (h3.trans h4))

/-- Fold a list of visiting steps: the scan history records the list. -/
theorem Steps.foldl_scan {p : Program} (g : RTAState → String → RTAState)
    (l : List String) (s : RTAState)
    (h : ∀ st f, f ∈ l → Steps p [f] st (g st f)) :
    Steps p l s (l.foldl g s) := by
  induction l generalizing s with
  | nil => exact Steps.rfl p s
  | cons f t ih =>
    rw [List.foldl_cons]
    have := Steps.trans (h s f (List.mem_cons_self f t))
      (ih (g s f) (fun st y hy => h st y (List.mem_cons_of_mem f hy)))
    simpa using this

/-- A step preserves the loop invariant. -/
theorem good_step {p : Program} {σ : List String} {s s' : RTAState}
    (hw : WF p) (hst : Steps p σ s s') (hg : Good p s) : Good p s' := by
  obtain ⟨δ, hwl, henq, hnd, hfresh, hin⟩ := hst.wl
  refine ⟨?_, ?_, ?_, ?_⟩
  · rw [henq]
    refine hg.nodup.append hnd (fun f hf1 hf2 => ?_)
    have := hg.enq_reach f hf1
    rw [hfresh f hf2] at this
    cases this
  · intro f hf
    rw [henq] at hf
    rcases List.mem_append.mp hf with hm | hm
    · exact hst.reach f (hg.enq_reach f hm)
    · exact hin f hm
  · intro f hf
    rcases hst.prov hw f hf with hs | hid | hatf
    · exact hg.reach_ids f hs
    · exact hid
    · exact hg.atf_ids f hatf
  · intro g hgm
    rcases hst.atfprov hw g hgm with hm | hid
    · exact hg.atf_ids g hm
    · exact hid

/-- Clearing the worklist preserves the loop invariant. -/
theorem good_clear {p : Program} {s : RTAState} (hg : Good p s) :
    Good p { s with worklist := [] } :=
  ⟨hg.nodup, hg.enq_reach, hg.reach_ids, hg.atf_ids⟩

/-- The enqueue history never outgrows the program. -/
theorem enqueued_length_le {p : Program} {s : RTAState} (hg : Good p s) :
    s.enqueued.length ≤ p.ids.length := by
  have hsub : s.enqueued ⊆ p.ids := fun f hf =>
    hg.reach_ids f (hg.enq_reach f hf)
  exact (List.subperm_of_subset hg.nodup hsub).length_le

/-- A silent step keeps the enqueue history split as scanned followed
by the pending worklist. -/
theorem sync_step {p : Program} {s s' : RTAState} (hst : Steps p [] s s')
    (hs : s.enqueued = s.scanned ++ s.worklist) :
    s'.enqueued = s'.scanned ++ s'.worklist := by
  obtain ⟨δ, hwl, henq, _, _, _⟩ := hst.wl
  have hscan := hst.scan
  rw [henq, hwl, hscan, hs]
  simp

/-- Draining the worklist is a compound step from the cleared state:
the scan history grows by exactly the drained batch. -/
theorem steps_drainWorklist (p : Program) (fuel : Nat) (s : RTAState) :
    Steps p s.worklist { s with worklist := [] } (drainWorklist p fuel s) := by
  unfold drainWorklist
  exact Steps.foldl_scan _ s.worklist { s with worklist := [] }
    (fun st f _ => steps_visitFunc p fuel st f)

/-- One drain preserves the invariants, extends the scan history by the
old worklist, and restores the enqueued/scanned/worklist split. -/
theorem drain_facts {p : Program} (fuel : Nat) {s : RTAState} (hw : WF p)
    (hg : Good p s) (hs : s.enqueued = s.scanned ++ s.worklist) :
    Good p (drainWorklist p fuel s) ∧
    (drainWorklist p fuel s).scanned = s.scanned ++ s.worklist ∧
    (drainWorklist p fuel s).enqueued =
      (drainWorklist p fuel s).scanned ++ (drainWorklist p fuel s).worklist := by
  have hst := steps_drainWorklist p fuel s
  refine ⟨good_step hw hst (good_clear hg), hst.scan, ?_⟩
  obtain ⟨δ, hwl, henq, _, _, _⟩ := hst.wl
  rw [henq, hwl, hst.scan]
  simp only []
  rw [hs]
  simp

/-- The loop terminates within any fuel exceeding the number of
never-scanned program functions. -/
theorem analyzeLoop_total (p : Program) (fuel : Nat) (hw : WF p) :
    ∀ n s, Good p s → s.enqueued = s.scanned ++ s.worklist →
      p.ids.length - s.scanned.length < n →
      ∃ s', analyzeLoop p fuel n s = some s' := by
  intro n
  induction n with
  | zero => intro s _ _ hlt; omega
  | succ n ih =>
    intro s hg hs hlt
    by_cases hwl : s.worklist.isEmpty
    · exact ⟨s, by simp [analyzeLoop, hwl]⟩
    · obtain ⟨hg', hscan, hsync⟩ := drain_facts fuel hw hg hs
      have hwlen : 1 ≤ s.worklist.length := by
        cases hempty : s.worklist with
        | nil => rw [hempty] at hwl; simp at hwl
        | cons a t => simp [hempty]
      have hlen1 : (drainWorklist p fuel s).scanned.length =
          s.scanned.length + s.worklist.length := by rw [hscan]; simp
      have hlen2 : (drainWorklist p fuel s).scanned.length ≤
          (drainWorklist p fuel s).enqueued.length := by
        rw [hsync]; simp
      have hlen3 := enqueued_length_le hg'
      obtain ⟨s', h'⟩ := ih (drainWorklist p fuel s) hg' hsync (by omega)
      refine ⟨s', ?_⟩
      rw [analyzeLoop]
      rw [if_neg (by simpa using hwl)]
      exact h'

/-- A successful loop run ends with an empty worklist and preserves the
invariants and the enqueued/scanned split. -/
theorem analyzeLoop_inv (p : Program) (fuel : Nat) (hw : WF p) :
    ∀ n s s', analyzeLoop p fuel n s = some s' → Good p s →
      s.enqueued = s.scanned ++ s.worklist →
      Good p s' ∧ s'.worklist = [] ∧ s'.scanned = s'.enqueued := by
  intro n
  induction n with
  | zero =>
    intro s s' h hg hs
    rw [analyzeLoop] at h
    by_cases hwl : s.worklist.isEmpty
    · rw [if_pos hwl] at h
      cases h
      have hnil : s.worklist = [] := by simpa [List.isEmpty_iff] using hwl
      exact ⟨hg, hnil, by rw [hs, hnil]; simp⟩
    · rw [if_neg hwl] at h
      cases h
  | succ n ih =>
    intro s s' h hg hs
    rw [analyzeLoop] at h
    by_cases hwl : s.worklist.isEmpty
    · rw [if_pos hwl] at h
      cases h
      have hnil : s.worklist = [] := by simpa [List.isEmpty_iff] using hwl
      exact ⟨hg, hnil, by rw [hs, hnil]; simp⟩
    · rw [if_neg hwl] at h
      obtain ⟨hg', _, hsync⟩ := drain_facts fuel hw hg hs
      exact ih (drainWorklist p fuel s) s' h hg' hsync

/-- The loop invariant holds of the empty initial state. -/
theorem good_initialState (p : Program) : Good p initialState := by
  refine ⟨?_, ?_, ?_, ?_⟩
  · simp [initialState]
  · intro f hf
    simp [initialState] at hf
  · intro f hf
    simp [initialState, alookup] at hf
  · intro g hgm
    obtain ⟨sig, l, hl, _⟩ := hgm
    simp [initialState, alookup] at hl

/-- Marking the roots preserves the invariants and leaves the scan
history empty. -/
theorem roots_fold_facts (p : Program) (hw : WF p)
    (roots : List (Option String))
    (hroots : ∀ r ∈ roots, ∀ g, r = some g → g ∈ p.ids) :
    ∀ s, Good p s → s.enqueued = s.scanned ++ s.worklist →
      Good p (roots.foldl (fun st root => addReachable p st root false) s) ∧
      (roots.foldl (fun st root => addReachable p st root false) s).enqueued =
        (roots.foldl (fun st root => addReachable p st root false) s).scanned ++
        (roots.foldl (fun st root => addReachable p st root false) s).worklist ∧
      (roots.foldl (fun st root => addReachable p st root false) s).scanned =
        s.scanned := by
  induction roots with
  | nil => exact fun s hg hs => ⟨hg, hs, rfl⟩
  | cons r rest ih =>
    intro s hg hs
    simp only [List.foldl_cons]
    have hstep : Steps p [] s (addReachable p s r false) :=
      steps_addReachable p s r false
        (fun _ g hg' => Or.inl (hroots r (List.mem_cons_self r rest) g hg'))
    have hg1 := good_step hw hstep hg
    have hs1 := sync_step hstep hs
    have hscan1 : (addReachable p s r false).scanned = s.scanned := by
      simpa using hstep.scan
    obtain ⟨hg2, hs2, hscan2⟩ := ih
      (fun r' hr' => hroots r' (List.mem_cons_of_mem r hr'))
      (addReachable p s r false) hg1 hs1
    exact ⟨hg2, hs2, by rw [hscan2, hscan1]⟩

/-- A successful lookup pins a member of the association list. -/
theorem alookup_mem {α β : Type} [DecidableEq α] (l : List (α × β)) (k : α)
    (v : β) (h : alookup l k = some v) : (k, v) ∈ l := by
  induction l with
  | nil => cases h
  | cons hd t ih =>
    by_cases hk : k = hd.1
    · rw [alookup, if_pos hk] at h
      cases h
      subst hk
      exact List.mem_cons_self _ _
    · rw [alookup, if_neg hk] at h
      exact List.mem_cons_of_mem _ (ih h)

/-- `addReachableF` never drops a reachable entry and never lowers a
true address-taken flag. -/
theorem addReachableF_reach_mono (p : Program) (s : RTAState) (f : String)
    (b : Bool) (g : String) :
    ((alookup s.reachable g).isSome = true →
      (alookup (addReachableF p s f b).reachable g).isSome = true) ∧
    (alookup s.reachable g = some true →
      alookup (addReachableF p s f b).reachable g = some true) := by
  cases hl : alookup s.reachable f with
  | some w =>
    rw [addReachableF_seen p s f b w hl]
    by_cases hgf : g = f
    · subst hgf
      constructor
      · intro _
        simp [alookup_aset_self]
      · intro hgt
        rw [hl] at hgt
        cases hgt
        simp [alookup_aset_self]
    · simp only []
      rw [alookup_aset_ne _ _ _ _ hgf]
      exact ⟨fun h => h, fun h => h⟩
  | none =>
    rw [addReachableF_new p s f b hl]
    rcases mgtr_eq_or p
        { s with reachable := aset s.reachable f b,
                 worklist := s.worklist ++ [f],
                 enqueued := s.enqueued ++ [f] } f with
      heq | ⟨tmpl, fd, _, _, _, hfresh, heq⟩ <;> rw [heq] <;> simp only []
    · by_cases hgf : g = f
      · subst hgf
        constructor
        · intro _
          simp [alookup_aset_self]
        · intro hgt
          rw [hl] at hgt
          cases hgt
      · rw [alookup_aset_ne _ _ _ _ hgf]
        exact ⟨fun h => h, fun h => h⟩
    · by_cases hgt : g = tmpl
      · subst hgt
        by_cases hgf : g = f
        · subst hgf
          rw [alookup_aset_self] at hfresh
          cases hfresh
        · rw [alookup_aset_ne _ _ _ _ hgf] at hfresh
          constructor
          · intro his
            rw [hfresh] at his
            cases his
          · intro hgt'
            rw [hfresh] at hgt'
            cases hgt'
      · rw [alookup_aset_ne _ _ _ _ hgt]
        by_cases hgf : g = f
        · subst hgf
          constructor
          · intro _
            simp [alookup_aset_self]
          · intro hgt'
            rw [hl] at hgt'
            cases hgt'
        · rw [alookup_aset_ne _ _ _ _ hgf]
          exact ⟨fun h => h, fun h => h⟩

/-- **C10.** The result sets grow monotonically: a full worklist drain
(which performs every engine operation transitively) never removes a
function from `Reachable` or an object from `ReachableObjects` and never
resets a true `AddrTaken` flag, and the same holds of the primitive
marking operations `addReachable` and `addReachableObject` themselves. -/
theorem C10_result_sets_monotone (p : Program) (fuel : Nat) (s : RTAState)
    (callee : Option String) (b : Bool) (obj : String) :
    (∀ f, (alookup s.reachable f).isSome = true →
      (alookup (drainWorklist p fuel s).reachable f).isSome = true) ∧
    (∀ f, alookup s.reachable f = some true →
      alookup (drainWorklist p fuel s).reachable f = some true) ∧
    (∀ o, o ∈ s.reachableObjects →
      o ∈ (drainWorklist p fuel s).reachableObjects) ∧
    (∀ f, (alookup s.reachable f).isSome = true →
      (alookup (addReachable p s callee b).reachable f).isSome = true) ∧
    (∀ f, alookup s.reachable f = some true →
      alookup (addReachable p s callee b).reachable f = some true) ∧
    (∀ o, o ∈ s.reachableObjects →
      o ∈ (addReachableObject s obj).reachableObjects) := by
  have hst := steps_drainWorklist p fuel s
  refine ⟨fun f hf => hst.reach f hf, fun f hf => hst.flag f hf,
    fun o ho => hst.objs o ho, ?_, ?_, ?_⟩
  · intro f hf
    cases callee with
    | none => exact hf
    | some c => exact (addReachableF_reach_mono p s c b f).1 hf
  · intro f hf
    cases callee with
    | none => exact hf
    | some c => exact (addReachableF_reach_mono p s c b f).2 hf
  · intro o ho
    unfold addReachableObject
    simp only []
    split
    · exact ho
    · exact List.mem_append_left _ ho

/-- Witness program for C9: a single root function with no body. -/
def progC9 : Program :=
  { funcs := [
      ("main", { str := "m.main", obj := none, origin := none,
                 blocks := [], sigId := "s", pkgPath := some "example.com/m" })],
    packages := [], methodSet := fun _ => [], reflectValueCall := none }

/-- The C9 witness program is well-formed. -/
theorem wf_progC9 : WF progC9 := by
  refine ⟨?_, ?_, ?_, ?_⟩
  · intro f fd hget t ht
    have hm := alookup_mem _ _ _ hget
    simp only [progC9, List.mem_singleton, Prod.mk.injEq] at hm
    rw [hm.2] at ht
    cases ht
  · intro T m hm
    simp [progC9] at hm
  · intro f fd hget block hblock
    have hm := alookup_mem _ _ _ hget
    simp only [progC9, List.mem_singleton, Prod.mk.injEq] at hm
    rw [hm.2] at hblock
    simp at hblock
  · intro g hg
    simp [progC9] at hg

/-- **C9 (counterexample).** A non-empty root list headed by a nil root
makes `Analyze` fault (the source dereferences `roots[0].Prog` after
checking only that the slice is non-empty), contradicting the claim
that no fatal error beyond the empty-root fast-exit exists even when
elements of a non-empty root list are nil. -/
theorem C9_counterexample :
    Analyze progC9 [none, some "main"] 1 = .error .nilRootDeref ∧
    ([none, some "main"] : List (Option String)) ≠ [] :=
  ⟨rfl, by simp⟩

/-- **C9 (amended).** For a well-formed program and roots drawn from its
functions, `Analyze` returns a nil result exactly on an empty root
list, and runs to completion with a full result whenever the first
root is non-nil; the only fault is the nil dereference on a nil first
root. -/
theorem C9_analyze_total (p : Program) (fuel : Nat)
    (roots : List (Option String)) (hw : WF p)
    (hroots : ∀ r ∈ roots, ∀ g, r = some g → g ∈ p.ids) :
    (Analyze p roots fuel = .ok none ↔ roots = []) ∧
    (∀ r rest, roots = some r :: rest →
      ∃ s', Analyze p roots fuel = .ok (some s')) := by
  have hmain : ∀ r rest, roots = some r :: rest →
      ∃ s', Analyze p roots fuel = .ok (some s') := by
    intro r rest hr
    subst hr
    have hg0 := good_initialState p
    have hs0 : initialState.enqueued =
        initialState.scanned ++ initialState.worklist := by
      simp [initialState]
    obtain ⟨hg1, hs1, hscan1⟩ :=
      roots_fold_facts p hw (some r :: rest) hroots initialState hg0 hs0
    have hids : p.ids.length = p.funcs.length := by
      simp [Program.ids]
    have hlt : p.ids.length -
        ((some r :: rest).foldl (fun st root => addReachable p st root false)
          initialState).scanned.length < p.funcs.length + 1 := by
      rw [hscan1]
      have hsc : initialState.scanned = [] := rfl
      rw [hsc]
      simp
      omega
    obtain ⟨s', hsome⟩ := analyzeLoop_total p fuel hw (p.funcs.length + 1) _
      hg1 hs1 hlt
    refine ⟨s', ?_⟩
    simp only [Analyze]
    rw [hsome]
  constructor
  · constructor
    · intro h
      cases roots with
      | nil => rfl
      | cons r0 rest =>
        cases r0 with
        | none => simp [Analyze] at h
        | some r =>
          obtain ⟨s', hs'⟩ := hmain r rest rfl
          rw [hs'] at h
          cases h
    · intro h
      subst h
      rfl
  · exact hmain

/-- Witness for C9: on the concrete one-function program, `Analyze`
completes with a full result and returns nil only on an empty root
list. -/
theorem C9_witness :
    (Analyze progC9 [some "main"] 3 = .ok none ↔
      ([some "main"] : List (Option String)) = []) ∧
    (∀ r rest, ([some "main"] : List (Option String)) = some r :: rest →
      ∃ s', Analyze progC9 [some "main"] 3 = .ok (some s')) :=
  C9_analyze_total progC9 3 [some "main"] wf_progC9
    (by
      intro r hr g hg
      simp only [List.mem_singleton] at hr
      subst hr
      injection hg with h
      subst h
      decide)

/-- Witness program for C4: a root calling a generic instantiation
whose origin template is a distinct function. -/
def callC4 : CallCommon :=
  { isInvoke := false, value := some (.fn "addInt"), args := [], sigId := "g",
    methodPkg := none, methodName := "", ifaceT := .iface [] }

def progC4 : Program :=
  { funcs := [
      ("main", { str := "m.main", obj := none, origin := none,
                 blocks := [[.call callC4]],
                 sigId := "s0", pkgPath := some "example.com/m" }),
      ("addInt", { str := "m.add[int]", obj := none, origin := some "add",
                   blocks := [], sigId := "g", pkgPath := some "example.com/m" }),
      ("add", { str := "m.add[T]", obj := none, origin := none,
                blocks := [], sigId := "g", pkgPath := some "example.com/m" })],
    packages := [], methodSet := fun _ => [], reflectValueCall := none }

/-- The C4 witness program is well-formed. -/
theorem wf_progC4 : WF progC4 := by
  refine ⟨?_, ?_, ?_, ?_⟩
  · intro f fd hget t ht
    have hm := alookup_mem _ _ _ hget
    simp only [progC4, List.mem_cons, List.not_mem_nil, or_false,
      Prod.mk.injEq] at hm
    rcases hm with ⟨h1, h2⟩ | ⟨h1, h2⟩ | ⟨h1, h2⟩ <;> rw [h2] at ht <;>
      simp only [] at ht
    · cases ht
    · cases ht
      decide
    · cases ht
  · intro T m hm
    simp [progC4] at hm
  · intro f fd hget block hblock
    have hm := alookup_mem _ _ _ hget
    simp only [progC4, List.mem_cons, List.not_mem_nil, or_false,
      Prod.mk.injEq] at hm
    rcases hm with ⟨h1, h2⟩ | ⟨h1, h2⟩ | ⟨h1, h2⟩ <;> rw [h2] at hblock <;>
      simp only [List.mem_singleton] at hblock
    · subst hblock
      decide
    · simp at hblock
    · simp at hblock
  · intro g hg
    simp [progC4] at hg

/-- **C4 (counterexample).** On the concrete program, the generic
template `add` enters `Reachable` yet is never enqueued and never
scanned: a function can become reachable without ever being pushed on
the worklist, so "enqueued exactly when it first enters
reachable_functions" and "each reachable function is scanned exactly
once" fail. -/
theorem C4_counterexample :
    (Analyze progC4 [some "main"] 3).map (fun r => r.map (fun s' =>
      ((alookup s'.reachable "add").isSome, s'.enqueued.count "add",
        s'.scanned.count "add"))) = .ok (some (true, 0, 0)) := rfl

/-- **C4 (amended).** In a completed analysis the enqueue history is
duplicate-free and coincides with the scan history — every function
that is ever enqueued is enqueued once and scanned exactly once — and
marking an already-reachable function only ORs its address-taken flag
without enqueueing; but a function may enter `Reachable` without ever
being enqueued (a generic origin template). -/
theorem C4_enqueue_unique (p : Program) (fuel : Nat)
    (roots : List (Option String)) (s' : RTAState) (hw : WF p)
    (hroots : ∀ r ∈ roots, ∀ g, r = some g → g ∈ p.ids)
    (h : Analyze p roots fuel = .ok (some s')) :
    s'.enqueued.Nodup ∧ s'.scanned = s'.enqueued ∧
    (∀ f ∈ s'.enqueued, s'.scanned.count f = 1) ∧
    (∀ s0 f b w, alookup s0.reachable f = some w →
      (addReachableF p s0 f b).worklist = s0.worklist ∧
      (addReachableF p s0 f b).enqueued = s0.enqueued ∧
      alookup (addReachableF p s0 f b).reachable f = some (b || w)) := by
  have hseen : ∀ s0 f b w, alookup s0.reachable f = some w →
      (addReachableF p s0 f b).worklist = s0.worklist ∧
      (addReachableF p s0 f b).enqueued = s0.enqueued ∧
      alookup (addReachableF p s0 f b).reachable f = some (b || w) := by
    intro s0 f b w hv
    rw [addReachableF_seen p s0 f b w hv]
    exact ⟨rfl, rfl, alookup_aset_self _ _ _⟩
  cases roots with
  | nil =>
    rw [Analyze] at h
    cases h
  | cons r0 rest =>
    cases r0 with
    | none =>
      rw [Analyze] at h
      cases h
    | some r =>
      have hg0 := good_initialState p
      have hs0 : initialState.enqueued =
          initialState.scanned ++ initialState.worklist := by
        simp [initialState]
      obtain ⟨hg1, hs1, _⟩ := roots_fold_facts p hw (some r :: rest)
        hroots initialState hg0 hs0
      simp only [Analyze] at h
      cases hl : analyzeLoop p fuel (p.funcs.length + 1)
          ((some r :: rest).foldl (fun st root => addReachable p st root false)
            initialState) with
      | none => rw [hl] at h; cases h
      | some s1 =>
        rw [hl] at h
        have hs' : s1 = s' := by simpa using h
        subst hs'
        obtain ⟨hg', hwl, hse⟩ :=
          analyzeLoop_inv p fuel hw (p.funcs.length + 1) _ s1 hl hg1 hs1
        refine ⟨hg'.nodup, hse, ?_, hseen⟩
        intro f hf
        rw [hse]
        have hle := List.nodup_iff_count_le_one.mp hg'.nodup f
        have hpos : 0 < s1.enqueued.count f := List.count_pos_iff_mem.mpr hf
        omega

/-- The completed run of the C4 witness program. -/
def c4res : RTAState :=
  match Analyze progC4 [some "main"] 3 with
  | .ok (some s) => s
  | _ => initialState

/-- Witness for C4 on the concrete program. -/
theorem C4_witness :
    Analyze progC4 [some "main"] 3 = .ok (some c4res) ∧
    (c4res.enqueued.Nodup ∧ c4res.scanned = c4res.enqueued ∧
    (∀ f ∈ c4res.enqueued, c4res.scanned.count f = 1) ∧
    (∀ s0 f b w, alookup s0.reachable f = some w →
      (addReachableF progC4 s0 f b).worklist = s0.worklist ∧
      (addReachableF progC4 s0 f b).enqueued = s0.enqueued ∧
      alookup (addReachableF progC4 s0 f b).reachable f = some (b || w))) :=
  ⟨rfl, C4_enqueue_unique progC4 3 [some "main"] c4res wf_progC4
    (by
      intro r hr g hg
      simp only [List.mem_singleton] at hr
      subst hr
      injection hg with h
      subst h
      decide)
    rfl⟩

/-- The structurally-reachable children of a type: the cases of the
`addRuntimeTypeStructure` switch (no signature, interface, basic or
type-parameter case). -/
def structuralChildren : GoType → List GoType
  | .alias t => [unalias t]
  | .pointer e => [e]
  | .slice e => [e]
  | .chanT e => [e]
  | .mapT k v => [k, v]
  | .named nm u msigs => [.pointer (.named nm u msigs), u]
  | .array e => [e]
  | .structT fields => fields
  | .tuple comps => comps
  | _ => []

/-- Once recorded as skip-free, a runtime type stays recorded (and a
true skip flag persists) across any step. -/
theorem steps_rt_true {p : Program} {σ : List String} {s s' : RTAState}
    (hst : Steps p σ s s') {T : GoType}
    (h : alookup s.runtimeTypes T = some true) :
    alookup s'.runtimeTypes T = some true := by
  obtain ⟨b', hb', hi⟩ := hst.rt T true h
  rw [hi rfl] at hb'
  exact hb'

/-- `addRuntimeType` with positive fuel records its argument, with a
true skip request never downgraded. -/
theorem addRuntimeType_self (p : Program) (k : Nat) (s : RTAState)
    (T : GoType) (skip : Bool) :
    ∃ b, alookup (addRuntimeType p (k+1) s T skip).runtimeTypes T = some b ∧
      (skip = true → b = true) := by
  rw [addRuntimeType]
  cases hprev : alookup s.runtimeTypes T with
  | some prev =>
    simp only [hprev]
    split
    · exact ⟨skip, alookup_aset_self _ _ _, fun h => h⟩
    · next hcond =>
      refine ⟨prev, hprev, fun hsk => ?_⟩
      subst hsk
      simpa using hcond
  | none =>
    simp only [hprev]
    have hst : Steps p []
        { s with runtimeTypes := aset s.runtimeTypes T skip }
        (artMarkAndWalk p k
          (addRuntimeTypeStructure p k
            (addTypeToIndex p
              { s with runtimeTypes := aset s.runtimeTypes T skip } T) T)
          T skip) :=
      (steps_addTypeToIndex p _ T).trans
        ((steps_addRuntimeTypeStructure_of p k
            (fun s1 T1 sk1 => steps_addRuntimeType p k s1 T1 sk1) _ T).trans
          (steps_artMarkAndWalk_of p k
            (fun s1 T1 sk1 => steps_addRuntimeType p k s1 T1 sk1) _ T skip))
    obtain ⟨b, hb, hi⟩ := hst.rt T skip (alookup_aset_self _ _ _)
    exact ⟨b, hb, fun hsk => hi (by rw [hsk])⟩

/-- `addRuntimeType` with positive fuel and a true skip flag records
its argument with `skip=true`. -/
theorem addRuntimeType_self_true (p : Program) (k : Nat) (s : RTAState)
    (T : GoType) :
    alookup (addRuntimeType p (k+1) s T true).runtimeTypes T = some true := by
  obtain ⟨b, hb, hi⟩ := addRuntimeType_self p k s T true
  rw [hi rfl] at hb
  exact hb

/-- Folding `addRuntimeType` with `skip=true` over a list records every
element with `skip=true`. -/
theorem foldl_addRuntimeType_marks (p : Program) (k : Nat) :
    ∀ (l : List GoType) (s : RTAState) (c : GoType), c ∈ l →
      alookup ((l.foldl (fun st x => addRuntimeType p (k+1) st x true) s)).runtimeTypes
        c = some true := by
  intro l
  induction l with
  | nil => intro s c hc; cases hc
  | cons x t ih =>
    intro s c hc
    rw [List.foldl_cons]
    rcases List.mem_cons.mp hc with hcx | hct
    · subst hcx
      have hpers : Steps p [] (addRuntimeType p (k+1) s c true)
          (t.foldl (fun st x => addRuntimeType p (k+1) st x true)
            (addRuntimeType p (k+1) s c true)) :=
        Steps.foldl _ _ _ (fun st y _ => steps_addRuntimeType p (k+1) st y true)
      exact steps_rt_true hpers (addRuntimeType_self_true p k s c)
    · exact ih _ c hct

/-- The structure walk records every structural child with
`skip=true`. -/
theorem addRuntimeTypeStructure_marks (p : Program) (k : Nat) (s : RTAState)
    (T : GoType) :
    ∀ c ∈ structuralChildren T,
      alookup (addRuntimeTypeStructure p (k+1) s T).runtimeTypes c =
        some true := by
  intro c hc
  unfold addRuntimeTypeStructure
  cases T
  case basic nm => cases hc
  case sig ps rs => cases hc
  case iface ms => cases hc
  case typeparam nm => cases hc
  case «alias» t =>
    simp only [structuralChildren, List.mem_singleton] at hc
    subst hc
    exact addRuntimeType_self_true p k s _
  case pointer e =>
    simp only [structuralChildren, List.mem_singleton] at hc
    subst hc
    exact addRuntimeType_self_true p k s _
  case slice e =>
    simp only [structuralChildren, List.mem_singleton] at hc
    subst hc
    exact addRuntimeType_self_true p k s _
  case chanT e =>
    simp only [structuralChildren, List.mem_singleton] at hc
    subst hc
    exact addRuntimeType_self_true p k s _
  case array e =>
    simp only [structuralChildren, List.mem_singleton] at hc
    subst hc
    exact addRuntimeType_self_true p k s _
  case mapT a b =>
    simp only [structuralChildren, List.mem_cons, List.mem_singleton,
      List.not_mem_nil, or_false] at hc
    rcases hc with hca | hcb
    · subst hca
      exact steps_rt_true (steps_addRuntimeType p (k+1) _ b true)
        (addRuntimeType_self_true p k s c)
    · subst hcb
      exact addRuntimeType_self_true p k _ c
  case named nm u msigs =>
    simp only [structuralChildren, List.mem_cons, List.mem_singleton,
      List.not_mem_nil, or_false] at hc
    rcases hc with hca | hcb
    · subst hca
      exact steps_rt_true (steps_addRuntimeType p (k+1) _ u true)
        (addRuntimeType_self_true p k s _)
    · subst hcb
      exact addRuntimeType_self_true p k _ _
  case structT fields =>
    exact foldl_addRuntimeType_marks p k fields s c hc
  case tuple comps =>
    exact foldl_addRuntimeType_marks p k comps s c hc

/-- Folding state transformers that preserve the runtime-type table
preserves it. -/
theorem foldl_rt_eq {α : Type} (g : RTAState → α → RTAState) (l : List α)
    (h : ∀ st x, x ∈ l → (g st x).runtimeTypes = st.runtimeTypes) :
    ∀ s : RTAState, (l.foldl g s).runtimeTypes = s.runtimeTypes := by
  induction l with
  | nil => intro s; rfl
  | cons x t ih =>
    intro s
    rw [List.foldl_cons,
      ih (fun st y hy => h st y (List.mem_cons_of_mem x hy)) (g s x),
      h s x (List.mem_cons_self x t)]

/-- `addReachableF` does not touch the runtime-type table. -/
theorem rt_addReachableF (p : Program) (s : RTAState) (f : String) (b : Bool) :
    (addReachableF p s f b).runtimeTypes = s.runtimeTypes := by
  cases hl : alookup s.reachable f with
  | some w => rw [addReachableF_seen p s f b w hl]
  | none =>
    rw [addReachableF_new p s f b hl]
    rcases mgtr_eq_or p
        { s with reachable := aset s.reachable f b,
                 worklist := s.worklist ++ [f],
                 enqueued := s.enqueued ++ [f] } f with
      heq | ⟨tmpl, fd, _, _, _, _, heq⟩ <;> rw [heq]

/-- `addEdge` does not touch the runtime-type table. -/
theorem rt_addEdge (p : Program) (s : RTAState) (callee : Option String)
    (b : Bool) : (addEdge p s callee b).runtimeTypes = s.runtimeTypes := by
  cases callee with
  | none => rfl
  | some g => exact rt_addReachableF p s g b

/-- `markSelection` does not touch the runtime-type table. -/
theorem rt_markSelection (p : Program) (s : RTAState) (m : Method) :
    (markSelection p s m).runtimeTypes = s.runtimeTypes := by
  unfold markSelection
  cases m.fn with
  | none => rfl
  | some f => exact rt_addReachableF p s f true

/-- `getConcreteTypeInfo` does not touch the runtime-type table. -/
theorem rt_getConcreteTypeInfo (p : Program) (s : RTAState) (C : GoType) :
    ((getConcreteTypeInfo p s C).1).runtimeTypes = s.runtimeTypes := by
  unfold getConcreteTypeInfo
  cases h : alookup s.cmap (unalias C) with
  | some i => simp [h]
  | none =>
    simp [h]
    split <;> rfl

/-- `interfaces` does not touch the runtime-type table. -/
theorem rt_interfaces (p : Program) (s : RTAState) (C : GoType) :
    ((interfaces p s C).1).runtimeTypes = s.runtimeTypes := by
  unfold interfaces
  rcases h : getConcreteTypeInfo p s C with ⟨s1, ci⟩
  have h1 : s1.runtimeTypes = s.runtimeTypes := by
    have := rt_getConcreteTypeInfo p s C
    rwa [h] at this
  simp only []
  split
  · rw [foldl_rt_eq _ _ (fun st pr _ => by
      split
      · rfl
      · rfl) s1]
    exact h1
  · exact h1

/-- `addInvokeEdge` does not touch the runtime-type table. -/
theorem rt_addInvokeEdge (p : Program) (s : RTAState) (site : CallCommon)
    (C0 : GoType) :
    (addInvokeEdge p s site C0).runtimeTypes = s.runtimeTypes := by
  simp only [addInvokeEdge]
  cases h1 : msetLookup (p.methodSet (unalias C0)) site.methodPkg
      site.methodName with
  | some sel =>
    simp only [h1]
    exact rt_addEdge p s _ true
  | none =>
    simp only [h1]
    by_cases hp : isPointerType (unalias C0)
    · simp [hp]
    · simp only [hp, Bool.false_eq_true, if_false]
      cases h2 : msetLookup (p.methodSet (.pointer (unalias C0)))
          site.methodPkg site.methodName with
      | some sel =>
        simp only [h2]
        exact rt_addEdge p s _ true
      | none => simp [h2]

/-- The invoke-edge cross-product does not touch the runtime-type
table. -/
theorem rt_artInvokeEdges (p : Program) (s : RTAState) (T : GoType) :
    (artInvokeEdges p s T).runtimeTypes = s.runtimeTypes := by
  unfold artInvokeEdges
  split
  · rfl
  · rw [foldl_rt_eq _ _ (fun st I _ =>
      foldl_rt_eq _ _ (fun st2 site _ => rt_addInvokeEdge p st2 site T) st) _]
    exact rt_interfaces p s T

/-- The runtime-type table after `addRuntimeTypeSelective`: the type is
recorded on first encounter and nothing else is — in particular no
structurally-reachable child. -/
theorem rt_addRuntimeTypeSelective (p : Program) (s : RTAState) (T0 : GoType)
    (sk : Bool) :
    (addRuntimeTypeSelective p s T0 sk).runtimeTypes =
      if (alookup s.runtimeTypes (unalias T0)).isSome then s.runtimeTypes
      else aset s.runtimeTypes (unalias T0) sk := by
  unfold addRuntimeTypeSelective
  simp only []
  split
  · rfl
  · split
    · rfl
    · rw [rt_artInvokeEdges, foldl_rt_eq _ _ (fun st sel _ => by
        split
        · exact rt_markSelection p st sel
        · rfl) _]

/-- Witness program for C5: an empty program (the method-set oracle is
empty everywhere). -/
def progC5 : Program :=
  { funcs := [], packages := [], methodSet := fun _ => [],
    reflectValueCall := none }

/-- **C5 (counterexample).** The selective path (`addRuntimeTypeSelective`)
records a pointer type with `skip_methods=false` without adding its
element type at all: the claimed recursive skip-true materialization
does not hold of every skip-false addition to `runtime_types`. -/
theorem C5_counterexample :
    alookup (addRuntimeTypeSelective progC5 initialState
      (.pointer (.basic "int")) false).runtimeTypes
      (.pointer (.basic "int")) = some false ∧
    alookup (addRuntimeTypeSelective progC5 initialState
      (.pointer (.basic "int")) false).runtimeTypes (.basic "int") = none :=
  ⟨rfl, rfl⟩

/-- **C5 (amended).** When a fresh type `T` is added through
`addRuntimeType` (with `skip_methods=false` and enough fuel), every
structurally-reachable child — pointer/slice/channel/array element, map
key and value, struct fields, tuple components, and for a named type a
pointer to it and its underlying type — ends recorded as a runtime type
with `skip_methods=true`; the selective path instead records exactly
the type itself and performs no structural recursion. -/
theorem C5_structural_recursion (p : Program) (n : Nat) (s : RTAState)
    (T T0 : GoType) (hfresh : alookup s.runtimeTypes T = none) :
    (∀ c ∈ structuralChildren T,
      alookup (addRuntimeType p (n+2) s T false).runtimeTypes c = some true) ∧
    ((addRuntimeTypeSelective p s T0 false).runtimeTypes =
      if (alookup s.runtimeTypes (unalias T0)).isSome then s.runtimeTypes
      else aset s.runtimeTypes (unalias T0) false) := by
  refine ⟨?_, rt_addRuntimeTypeSelective p s T0 false⟩
  intro c hc
  rw [addRuntimeType]
  simp only [hfresh]
  exact steps_rt_true
    (steps_artMarkAndWalk_of p (n+1)
      (fun s1 T1 sk1 => steps_addRuntimeType p (n+1) s1 T1 sk1) _ T false)
    (addRuntimeTypeStructure_marks p n _ T c hc)

/-- Witness for C5 at a concrete map type and a concrete slice type. -/
theorem C5_witness :
    (∀ c ∈ structuralChildren (.mapT (.basic "k") (.basic "v")),
      alookup (addRuntimeType progC5 2 initialState
        (.mapT (.basic "k") (.basic "v")) false).runtimeTypes c = some true) ∧
    ((addRuntimeTypeSelective progC5 initialState (.slice (.basic "e"))
        false).runtimeTypes =
      if (alookup initialState.runtimeTypes
          (unalias (.slice (.basic "e")))).isSome
      then initialState.runtimeTypes
      else aset initialState.runtimeTypes (unalias (.slice (.basic "e")))
        false) :=
  ⟨(C5_structural_recursion progC5 0 initialState
      (.mapT (.basic "k") (.basic "v")) (.slice (.basic "e")) rfl).1,
   (C5_structural_recursion progC5 0 initialState
      (.mapT (.basic "k") (.basic "v")) (.slice (.basic "e")) rfl).2⟩

/-- Folding state transformers that preserve a projection preserves
it. -/
theorem foldl_pres {α β : Type} (proj : RTAState → β)
    (g : RTAState → α → RTAState) (l : List α)
    (h : ∀ st x, x ∈ l → proj (g st x) = proj st) :
    ∀ s : RTAState, proj (l.foldl g s) = proj s := by
  induction l with
  | nil => intro s; rfl
  | cons x t ih =>
    intro s
    rw [List.foldl_cons,
      ih (fun st y hy => h st y (List.mem_cons_of_mem x hy)) (g s x),
      h s x (List.mem_cons_self x t)]

/-- Folding steps that fix the state under an invariant fixes it. -/
theorem foldl_fix {α : Type} (g : RTAState → α → RTAState) (l : List α)
    (P : RTAState → Prop) (h : ∀ st x, x ∈ l → P st → g st x = st) :
    ∀ s : RTAState, P s → l.foldl g s = s := by
  induction l with
  | nil => intro s _; rfl
  | cons x t ih =>
    intro s hP
    rw [List.foldl_cons, h s x (List.mem_cons_self x t) hP]
    exact ih (fun st y hy => h st y (List.mem_cons_of_mem x hy)) s hP

/-- `addReachableF` changes neither the current function nor the
invoke-site table. -/
theorem cf_inv_addReachableF (p : Program) (s : RTAState) (f : String)
    (b : Bool) :
    (addReachableF p s f b).currentFunction = s.currentFunction ∧
    (addReachableF p s f b).invokeSites = s.invokeSites := by
  cases hl : alookup s.reachable f with
  | some w =>
    rw [addReachableF_seen p s f b w hl]
    exact ⟨rfl, rfl⟩
  | none =>
    rw [addReachableF_new p s f b hl]
    rcases mgtr_eq_or p
        { s with reachable := aset s.reachable f b,
                 worklist := s.worklist ++ [f],
                 enqueued := s.enqueued ++ [f] } f with
      heq | ⟨tmpl, fd, _, _, _, _, heq⟩ <;> rw [heq] <;> exact ⟨rfl, rfl⟩

/-- `markSelection` changes neither the current function nor the
invoke-site table. -/
theorem cf_inv_markSelection (p : Program) (s : RTAState) (m : Method) :
    (markSelection p s m).currentFunction = s.currentFunction ∧
    (markSelection p s m).invokeSites = s.invokeSites := by
  unfold markSelection
  cases hf : m.fn with
  | some f =>
    simp only [hf]
    exact cf_inv_addReachableF p s f true
  | none =>
    simp only [hf]
    exact ⟨rfl, rfl⟩

/-- `shouldMarkMethodForReflection` reads the state only through the
current function. -/
theorem shouldMark_congr (p : Program) (s t : RTAState) (m : Method)
    (h : t.currentFunction = s.currentFunction) :
    shouldMarkMethodForReflection p t m =
      shouldMarkMethodForReflection p s m := by
  unfold shouldMarkMethodForReflection
  rw [h]

/-- `markSelection` marks its selection's SSA function with
`AddrTaken=true`. -/
theorem markSelection_marks (p : Program) (s : RTAState) (m : Method)
    (g : String) (hg : m.fn = some g) :
    alookup (markSelection p s m).reachable g = some true := by
  unfold markSelection
  simp only [hg]
  rw [addReachableF_self]
  simp

/-- `markSelection` keeps every true reachable flag. -/
theorem markSelection_reach_mono (p : Program) (s : RTAState) (m : Method)
    (g : String) (h : alookup s.reachable g = some true) :
    alookup (markSelection p s m).reachable g = some true := by
  unfold markSelection
  cases hf : m.fn with
  | some f =>
    simp only [hf]
    exact (addReachableF_reach_mono p s f true g).2 h
  | none =>
    simp only [hf]
    exact h

/-- `addReachableF` changes no reachable entry other than its argument
and the argument's origin template. -/
theorem addReachableF_frame (p : Program) (s : RTAState) (f : String)
    (b : Bool) (g : String) (hg1 : g ≠ f)
    (hg2 : (p.getFunc f).bind (fun fd => fd.origin) ≠ some g) :
    alookup (addReachableF p s f b).reachable g = alookup s.reachable g := by
  cases hl : alookup s.reachable f with
  | some w =>
    rw [addReachableF_seen p s f b w hl]
    exact alookup_aset_ne _ _ _ _ hg1
  | none =>
    rw [addReachableF_new p s f b hl]
    rcases mgtr_eq_or p
        { s with reachable := aset s.reachable f b,
                 worklist := s.worklist ++ [f],
                 enqueued := s.enqueued ++ [f] } f with
      heq | ⟨tmpl, fd, hgf, ho, _, _, heq⟩ <;> rw [heq]
    · exact alookup_aset_ne _ _ _ _ hg1
    · have htg : g ≠ tmpl := by
        intro h
        subst h
        apply hg2
        rw [hgf]
        simpa using ho
      rw [alookup_aset_ne _ _ _ _ htg]
      exact alookup_aset_ne _ _ _ _ hg1

/-- `markSelection` changes no reachable entry other than the
selection's function and that function's origin template. -/
theorem markSelection_frame (p : Program) (s : RTAState) (m : Method)
    (g : String)
    (h : ∀ f0, m.fn = some f0 → g ≠ f0 ∧
      (p.getFunc f0).bind (fun fd => fd.origin) ≠ some g) :
    alookup (markSelection p s m).reachable g = alookup s.reachable g := by
  unfold markSelection
  cases hf : m.fn with
  | some f =>
    simp only [hf]
    exact addReachableF_frame p s f true g (h f hf).1 (h f hf).2
  | none =>
    simp only [hf]
    rfl

/-- The selective marking fold changes neither the current function nor
the invoke-site table. -/
theorem selFold_cf_inv (p : Program) (l : List Method) (st : RTAState) :
    ((l.foldl (fun st2 sel =>
      if isExportedName sel.name && shouldMarkMethodForReflection p st2 sel then
        markSelection p st2 sel
      else st2) st)).currentFunction = st.currentFunction ∧
    ((l.foldl (fun st2 sel =>
      if isExportedName sel.name && shouldMarkMethodForReflection p st2 sel then
        markSelection p st2 sel
      else st2) st)).invokeSites = st.invokeSites := by
  constructor
  · refine foldl_pres (fun st2 => st2.currentFunction) _ l
      (fun st2 sel _ => ?_) st
    split
    · exact (cf_inv_markSelection p st2 sel).1
    · rfl
  · refine foldl_pres (fun st2 => st2.invokeSites) _ l
      (fun st2 sel _ => ?_) st
    split
    · exact (cf_inv_markSelection p st2 sel).2
    · rfl

/-- The selective marking fold keeps every true reachable flag. -/
theorem selFold_mono (p : Program) :
    ∀ (l : List Method) (st : RTAState) (g : String),
      alookup st.reachable g = some true →
      alookup ((l.foldl (fun st2 sel =>
        if isExportedName sel.name && shouldMarkMethodForReflection p st2 sel then
          markSelection p st2 sel
        else st2) st)).reachable g = some true := by
  intro l
  induction l with
  | nil => intro st g h; exact h
  | cons x t ih =>
    intro st g h
    rw [List.foldl_cons]
    refine ih _ g ?_
    split
    · exact markSelection_reach_mono p st x g h
    · exact h

/-- Every exported method accepted by the reflection filter is marked
by the selective marking fold. -/
theorem selFold_marks (p : Program) (r : RTAState) :
    ∀ (l : List Method) (st : RTAState),
      st.currentFunction = r.currentFunction →
      ∀ m ∈ l, isExportedName m.name = true →
        shouldMarkMethodForReflection p r m = true →
        ∀ g, m.fn = some g →
        alookup ((l.foldl (fun st2 sel =>
          if isExportedName sel.name && shouldMarkMethodForReflection p st2 sel then
            markSelection p st2 sel
          else st2) st)).reachable g = some true := by
  intro l
  induction l with
  | nil => intro st _ m hm; cases hm
  | cons x t ih =>
    intro st hcf m hm hexp hsel g hg
    rw [List.foldl_cons]
    rcases List.mem_cons.mp hm with hmx | hmt
    · subst hmx
      have hcond : (isExportedName m.name &&
          shouldMarkMethodForReflection p st m) = true := by
        rw [hexp, shouldMark_congr p r st m hcf, hsel]
        rfl
      rw [if_pos hcond]
      exact selFold_mono p t _ g (markSelection_marks p st m g hg)
    · refine ih _ ?_ m hmt hexp hsel g hg
      split
      · rw [(cf_inv_markSelection p st x).1]
        exact hcf
      · exact hcf

/-- The selective marking fold changes reachable entries only at
accepted methods (or their origin templates). -/
theorem selFold_frame (p : Program) (r : RTAState) :
    ∀ (l : List Method) (st : RTAState),
      st.currentFunction = r.currentFunction →
      ∀ g, alookup ((l.foldl (fun st2 sel =>
          if isExportedName sel.name && shouldMarkMethodForReflection p st2 sel then
            markSelection p st2 sel
          else st2) st)).reachable g = alookup st.reachable g ∨
        ∃ m, m ∈ l ∧ isExportedName m.name = true ∧
          shouldMarkMethodForReflection p r m = true ∧
          ∃ f0, m.fn = some f0 ∧
            (g = f0 ∨ (p.getFunc f0).bind (fun fd => fd.origin) = some g) := by
  intro l
  induction l with
  | nil => intro st _ g; exact Or.inl rfl
  | cons x t ih =>
    intro st hcf g
    rw [List.foldl_cons]
    have hcf' : (if isExportedName x.name &&
          shouldMarkMethodForReflection p st x then markSelection p st x
        else st).currentFunction = r.currentFunction := by
      split
      · rw [(cf_inv_markSelection p st x).1]
        exact hcf
      · exact hcf
    rcases ih _ hcf' g with hA | ⟨m, hm, hrest⟩
    · by_cases hcond : (isExportedName x.name &&
          shouldMarkMethodForReflection p st x) = true
      · rw [if_pos hcond] at hA ⊢
        have hpair : isExportedName x.name = true ∧
            shouldMarkMethodForReflection p st x = true := by simpa using hcond
        obtain ⟨hce, hcs⟩ := hpair
        by_cases hx : ∃ f0, x.fn = some f0 ∧
            (g = f0 ∨ (p.getFunc f0).bind (fun fd => fd.origin) = some g)
        · refine Or.inr ⟨x, List.mem_cons_self x t, hce, ?_, hx⟩
          rw [shouldMark_congr p r st x hcf] at hcs
          exact hcs
        · push_neg at hx
          refine Or.inl (hA.trans (markSelection_frame p st x g ?_))
          intro f0 hf0
          rcases hx f0 hf0 with ⟨h1, h2⟩
          exact ⟨h1, h2⟩
      · rw [if_neg hcond] at hA ⊢
        exact Or.inl hA
    · exact Or.inr ⟨m, List.mem_cons_of_mem x hm, hrest⟩

/-- `getConcreteTypeInfo` touches neither reachability nor the
invoke-site table. -/
theorem pres_getConcreteTypeInfo (p : Program) (s : RTAState) (C : GoType) :
    ((getConcreteTypeInfo p s C).1).reachable = s.reachable ∧
    ((getConcreteTypeInfo p s C).1).invokeSites = s.invokeSites := by
  unfold getConcreteTypeInfo
  cases h : alookup s.cmap (unalias C) with
  | some i => simp [h]
  | none =>
    simp [h]
    split <;> exact ⟨rfl, rfl⟩

/-- `interfaces` touches neither reachability nor the invoke-site
table. -/
theorem pres_interfaces (p : Program) (s : RTAState) (C : GoType) :
    ((interfaces p s C).1).reachable = s.reachable ∧
    ((interfaces p s C).1).invokeSites = s.invokeSites := by
  unfold interfaces
  rcases h : getConcreteTypeInfo p s C with ⟨s1, ci⟩
  have h1 : s1.reachable = s.reachable ∧ s1.invokeSites = s.invokeSites := by
    have := pres_getConcreteTypeInfo p s C
    rwa [h] at this
  simp only []
  split
  · constructor
    · rw [foldl_pres (fun st => st.reachable) _ _ (fun st pr _ => by
        split
        · rfl
        · rfl) s1]
      exact h1.1
    · rw [foldl_pres (fun st => st.invokeSites) _ _ (fun st pr _ => by
        split
        · rfl
        · rfl) s1]
      exact h1.2
  · exact h1

/-- With no registered invoke sites, the invoke-edge cross-product
marks nothing. -/
theorem artInvokeEdges_reach_empty (p : Program) (s : RTAState) (T : GoType)
    (hinv : s.invokeSites = []) :
    (artInvokeEdges p s T).reachable = s.reachable := by
  unfold artInvokeEdges
  split
  · rfl
  · rw [foldl_fix _ (interfaces p s T).2 (fun st => st.invokeSites = [])
      (fun st I _ hP => by rw [hP]; simp [alookup]) (interfaces p s T).1
      (by exact ((pres_interfaces p s T).2).trans hinv)]
    exact (pres_interfaces p s T).1

/-- **C2 (amended).** A reflection-context make-interface
(`addRuntimeTypeSelective` on a fresh non-interface type, with no
registered invoke sites) marks exactly the exported methods accepted by
`shouldMarkMethodForReflection` — the union over the allow-list entries
of safe functions called by the enclosing function and the common
fallback names — and their origin templates: every accepted exported
method's function is marked reachable, and any other reachable entry is
left exactly as it was. -/
theorem C2_reflection_selective_marking (p : Program) (s : RTAState)
    (T0 : GoType)
    (hfresh : alookup s.runtimeTypes (unalias T0) = none)
    (hni : isIfaceUnder (unalias T0) = false)
    (hinv : s.invokeSites = []) :
    (∀ m ∈ p.methodSet (unalias T0), isExportedName m.name = true →
      shouldMarkMethodForReflection p s m = true →
      ∀ g, m.fn = some g →
        alookup (addRuntimeTypeSelective p s T0 false).reachable g =
          some true) ∧
    (∀ g, alookup (addRuntimeTypeSelective p s T0 false).reachable g =
        alookup s.reachable g ∨
      ∃ m, m ∈ p.methodSet (unalias T0) ∧ isExportedName m.name = true ∧
        shouldMarkMethodForReflection p s m = true ∧
        ∃ f0, m.fn = some f0 ∧
          (g = f0 ∨ (p.getFunc f0).bind (fun fd => fd.origin) = some g)) := by
  have hred : addRuntimeTypeSelective p s T0 false =
      artInvokeEdges p
        ((p.methodSet (unalias T0)).foldl (fun st2 sel =>
          if isExportedName sel.name &&
              shouldMarkMethodForReflection p st2 sel then
            markSelection p st2 sel
          else st2)
          { s with runtimeTypes := aset s.runtimeTypes (unalias T0) false })
        (unalias T0) := by
    unfold addRuntimeTypeSelective
    simp [hfresh, hni]
  have hreachEmpty := artInvokeEdges_reach_empty p
    ((p.methodSet (unalias T0)).foldl (fun st2 sel =>
      if isExportedName sel.name &&
          shouldMarkMethodForReflection p st2 sel then
        markSelection p st2 sel
      else st2)
      { s with runtimeTypes := aset s.runtimeTypes (unalias T0) false })
    (unalias T0)
    (by
      rw [(selFold_cf_inv p _ _).2]
      exact hinv)
  constructor
  · intro m hm hexp hsel g hg
    rw [hred, hreachEmpty]
    exact selFold_marks p s (p.methodSet (unalias T0))
      { s with runtimeTypes := aset s.runtimeTypes (unalias T0) false }
      rfl m hm hexp hsel g hg
  · intro g
    rw [hred, hreachEmpty]
    rcases selFold_frame p s (p.methodSet (unalias T0))
      { s with runtimeTypes := aset s.runtimeTypes (unalias T0) false }
      rfl g with hA | hB
    · exact Or.inl hA
    · exact Or.inr hB

/-- Witness type for C2: a named struct type `m.U`. -/
def methUC2 : GoType := .named "m.U" (.structT []) []

/-- The method set of `m.U`: an allow-listed `GobEncode`, a fallback
`String`, and an unrelated exported `Export`. -/
def msetUC2 : List Method :=
  [{ pkg := some "example.com/m", name := "GobEncode", nparams := 0,
     nresults := 2, fn := some "U.GobEncode", obj := "U.GobEncode" },
   { pkg := some "example.com/m", name := "String", nparams := 0,
     nresults := 1, fn := some "U.String", obj := "U.String" },
   { pkg := some "example.com/m", name := "Export", nparams := 0,
     nresults := 0, fn := some "U.Export", obj := "U.Export" }]

/-- The static call to the gob encoder inside the enclosing function. -/
def callC2 : CallCommon :=
  { isInvoke := false, value := some (.fn "gobEncode"), args := [],
    sigId := "s1", methodPkg := none, methodName := "", ifaceT := .iface [] }

/-- Witness program for C2: `enc` calls `(*encoding/gob.Encoder).Encode`
and converts a `m.U` value to the empty interface. -/
def progC2 : Program :=
  { funcs := [
      ("enc", { str := "m.enc", obj := none, origin := none,
                blocks := [[.call callC2]], sigId := "s0",
                pkgPath := some "example.com/m" }),
      ("gobEncode", { str := "(*encoding/gob.Encoder).Encode", obj := none,
                      origin := none, blocks := [], sigId := "s1",
                      pkgPath := some "encoding/gob" }),
      ("U.GobEncode", { str := "(m.U).GobEncode", obj := none, origin := none,
                        blocks := [], sigId := "s2",
                        pkgPath := some "example.com/m" }),
      ("U.String", { str := "(m.U).String", obj := none, origin := none,
                     blocks := [], sigId := "s3",
                     pkgPath := some "example.com/m" }),
      ("U.Export", { str := "(m.U).Export", obj := none, origin := none,
                     blocks := [], sigId := "s4",
                     pkgPath := some "example.com/m" })],
    packages := [],
    methodSet := fun T => if T = methUC2 then msetUC2 else [],
    reflectValueCall := none }

/-- The engine state while scanning `enc`. -/
def sC2 : RTAState := { initialState with currentFunction := some "enc" }

/-- **C2 (counterexample).** Converting `m.U` to the empty interface
inside a function whose only allow-listed callee is the gob encoder
(allow-list entry exactly `[GobEncode]`) also marks `U.String` — a
method not associated with the called function, admitted by the
common-names fallback — so the engine does not mark *exactly* the
allow-list methods of the called function. -/
theorem C2_counterexample :
    alookup knownSafeFunctions "(*encoding/gob.Encoder).Encode" =
      some ["GobEncode"] ∧
    (["GobEncode"].contains "String") = false ∧
    alookup (addRuntimeTypeSelective progC2 sC2 methUC2 false).reachable
      "U.String" = some true ∧
    alookup (addRuntimeTypeSelective progC2 sC2 methUC2 false).reachable
      "U.Export" = none :=
  ⟨rfl, rfl, rfl, rfl⟩

/-- Witness for C2 on the concrete gob scenario. -/
theorem C2_witness :
    (∀ m ∈ progC2.methodSet (unalias methUC2), isExportedName m.name = true →
      shouldMarkMethodForReflection progC2 sC2 m = true →
      ∀ g, m.fn = some g →
        alookup (addRuntimeTypeSelective progC2 sC2 methUC2 false).reachable g
          = some true) ∧
    (∀ g, alookup (addRuntimeTypeSelective progC2 sC2 methUC2
        false).reachable g = alookup sC2.reachable g ∨
      ∃ m, m ∈ progC2.methodSet (unalias methUC2) ∧
        isExportedName m.name = true ∧
        shouldMarkMethodForReflection progC2 sC2 m = true ∧
        ∃ f0, m.fn = some f0 ∧
          (g = f0 ∨ (progC2.getFunc f0).bind (fun fd => fd.origin) = some g)) :=
  C2_reflection_selective_marking progC2 sC2 methUC2 rfl rfl rfl

/-- A state transition that leaves reachability, reachable objects, the
current function and the invoke-site table untouched. -/
def Inert (s s' : RTAState) : Prop :=
  s'.reachable = s.reachable ∧ s'.reachableObjects = s.reachableObjects ∧
  s'.currentFunction = s.currentFunction ∧ s'.invokeSites = s.invokeSites

theorem Inert.refl (s : RTAState) : Inert s s := ⟨rfl, rfl, rfl, rfl⟩

theorem Inert.comp {s s' s'' : RTAState} (h1 : Inert s s')
    (h2 : Inert s' s'') : Inert s s'' :=
  ⟨h2.1.trans h1.1, h2.2.1.trans h1.2.1, h2.2.2.1.trans h1.2.2.1,
   h2.2.2.2.trans h1.2.2.2⟩

/-- `getConcreteTypeInfo` is inert. -/
theorem inert_getConcreteTypeInfo (p : Program) (s : RTAState) (C : GoType) :
    Inert s ((getConcreteTypeInfo p s C).1) := by
  unfold getConcreteTypeInfo
  cases h : alookup s.cmap (unalias C) with
  | some i => simp [h]; exact Inert.refl s
  | none =>
    simp [h]
    split <;> exact ⟨rfl, rfl, rfl, rfl⟩

/-- `interfaces` is inert. -/
theorem inert_interfaces (p : Program) (s : RTAState) (C : GoType) :
    Inert s ((interfaces p s C).1) := by
  unfold interfaces
  rcases h : getConcreteTypeInfo p s C with ⟨s1, ci⟩
  have h1 : Inert s s1 := by
    have := inert_getConcreteTypeInfo p s C
    rwa [h] at this
  simp only []
  split
  · refine Inert.comp h1 ?_
    refine ⟨?_, ?_, ?_, ?_⟩ <;>
      · refine foldl_pres _ _ _ (fun st pr _ => ?_) s1
        split
        · rfl
        · rfl
  · exact h1

/-- With no registered invoke sites, the invoke-edge cross-product is
inert. -/
theorem inert_artInvokeEdges (p : Program) (s : RTAState) (T : GoType)
    (hinv : s.invokeSites = []) : Inert s (artInvokeEdges p s T) := by
  unfold artInvokeEdges
  split
  · exact Inert.refl s
  · rw [foldl_fix _ (interfaces p s T).2 (fun st => st.invokeSites = [])
      (fun st I _ hP => by rw [hP]; simp [alookup]) (interfaces p s T).1
      (by exact ((inert_interfaces p s T).2.2.2).trans hinv)]
    exact inert_interfaces p s T

/-- `addTypeToIndex` is inert. -/
theorem inert_addTypeToIndex (p : Program) (s : RTAState) (T : GoType) :
    Inert s (addTypeToIndex p s T) := by
  unfold addTypeToIndex
  cases hmap : s.interfaceToTypes with
  | none => exact Inert.refl s
  | some m0 =>
    simp only []
    split
    · exact Inert.refl s
    · rcases h : getConcreteTypeInfo p s T with ⟨s1, ci⟩
      have h1 : Inert s s1 := by
        have := inert_getConcreteTypeInfo p s T
        rwa [h] at this
      refine Inert.comp h1 ?_
      refine ⟨?_, ?_, ?_, ?_⟩ <;>
        · refine foldl_pres _ _ _ (fun st pr _ => ?_) s1
          split
          · rfl
          · split
            · rfl
            · rfl

/-- With every program method unexported, the exported-method marking
is the identity. -/
theorem artExportedMark_inert (p : Program) (s : RTAState)
    (mset : List Method) (hm : ∀ m ∈ mset, isExportedName m.name = false) :
    artExportedMark p s mset = s := by
  unfold artExportedMark
  refine foldl_fix _ mset (fun _ => True) (fun st m hmem _ => ?_) s trivial
  simp [hm m hmem]

/-- A fold of inert steps is inert. -/
theorem foldl_inert {α : Type} (g : RTAState → α → RTAState) (l : List α)
    (h : ∀ st x, x ∈ l → st.currentFunction = none → st.invokeSites = [] →
      Inert st (g st x)) :
    ∀ s, s.currentFunction = none → s.invokeSites = [] →
      Inert s (l.foldl g s) := by
  induction l with
  | nil => intro s _ _; exact Inert.refl s
  | cons x t ih =>
    intro s hcf hinv
    rw [List.foldl_cons]
    have h1 := h s x (List.mem_cons_self x t) hcf hinv
    exact Inert.comp h1
      (ih (fun st y hy => h st y (List.mem_cons_of_mem x hy)) (g s x)
        (h1.2.2.1.trans hcf) (h1.2.2.2.trans hinv))

/-- The structure walk is inert, given that `addRuntimeType` at the
same fuel is. -/
theorem inert_addRuntimeTypeStructure_of (p : Program) (n : Nat)
    (hA : ∀ s T skip, s.currentFunction = none → s.invokeSites = [] →
      Inert s (addRuntimeType p n s T skip)) :
    ∀ s T, s.currentFunction = none → s.invokeSites = [] →
      Inert s (addRuntimeTypeStructure p n s T) := by
  intro s T hcf hinv
  have hA2 : ∀ (s1 : RTAState) T1 T2 sk1 sk2, s1.currentFunction = none →
      s1.invokeSites = [] →
      Inert s1 (addRuntimeType p n (addRuntimeType p n s1 T1 sk1) T2 sk2) := by
    intro s1 T1 T2 sk1 sk2 h1 h2
    have ha := hA s1 T1 sk1 h1 h2
    exact Inert.comp ha (hA _ T2 sk2 (ha.2.2.1.trans h1) (ha.2.2.2.trans h2))
  unfold addRuntimeTypeStructure
  cases T
  case «alias» t => exact hA s (unalias t) true hcf hinv
  case pointer e => exact hA s e true hcf hinv
  case slice e => exact hA s e true hcf hinv
  case chanT e => exact hA s e true hcf hinv
  case mapT k v => exact hA2 s k v true true hcf hinv
  case named nm u msigs => exact hA2 s (.pointer (.named nm u msigs)) u true true hcf hinv
  case array e => exact hA s e true hcf hinv
  case structT fields =>
    exact foldl_inert _ fields (fun st f _ h1 h2 => hA st f true h1 h2) s hcf hinv
  case tuple comps =>
    exact foldl_inert _ comps (fun st c _ h1 h2 => hA st c true h1 h2) s hcf hinv
  case basic nm => exact Inert.refl s
  case sig ps rs => exact Inert.refl s
  case iface ms => exact Inert.refl s
  case typeparam nm => exact Inert.refl s

/-- The marking-and-walk tail is inert (no current function, no invoke
sites, every method unexported), given that `addRuntimeType` at the
same fuel is. -/
theorem inert_artMarkAndWalk_of (p : Program)
    (hm : ∀ U m, m ∈ p.methodSet U → isExportedName m.name = false) (n : Nat)
    (hA : ∀ s T skip, s.currentFunction = none → s.invokeSites = [] →
      Inert s (addRuntimeType p n s T skip)) :
    ∀ s T skip0, s.currentFunction = none → s.invokeSites = [] →
      Inert s (artMarkAndWalk p n s T skip0) := by
  intro s3 T skip0 hcf hinv
  have hA2 : ∀ (s1 : RTAState) T1 T2 sk1 sk2, s1.currentFunction = none →
      s1.invokeSites = [] →
      Inert s1 (addRuntimeType p n (addRuntimeType p n s1 T1 sk1) T2 sk2) := by
    intro s1 T1 T2 sk1 sk2 h1 h2
    have ha := hA s1 T1 sk1 h1 h2
    exact Inert.comp ha (hA _ T2 sk2 (ha.2.2.1.trans h1) (ha.2.2.2.trans h2))
  unfold artMarkAndWalk
  simp only []
  have h4 : Inert s3 (if skip0 then s3 else artInvokeEdges p s3 T) := by
    split
    · exact Inert.refl s3
    · exact inert_artInvokeEdges p s3 T hinv
  set s4 := if skip0 then s3 else artInvokeEdges p s3 T with hs4
  have hcf4 : s4.currentFunction = none := h4.2.2.1.trans hcf
  have hinv4 : s4.invokeSites = [] := h4.2.2.2.trans hinv
  have hsk5 : (if skip0 then ((skip0, s4) : Bool × RTAState)
      else if s4.currentFunction.isSome && isInKnownSafeContext p s4 then
        (true, artSafeContextMark p s4 (p.methodSet T))
      else (skip0, s4)) = (skip0, s4) := by
    rw [hcf4]
    simp
  rw [hsk5]
  simp only []
  have h6 : Inert s4 (if skip0 then s4 else artExportedMark p s4 (p.methodSet T)) := by
    split
    · exact Inert.refl s4
    · rw [artExportedMark_inert p s4 (p.methodSet T) (fun m hmem => hm T m hmem)]
      exact Inert.refl s4
  set s6 := if skip0 then s4 else artExportedMark p s4 (p.methodSet T) with hs6
  have pre : Inert s3 s6 := Inert.comp h4 h6
  have hcf6 : s6.currentFunction = none := pre.2.2.1.trans hcf
  have hinv6 : s6.invokeSites = [] := pre.2.2.2.trans hinv
  cases T
  case basic nm => exact pre
  case iface ms => exact pre
  case typeparam nm => exact pre
  case «alias» t => exact Inert.comp pre (hA s6 (unalias t) skip0 hcf6 hinv6)
  case pointer e => exact Inert.comp pre (hA s6 e skip0 hcf6 hinv6)
  case slice e => exact Inert.comp pre (hA s6 e skip0 hcf6 hinv6)
  case chanT e => exact Inert.comp pre (hA s6 e skip0 hcf6 hinv6)
  case array e => exact Inert.comp pre (hA s6 e skip0 hcf6 hinv6)
  case mapT k v => exact Inert.comp pre (hA2 s6 k v skip0 skip0 hcf6 hinv6)
  case sig ps rs => exact Inert.comp pre (hA2 s6 ps rs skip0 skip0 hcf6 hinv6)
  case structT fields =>
    exact Inert.comp pre
      (foldl_inert _ fields (fun st f _ h1 h2 => hA st f skip0 h1 h2) s6 hcf6 hinv6)
  case tuple comps =>
    exact Inert.comp pre
      (foldl_inert _ comps (fun st c _ h1 h2 => hA st c skip0 h1 h2) s6 hcf6 hinv6)
  case named nm u msigs =>
    have ha := hA2 s6 (.pointer (.named nm u msigs)) u skip0 true hcf6 hinv6
    refine Inert.comp pre (Inert.comp ha
      (foldl_inert _ msigs (fun st sg _ h1 h2 => hA st sg skip0 h1 h2) _
        (ha.2.2.1.trans hcf6) (ha.2.2.2.trans hinv6)))

/-- With no current function, no registered invoke sites and every
program method unexported, `addRuntimeType` marks nothing: it only
grows the runtime-type table and the index. -/
theorem addRuntimeType_inert (p : Program)
    (hm : ∀ U m, m ∈ p.methodSet U → isExportedName m.name = false) :
    ∀ fuel s T skip, s.currentFunction = none → s.invokeSites = [] →
      Inert s (addRuntimeType p fuel s T skip) := by
  intro fuel
  induction fuel with
  | zero =>
    intro s T skip _ _
    simp only [addRuntimeType]
    exact Inert.refl s
  | succ n ih =>
    intro s T skip hcf hinv
    rw [addRuntimeType]
    cases hprev : alookup s.runtimeTypes T with
    | some prev =>
      simp only [hprev]
      split
      · exact ⟨rfl, rfl, rfl, rfl⟩
      · exact Inert.refl s
    | none =>
      simp only [hprev]
      have h1 : Inert s { s with runtimeTypes := aset s.runtimeTypes T skip } :=
        ⟨rfl, rfl, rfl, rfl⟩
      have h2 := inert_addTypeToIndex p
        { s with runtimeTypes := aset s.runtimeTypes T skip } T
      have h12 := Inert.comp h1 h2
      have h3 := inert_addRuntimeTypeStructure_of p n ih _ T
        (h12.2.2.1.trans hcf) (h12.2.2.2.trans hinv)
      have h123 := Inert.comp h12 h3
      exact Inert.comp h123
        (inert_artMarkAndWalk_of p hm n ih _ T skip
          (h123.2.2.1.trans hcf) (h123.2.2.2.trans hinv))

/-- The unexported interface method `mark` required by `m.I`. -/
def markSpecC1 : Method :=
  { pkg := some "example.com/m", name := "mark", nparams := 0, nresults := 0,
    fn := none, obj := "I.mark" }

/-- The interface underlying `m.I`. -/
def ifaceC1 : GoType := .iface [markSpecC1]

/-- The named interface type `m.I`. -/
def typeIC1 : GoType := .named "m.I" ifaceC1 []

/-- The concrete type `m.A` implementing `m.I`. -/
def typeAC1 : GoType := .named "m.A" (.structT []) []

/-- `m.A`'s implementation of `mark`. -/
def markAC1 : Method :=
  { pkg := some "example.com/m", name := "mark", nparams := 0, nresults := 0,
    fn := some "A.mark", obj := "A.mark" }

/-- The sole package of the C1 witness program. -/
def pkgC1 : PackageData :=
  { path := some "example.com/m", typeMembers := [typeAC1] }

/-- Witness program for C1: `m.A` implements `m.I` through the
unexported marker method `mark` only. -/
def progC1 : Program :=
  { funcs := [
      ("A.mark", { str := "(m.A).mark", obj := none, origin := none,
                   blocks := [], sigId := "s0",
                   pkgPath := some "example.com/m" })],
    packages := [pkgC1],
    methodSet := fun T => if T = typeAC1 then [markAC1] else [],
    reflectValueCall := none }

/-- Every method of the C1 witness program is unexported. -/
theorem hm_progC1 :
    ∀ U m, m ∈ progC1.methodSet U → isExportedName m.name = false := by
  intro U m hmem
  have hms : progC1.methodSet U = if U = typeAC1 then [markAC1] else [] := rfl
  rw [hms] at hmem
  by_cases h : U = typeAC1
  · rw [if_pos h] at hmem
    rw [List.mem_singleton] at hmem
    subst hmem
    rfl
  · rw [if_neg h] at hmem
    cases hmem

/-- **C1 (counterexample).** Converting `*m.I` to the empty interface
when the implementing type `m.A` is *not* yet a runtime type takes the
fresh-type branch (`addRuntimeType`), which marks only exported
methods: the unexported marker method `A.mark` required by `m.I` ends
up neither in `Reachable` nor in `ReachableObjects`, refuting the
"regardless of whether T was already a runtime type" part. -/
theorem C1_counterexample :
    typesImplements progC1.methodSet typeAC1 ifaceC1 = true ∧
    isExportedName "mark" = false ∧
    alookup (handleMakeInterface progC1 5 initialState (.iface [])
      (.pointer typeIC1)).reachable "A.mark" = none ∧
    "A.mark" ∉ (handleMakeInterface progC1 5 initialState (.iface [])
      (.pointer typeIC1)).reachableObjects := by
  have hred : handleMakeInterface progC1 5 initialState (.iface [])
      (.pointer typeIC1) =
      addRuntimeType progC1 5 initialState typeAC1 false := rfl
  have hinert := addRuntimeType_inert progC1 hm_progC1 5 initialState
    typeAC1 false rfl rfl
  refine ⟨rfl, rfl, ?_, ?_⟩
  · rw [hred, hinert.1]
    rfl
  · rw [hred, hinert.2.1]
    simp [initialState]

/-- Establish a step-monotone property at one element of a fold of
silent steps: the property holds of the fold's result. -/
theorem foldl_establish {α : Type} {p : Program} (g : RTAState → α → RTAState)
    (l : List α) (s : RTAState) (P : RTAState → Prop)
    (hsteps : ∀ st x, x ∈ l → Steps p [] st (g st x))
    (hmono : ∀ st st', Steps p [] st st' → P st → P st')
    (x : α) (hx : x ∈ l)
    (hest : ∀ st, Steps p [] s st → P (g st x)) :
    P (l.foldl g s) := by
  induction l generalizing s with
  | nil => cases hx
  | cons y t ih =>
    rw [List.foldl_cons]
    rcases List.mem_cons.mp hx with hxy | hxt
    · subst hxy
      exact hmono _ _
        (Steps.foldl _ _ _
          (fun st z hz => hsteps st z (List.mem_cons_of_mem x hz)))
        (hest s (Steps.rfl p s))
    · refine ih (g s y)
        (fun st z hz => hsteps st z (List.mem_cons_of_mem y hz)) hxt
        (fun st hst => hest st ?_)
      have := (hsteps s y (List.mem_cons_self y t)).trans hst
      simpa using this

/-- `addReachableF` does not touch the reachable-object set. -/
theorem ro_addReachableF (p : Program) (s : RTAState) (f : String) (b : Bool) :
    (addReachableF p s f b).reachableObjects = s.reachableObjects := by
  cases hl : alookup s.reachable f with
  | some w => rw [addReachableF_seen p s f b w hl]
  | none =>
    rw [addReachableF_new p s f b hl]
    rcases mgtr_eq_or p
        { s with reachable := aset s.reachable f b,
                 worklist := s.worklist ++ [f],
                 enqueued := s.enqueued ++ [f] } f with
      heq | ⟨tmpl, fd, _, _, _, _, heq⟩ <;> rw [heq]

/-- `addReachableObject` records its argument. -/
theorem addReachableObject_self (s : RTAState) (obj : String) :
    obj ∈ (addReachableObject s obj).reachableObjects := by
  unfold addReachableObject
  simp only []
  split
  · next h => exact h
  · exact List.mem_append_right _ (List.mem_singleton.mpr rfl)

/-- `markSelection` keeps every reachable object. -/
theorem markSelection_obj_mono (p : Program) (s : RTAState) (m : Method)
    (o : String) (h : o ∈ s.reachableObjects) :
    o ∈ (markSelection p s m).reachableObjects := by
  unfold markSelection
  cases hf : m.fn with
  | some f =>
    simp only [hf]
    rw [ro_addReachableF]
    exact h
  | none =>
    simp only [hf]
    unfold addReachableObject
    simp only []
    split
    · exact h
    · exact List.mem_append_left _ h

/-- The interface-method resolution fold keeps true flags and reachable
objects. -/
theorem ifaceFold_mono (p : Program) (T : GoType) :
    ∀ (l : List Method) (st : RTAState),
      (∀ g, alookup st.reachable g = some true →
        alookup ((l.foldl (fun st2 m2 =>
          match msetLookup (p.methodSet T) m2.pkg m2.name with
          | some sel2 => markSelection p st2 sel2
          | none => st2) st)).reachable g = some true) ∧
      (∀ o, o ∈ st.reachableObjects →
        o ∈ ((l.foldl (fun st2 m2 =>
          match msetLookup (p.methodSet T) m2.pkg m2.name with
          | some sel2 => markSelection p st2 sel2
          | none => st2) st)).reachableObjects) := by
  intro l
  induction l with
  | nil => intro st; exact ⟨fun g h => h, fun o h => h⟩
  | cons x t ih =>
    intro st
    rw [List.foldl_cons]
    constructor
    · intro g h
      refine (ih _).1 g ?_
      cases hx : msetLookup (p.methodSet T) x.pkg x.name with
      | some sel2 =>
        simp only [hx]
        exact markSelection_reach_mono p st sel2 g h
      | none =>
        simp only [hx]
        exact h
    · intro o h
      refine (ih _).2 o ?_
      cases hx : msetLookup (p.methodSet T) x.pkg x.name with
      | some sel2 =>
        simp only [hx]
        exact markSelection_obj_mono p st sel2 o h
      | none =>
        simp only [hx]
        exact h

/-- The interface-method resolution fold marks every resolvable method
of the list. -/
theorem ifaceFold_marks (p : Program) (T : GoType) (method sel : Method)
    (hsel : msetLookup (p.methodSet T) method.pkg method.name = some sel) :
    ∀ (l : List Method), method ∈ l → ∀ st : RTAState,
      (∀ g, sel.fn = some g →
        alookup ((l.foldl (fun st2 m2 =>
          match msetLookup (p.methodSet T) m2.pkg m2.name with
          | some sel2 => markSelection p st2 sel2
          | none => st2) st)).reachable g = some true) ∧
      (sel.fn = none →
        sel.obj ∈ ((l.foldl (fun st2 m2 =>
          match msetLookup (p.methodSet T) m2.pkg m2.name with
          | some sel2 => markSelection p st2 sel2
          | none => st2) st)).reachableObjects) := by
  intro l
  induction l with
  | nil => intro hm; cases hm
  | cons x t ih =>
    intro hm st
    rw [List.foldl_cons]
    rcases List.mem_cons.mp hm with hmx | hmt
    · subst hmx
      simp only [hsel]
      constructor
      · intro g hg
        exact (ifaceFold_mono p T t _).1 g (markSelection_marks p st sel g hg)
      · intro hn
        refine (ifaceFold_mono p T t _).2 sel.obj ?_
        unfold markSelection
        simp only [hn]
        exact addReachableObject_self st sel.obj
    · exact ih hmt _

/-- `markIfaceMsetMethods` marks the function (or records the object)
of every interface method resolvable in `T`'s value method set. -/
theorem markIfaceMsetMethods_marks (p : Program) (T iface : GoType)
    (method sel : Method) (hmeth : method ∈ ifaceMethods iface)
    (hsel : msetLookup (p.methodSet T) method.pkg method.name = some sel)
    (st : RTAState) :
    (∀ g, sel.fn = some g →
      alookup (markIfaceMsetMethods p st T iface).reachable g = some true) ∧
    (sel.fn = none →
      sel.obj ∈ (markIfaceMsetMethods p st T iface).reachableObjects) := by
  unfold markIfaceMsetMethods
  exact ifaceFold_marks p T method sel hsel (ifaceMethods iface) hmeth st

/-- The exported-method marking changes reachable entries only at
exported methods (or their origin templates). -/
theorem artExportedMark_frame (p : Program) :
    ∀ (mset : List Method) (s : RTAState) (g : String),
      alookup (artExportedMark p s mset).reachable g =
        alookup s.reachable g ∨
      ∃ m, m ∈ mset ∧ isExportedName m.name = true ∧
        ∃ f0, m.fn = some f0 ∧
          (g = f0 ∨ (p.getFunc f0).bind (fun fd => fd.origin) = some g) := by
  intro mset
  unfold artExportedMark
  induction mset with
  | nil => intro s g; exact Or.inl rfl
  | cons x t ih =>
    intro s g
    rw [List.foldl_cons]
    rcases ih (if isExportedName x.name then
        if s.currentFunction.isSome && isInKnownSafeContext p s &&
            ((currentFuncSafeList p s).getD []).contains x.name then s
        else markSelection p s x
      else s) g with hA | ⟨m, hm, hrest⟩
    · by_cases hexp : isExportedName x.name
      · rw [if_pos hexp] at hA ⊢
        by_cases hskip : (s.currentFunction.isSome && isInKnownSafeContext p s &&
            ((currentFuncSafeList p s).getD []).contains x.name) = true
        · rw [if_pos hskip] at hA ⊢
          exact Or.inl hA
        · rw [if_neg hskip] at hA ⊢
          by_cases hx : ∃ f0, x.fn = some f0 ∧
              (g = f0 ∨ (p.getFunc f0).bind (fun fd => fd.origin) = some g)
          · exact Or.inr ⟨x, List.mem_cons_self x t, hexp, hx⟩
          · push_neg at hx
            refine Or.inl (hA.trans (markSelection_frame p s x g ?_))
            intro f0 hf0
            exact hx f0 hf0
      · rw [if_neg hexp] at hA ⊢
        exact Or.inl hA
    · exact Or.inr ⟨m, List.mem_cons_of_mem x hm, hrest⟩

/-- **C1 (amended).** When the `*I_p`-to-`any` conversion walks the
program's concrete types, for every type `T` that implements `I_p` and
is *already* a runtime type, every method required by `I_p` that
resolves in `T`'s value method set — including unexported marker
methods — is marked reachable (or its object recorded when no SSA
function exists); a type not yet a runtime type is instead added as a
runtime type normally, whose exported-method marking step touches only
exported methods (and their origin templates). -/
theorem C1_pointer_iface_propagation (p : Program) (fuel : Nat)
    (s : RTAState) (targetIface : GoType) (pkg : PackageData) (T : GoType)
    (sk : Bool) (method sel : Method)
    (hpkg : pkg ∈ p.packages) (hpath : pkg.path.isSome = true)
    (hT : T ∈ pkg.typeMembers)
    (hni : isIfaceUnder T = false)
    (himpl : (typesImplements p.methodSet T targetIface ||
      typesImplements p.methodSet (.pointer T) targetIface) = true)
    (hrt : alookup s.runtimeTypes T = some sk)
    (hmeth : method ∈ ifaceMethods targetIface)
    (hsel : msetLookup (p.methodSet T) method.pkg method.name = some sel) :
    (∀ g, sel.fn = some g →
      alookup (markImplementorsMethodsReachable p fuel s
        targetIface).reachable g = some true) ∧
    (sel.fn = none →
      sel.obj ∈ (markImplementorsMethodsReachable p fuel s
        targetIface).reachableObjects) ∧
    (∀ (mset : List Method) (s2 : RTAState) (g : String),
      alookup (artExportedMark p s2 mset).reachable g =
        alookup s2.reachable g ∨
      ∃ m, m ∈ mset ∧ isExportedName m.name = true ∧
        ∃ f0, m.fn = some f0 ∧
          (g = f0 ∨ (p.getFunc f0).bind (fun fd => fd.origin) = some g)) := by
  have hP : (∀ g, sel.fn = some g →
      alookup (markImplementorsMethodsReachable p fuel s
        targetIface).reachable g = some true) ∧
      (sel.fn = none →
        sel.obj ∈ (markImplementorsMethodsReachable p fuel s
          targetIface).reachableObjects) := by
    unfold markImplementorsMethodsReachable
    refine @foldl_establish PackageData p _ p.packages s
      (fun st => (∀ g, sel.fn = some g →
          alookup st.reachable g = some true) ∧
        (sel.fn = none → sel.obj ∈ st.reachableObjects))
      (fun st pkg2 _ => ?_)
      (fun st st' hst hPst =>
        ⟨fun g hg => hst.flag g (hPst.1 g hg),
         fun hn => hst.objs _ (hPst.2 hn)⟩)
      pkg hpkg
      (fun st hSst => ?_)
    · split
      · exact Steps.rfl p st
      · refine Steps.foldl _ _ st (fun st2 T2 _ => ?_)
        split
        · exact Steps.rfl p st2
        · split
          · split
            · exact steps_markIfaceMsetMethods p st2 T2 targetIface
            · exact steps_addRuntimeType p fuel st2 T2 false
          · exact Steps.rfl p st2
    · obtain ⟨path0, hpath0⟩ := Option.isSome_iff_exists.mp hpath
      simp only [hpath0]
      refine @foldl_establish GoType p _ pkg.typeMembers st
        (fun st2 => (∀ g, sel.fn = some g →
            alookup st2.reachable g = some true) ∧
          (sel.fn = none → sel.obj ∈ st2.reachableObjects))
        (fun st2 T2 _ => ?_)
        (fun st2 st2' hst hPst =>
          ⟨fun g hg => hst.flag g (hPst.1 g hg),
           fun hn => hst.objs _ (hPst.2 hn)⟩)
        T hT
        (fun st2 hst2 => ?_)
      · split
        · exact Steps.rfl p st2
        · split
          · split
            · exact steps_markIfaceMsetMethods p st2 T2 targetIface
            · exact steps_addRuntimeType p fuel st2 T2 false
          · exact Steps.rfl p st2
      · have hrt2 : (alookup st2.runtimeTypes T).isSome = true := by
          obtain ⟨b, hb, _⟩ := (hSst.trans hst2).rt T sk hrt
          rw [hb]
          rfl
        simp only [hni, Bool.false_eq_true, if_false, himpl, if_true, hrt2]
        exact markIfaceMsetMethods_marks p T targetIface method sel hmeth
          hsel st2
  exact ⟨hP.1, hP.2, fun mset s2 g => artExportedMark_frame p mset s2 g⟩

/-- The C1 witness state: `m.A` is already a runtime type. -/
def sC1 : RTAState := { initialState with runtimeTypes := [(typeAC1, false)] }

/-- Witness for C1: with `m.A` already a runtime type, the unexported
marker method `A.mark` required by `m.I` is marked reachable. -/
theorem C1_witness :
    (∀ g, markAC1.fn = some g →
      alookup (markImplementorsMethodsReachable progC1 2 sC1
        ifaceC1).reachable g = some true) ∧
    (markAC1.fn = none →
      markAC1.obj ∈ (markImplementorsMethodsReachable progC1 2 sC1
        ifaceC1).reachableObjects) ∧
    (∀ (mset : List Method) (s2 : RTAState) (g : String),
      alookup (artExportedMark progC1 s2 mset).reachable g =
        alookup s2.reachable g ∨
      ∃ m, m ∈ mset ∧ isExportedName m.name = true ∧
        ∃ f0, m.fn = some f0 ∧
          (g = f0 ∨ (progC1.getFunc f0).bind (fun fd => fd.origin) = some g)) :=
  C1_pointer_iface_propagation progC1 2 sC1 ifaceC1 pkgC1 typeAC1 false
    markSpecC1 markAC1 (by decide) rfl (by decide) rfl (by decide) rfl
    (by decide) rfl

end Rta
